import Mathlib

/-!
Verification of the tlcrt runtime memory manager (src/lib/rt.cpp,
src/include/tlc/rt.h) against its natural-language specification.

The C++ sources are shallowly embedded: `std::unordered_map` becomes an
association list (iteration order = list order; the C++ iteration order is
unspecified, so the embedding fixes one concrete order), `std::unordered_set`
becomes a duplicate-free list with append-on-insert, `i64`/`i32` become `Int`
(the claims never exercise wrap-around), and `throw` becomes an `Except`
result paired with the context as mutated so far (C++ exceptions do not roll
back partial mutations, and several claims depend on that).

The function table (`m_functions`, `void*` payloads) is omitted: no modelled
operation reads it and it is not a GC root.  The three scratch vectors
`m_magc_tmp_garbage_allocs`, `m_migc_tmp_garbage_allocs` and
`m_release_tmp_valid_garbage_allocs` are cleared before every use in the
source, so they are modelled as locals of the operations that use them.
All code is modelled in the default build configuration (NO_MINOR_GC not
defined), which is the configuration the repository's tests exercise.
-/

namespace TlcRt

/-- Tag of a tagged 64-bit value (`enum class ValueType`). -/
inductive ValueType where
  | integer
  | memory_handle
deriving DecidableEq

/-- `struct Value`: a tagged payload. -/
structure Value where
  data : Int
  type : ValueType
deriving DecidableEq

/-- `struct MemoryHandle`: a heap cell. The constructor sets `flags` to 0. -/
structure MemoryHandle where
  data : List Value
  alloc_id : Int
  ref_count : Int
  flags : Int
deriving DecidableEq

/-- Error kinds raised by the runtime.  The C++ code throws
`std::runtime_error` with distinguishing messages; `atOutOfRange` is the
`std::out_of_range` thrown by `unordered_map::at`; `outOfFuel` is a model
artifact for the mark loops (proved unreachable on well-formed contexts). -/
inductive RtError where
  | invalidMemHandle
  | badAllocSize
  | invalidIndex
  | popFromEmpty
  | eraseUndefinedVar
  | atOutOfRange
  | outOfFuel
deriving DecidableEq

/-- Association-list lookup (`unordered_map::find` / `::at`). -/
def lookupA {α : Type} : List (Int × α) → Int → Option α
  | [], _ => none
  | (k, a) :: rest, key => if k = key then some a else lookupA rest key

/-- `unordered_map::find(key) != end()`. -/
def containsA {α : Type} (l : List (Int × α)) (key : Int) : Bool :=
  (lookupA l key).isSome

/-- `map[key] = a` on a key-unique association list (update or append). -/
def upsertA {α : Type} : List (Int × α) → Int → α → List (Int × α)
  | [], key, a => [(key, a)]
  | (k, b) :: rest, key, a =>
      if k = key then (key, a) :: rest else (k, b) :: upsertA rest key a

/-- `unordered_map::erase(key)`: removes the (unique) binding of `key`. -/
def eraseA {α : Type} : List (Int × α) → Int → List (Int × α)
  | [], _ => []
  | (k, b) :: rest, key => if k = key then rest else (k, b) :: eraseA rest key

/-- `unordered_map::emplace(key, a)`: inserts only if `key` is absent. -/
def emplaceA {α : Type} (l : List (Int × α)) (key : Int) (a : α) :
    List (Int × α) :=
  if containsA l key then l else l ++ [(key, a)]

/-- In-place mutation of the cell bound to `key` (`map.at(key)` as lvalue). -/
def modifyA {α : Type} (l : List (Int × α)) (key : Int) (f : α → α) :
    List (Int × α) :=
  l.map fun kv => if kv.1 = key then (kv.1, f kv.2) else kv

/-- `unordered_set::emplace`: appends `x` if absent (model iteration order). -/
def insertS (s : List Int) (x : Int) : List Int :=
  if x ∈ s then s else s ++ [x]

/-- `class Context` (function table omitted, scratch vectors modelled as
locals; see the file header). -/
structure Context where
  m_alloc_counter : Int := 1
  m_data : List (Int × Value) := []
  m_mem_handles : List (Int × MemoryHandle) := []
  m_gc_candidates : List Int := []
  m_magc_visited_mem_handles : List Int := []
  m_magc_next_mem_handles : List Int := []
  m_magc_new_mem_handles : List Int := []
  m_magc_last_handle : Int := 0
  m_magc_last_handle_entry : Int := 0
  m_magc_state : Int := 0
deriving DecidableEq

/-- A default-constructed context. -/
def Context.init : Context := {}

/-- `Context::assertValidMemHandle` as a test: the value is tagged
`memory_handle` and its identifier is present in the heap store. -/
def validMemHandle (ctx : Context) (value : Value) : Bool :=
  if value.type = ValueType.memory_handle then containsA ctx.m_mem_handles value.data
  else false

/-- `Context::incref`: validate, then `ref_count++`. -/
def incref (ctx : Context) (mem_handle : Value) : Except RtError Context :=
  if validMemHandle ctx mem_handle then
    .ok { ctx with
            m_mem_handles := modifyA ctx.m_mem_handles mem_handle.data
              fun mh => { mh with ref_count := mh.ref_count + 1 } }
  else .error .invalidMemHandle

/-- The tail of `Context::decref`: after the decrement, if the stored
`ref_count` is ≤ 0, append the identifier to the candidate list. -/
def decrefCheck (ctx' : Context) (id : Int) : Context :=
  match lookupA ctx'.m_mem_handles id with
  | some mh =>
      if mh.ref_count ≤ 0 then
        { ctx' with m_gc_candidates := ctx'.m_gc_candidates ++ [id] }
      else ctx'
  | none => ctx'

/-- The body of `Context::decref` after its validity check: `--ref_count`,
and if the result is ≤ 0, append the identifier to the candidate list. -/
def decrefPresent (ctx : Context) (id : Int) : Context :=
  decrefCheck
    { ctx with
        m_mem_handles := modifyA ctx.m_mem_handles id
          fun mh => { mh with ref_count := mh.ref_count - 1 } }
    id

/-- `Context::decref`: validate, then decrement and possibly enqueue. -/
def decref (ctx : Context) (mem_handle : Value) : Except RtError Context :=
  if validMemHandle ctx mem_handle then .ok (decrefPresent ctx mem_handle.data)
  else .error .invalidMemHandle

/-- `Context::alloc`: `size < 0` fails with BadSize; otherwise install a cell
with `size` zero-initialized Values, `ref_count = 0`, fresh identifier. -/
def alloc (ctx : Context) (size : Int) : Except RtError Value × Context :=
  if size < 0 then (.error .badAllocSize, ctx)
  else
    let alloc_id := ctx.m_alloc_counter
    (.ok ⟨alloc_id, ValueType.memory_handle⟩,
     { ctx with
         m_alloc_counter := alloc_id + 1,
         m_mem_handles := emplaceA ctx.m_mem_handles alloc_id
           ⟨List.replicate size.toNat ⟨0, ValueType.integer⟩, alloc_id, 0, 0⟩ })

/-- `Context::push`: validate the array, incref a handle value, append. -/
def push (ctx : Context) (array value : Value) : Except RtError Unit × Context :=
  if validMemHandle ctx array then
    match (if value.type = ValueType.memory_handle then incref ctx value else .ok ctx) with
    | .error e => (.error e, ctx)
    | .ok ctx1 =>
        (.ok (), { ctx1 with
                     m_mem_handles := modifyA ctx1.m_mem_handles array.data
                       fun mh => { mh with data := mh.data ++ [value] } })
  else (.error .invalidMemHandle, ctx)

/-- `Context::pop`: validate, fail on empty, decref a popped handle, remove
the last element, return it (without an implicit increment). -/
def pop (ctx : Context) (array : Value) : Except RtError Value × Context :=
  if validMemHandle ctx array then
    match lookupA ctx.m_mem_handles array.data with
    | none => (.error .invalidMemHandle, ctx)
    | some mh =>
        if mh.data = [] then (.error .popFromEmpty, ctx)
        else
          let value := mh.data.getLastD ⟨0, ValueType.integer⟩
          match (if value.type = ValueType.memory_handle then decref ctx value else .ok ctx) with
          | .error e => (.error e, ctx)
          | .ok ctx1 =>
              (.ok value, { ctx1 with
                              m_mem_handles := modifyA ctx1.m_mem_handles array.data
                                fun mh => { mh with data := mh.data.dropLast } })
  else (.error .invalidMemHandle, ctx)

/-- `Context::write`: validate, bounds-check, decref the overwritten handle,
incref the incoming handle, store.  Note the incref's validity check runs
only after the decref already mutated the context. -/
def write (ctx : Context) (array : Value) (index : Int) (value : Value) :
    Except RtError Unit × Context :=
  if validMemHandle ctx array then
    match lookupA ctx.m_mem_handles array.data with
    | none => (.error .invalidMemHandle, ctx)
    | some mh =>
        if index < 0 ∨ (mh.data.length : Int) ≤ index then (.error .invalidIndex, ctx)
        else
          let current := mh.data.getD index.toNat ⟨0, ValueType.integer⟩
          match (if current.type = ValueType.memory_handle then decref ctx current else .ok ctx) with
          | .error e => (.error e, ctx)
          | .ok ctx1 =>
              match (if value.type = ValueType.memory_handle then incref ctx1 value else .ok ctx1) with
              | .error e => (.error e, ctx1)
              | .ok ctx2 =>
                  (.ok (), { ctx2 with
                               m_mem_handles := modifyA ctx2.m_mem_handles array.data
                                 fun mh => { mh with data := mh.data.set index.toNat value } })
  else (.error .invalidMemHandle, ctx)

/-- `Context::read`: validate, bounds-check, return the slot (no refcount
change). -/
def read (ctx : Context) (array : Value) (index : Int) :
    Except RtError Value × Context :=
  if validMemHandle ctx array then
    match lookupA ctx.m_mem_handles array.data with
    | none => (.error .invalidMemHandle, ctx)
    | some mh =>
        if index < 0 ∨ (mh.data.length : Int) ≤ index then (.error .invalidIndex, ctx)
        else (.ok (mh.data.getD index.toNat ⟨0, ValueType.integer⟩), ctx)
  else (.error .invalidMemHandle, ctx)

/-- `Context::varIsDefined`. -/
def varIsDefined (ctx : Context) (id : Int) : Bool :=
  containsA ctx.m_data id

/-- `Context::assign`: `m_data[id]` value-initializes an `INT(0)` slot when
`id` is absent, then decref the old slot's handle, incref the new value's
handle, and store.  The incref validates `value` only after the decref. -/
def assign (ctx : Context) (id : Int) (value : Value) :
    Except RtError Unit × Context :=
  let ctx0 := { ctx with m_data := emplaceA ctx.m_data id ⟨0, ValueType.integer⟩ }
  let current := (lookupA ctx0.m_data id).getD ⟨0, ValueType.integer⟩
  match (if current.type = ValueType.memory_handle then decref ctx0 current else .ok ctx0) with
  | .error e => (.error e, ctx0)
  | .ok ctx1 =>
      match (if value.type = ValueType.memory_handle then incref ctx1 value else .ok ctx1) with
      | .error e => (.error e, ctx1)
      | .ok ctx2 => (.ok (), { ctx2 with m_data := upsertA ctx2.m_data id value })

/-- `Context::erase`: fail on undefined variables, decref a held handle,
remove the entry. -/
def erase (ctx : Context) (id : Int) : Except RtError Unit × Context :=
  if varIsDefined ctx id then
    let value := (lookupA ctx.m_data id).getD ⟨0, ValueType.integer⟩
    match (if value.type = ValueType.memory_handle then decref ctx value else .ok ctx) with
    | .error e => (.error e, ctx)
    | .ok ctx1 => (.ok (), { ctx1 with m_data := eraseA ctx1.m_data id })
  else (.error .eraseUndefinedVar, ctx)

/-- `Context::decoupleMemHandle`: decref every handle-tagged slot whose
target is still present in the heap store. -/
def decoupleMemHandle (ctx : Context) (mh : MemoryHandle) : Context :=
  mh.data.foldl
    (fun c v =>
      if v.type = ValueType.memory_handle ∧ containsA c.m_mem_handles v.data = true then
        decrefPresent c v.data
      else c)
    ctx

/-- `Context::destroyMemHandle`: erase the cell from the heap store. -/
def destroyMemHandle (ctx : Context) (mh : MemoryHandle) : Context :=
  { ctx with m_mem_handles := eraseA ctx.m_mem_handles mh.alloc_id }

/-- The decouple pass of `Context::releaseGarbage` (`map.at` can fail). -/
def decouplePass (ctx : Context) : List Int → Except RtError Unit × Context
  | [] => (.ok (), ctx)
  | ga :: rest =>
      match lookupA ctx.m_mem_handles ga with
      | none => (.error .atOutOfRange, ctx)
      | some mh => decouplePass (decoupleMemHandle ctx mh) rest

/-- The destroy pass of `Context::releaseGarbage` (`map.at` can fail, and
does fail on a duplicated identifier). -/
def destroyPass (ctx : Context) : List Int → Except RtError Unit × Context
  | [] => (.ok (), ctx)
  | ga :: rest =>
      match lookupA ctx.m_mem_handles ga with
      | none => (.error .atOutOfRange, ctx)
      | some mh => destroyPass (destroyMemHandle ctx mh) rest

/-- `Context::releaseGarbage`: filter to the still-present identifiers, then
decouple all of them, then destroy all of them. -/
def releaseGarbage (ctx : Context) (garbage_allocs : List Int) :
    Except RtError Unit × Context :=
  let valid := garbage_allocs.filter fun ga => containsA ctx.m_mem_handles ga
  match decouplePass ctx valid with
  | (.ok _, ctx1) => destroyPass ctx1 valid
  | (.error e, ctx1) => (.error e, ctx1)

/-- `Context::minorGC`: collect the still-present candidates whose
`ref_count` is ≤ 0, release them, then clear the candidate list.  The clear
runs after the release (so it also discards identifiers the decouple pass
just pushed); an exception skips it. -/
def minorGC (ctx : Context) : Except RtError Unit × Context :=
  let garbage := ctx.m_gc_candidates.filter fun p =>
    match lookupA ctx.m_mem_handles p with
    | none => false
    | some mh => mh.ref_count ≤ 0
  match releaseGarbage ctx garbage with
  | (.ok _, ctx1) => (.ok (), { ctx1 with m_gc_candidates := [] })
  | (.error e, ctx1) => (.error e, ctx1)

/-- `flags & 0x1` (bit 0 of a flags word).  On every signed 32-bit value
this equals `f % 2` with a nonnegative remainder, which is how the masked
operation is modelled (`Int.land` does not compute in the kernel). -/
def bit0 (f : Int) : Int := f % 2

/-- `flags &= 0xFFFFFFFE` (clear bit 0; the mask is −2 as a signed 32-bit
integer), modelled arithmetically as subtracting bit 0. -/
def clearBit0 (f : Int) : Int := f - f % 2

/-- `flags |= 0x1` (set bit 0), modelled arithmetically. -/
def setBit0 (f : Int) : Int := f - f % 2 + 1

/-- Clear bit 0 of every cell's flags (the Reset phase). -/
def clearMarkFlags (heap : List (Int × MemoryHandle)) : List (Int × MemoryHandle) :=
  heap.map fun kv => (kv.1, { kv.2 with flags := clearBit0 kv.2.flags })

/-- Set bit 0 of the cell bound to `id` (`mh.flags |= 0x1`). -/
def setFlagBit (heap : List (Int × MemoryHandle)) (id : Int) : List (Int × MemoryHandle) :=
  modifyA heap id fun mh => { mh with flags := setBit0 mh.flags }

/-- Seed the mark frontier with every handle held by the variable table. -/
def seedFrontier (vars : List (Int × Value)) (next : List Int) : List Int :=
  vars.foldl
    (fun s kv => if kv.2.type = ValueType.memory_handle then insertS s kv.2.data else s)
    next

/-- `true` when a step budget is present and exhausted
(`step_counter >= max_steps`). -/
def msExhausted (ms : Option Int) (sc : Int) : Bool :=
  match ms with
  | some m => decide (m ≤ sc)
  | none => false

/-- The inner loop of the mark phase over one cell's `data`: `ihe` is the
running slot index, `lhe` mirrors `m_magc_last_handle_entry` (slots already
handled in this cell, skipped on resumption), `sc` the step counter.  With
`ms = none` this is the unbudgeted inner loop of the full branch (identical
code without the cursor skip and budget check, which are then vacuous).
Returns (new frontier, `lhe`, `sc`, budget-exhausted?). -/
def markInner (visited : List Int) (newf : List Int) (data : List Value)
    (ihe lhe sc : Int) (ms : Option Int) : List Int × Int × Int × Bool :=
  match data with
  | [] => (newf, lhe, sc, false)
  | v :: rest =>
      if ihe < lhe then markInner visited newf rest (ihe + 1) lhe sc ms
      else if msExhausted ms sc then (newf, lhe, sc, true)
      else
        let newf' :=
          if v.type = ValueType.memory_handle ∧ v.data ∉ visited then insertS newf v.data
          else newf
        markInner visited newf' rest (ihe + 1) (lhe + 1) (sc + 1) ms

/-- Result of one pass of the outer mark loop over the current frontier. -/
structure MarkOuterRes where
  heap : List (Int × MemoryHandle)
  newf : List Int
  lh : Int
  lhe : Int
  sc : Int
  early : Bool
deriving DecidableEq

/-- The outer loop of the mark phase over the current frontier `next`: `ih`
is the running handle index, `lh` mirrors `m_magc_last_handle` (handles
already completed, skipped on resumption).  Each visited handle is looked up
with `map.at` (failing like the C++ on an absent identifier), its mark bit
is set, and its slots are scanned by `markInner`.  With `ms = none` this is
the unbudgeted frontier pass of the full branch. -/
def markOuter (heap : List (Int × MemoryHandle)) (visited : List Int)
    (next : List Int) (newf : List Int) (ih lh lhe sc : Int) (ms : Option Int) :
    Except RtError MarkOuterRes :=
  match next with
  | [] => .ok ⟨heap, newf, lh, lhe, sc, false⟩
  | p :: rest =>
      if ih < lh then markOuter heap visited rest newf (ih + 1) lh lhe sc ms
      else
        match lookupA heap p with
        | none => .error .atOutOfRange
        | some mh =>
            let heap' := setFlagBit heap p
            match markInner visited newf mh.data 0 lhe sc ms with
            | (newf', lhe', sc', true) => .ok ⟨heap', newf', lh, lhe', sc', true⟩
            | (newf', _, sc', false) =>
                markOuter heap' visited rest newf' (ih + 1) (lh + 1) 0 sc' ms

/-- The fixed-point mark loop of the full (`max_steps == -1`) branch: while
the frontier is non-empty, move it into the visited set, scan it, and swap
in the freshly collected frontier.  `fuel` is a model artifact bounding the
number of frontier generations (heap size + 1 always suffices; see
`incLoop_sim`, which drives the budgeted loop by this loop's success). -/
def markLoop (fuel : Nat) (heap : List (Int × MemoryHandle))
    (visited next : List Int) :
    Except RtError (List (Int × MemoryHandle) × List Int) :=
  match next with
  | [] => .ok (heap, visited)
  | _ :: _ =>
      match fuel with
      | 0 => .error .outOfFuel
      | fuel' + 1 =>
          let visited' := next.foldl insertS visited
          match markOuter heap visited' next [] 0 0 0 0 none with
          | .error e => .error e
          | .ok r => markLoop fuel' r.heap visited' r.newf

/-- The sweep: collect every cell whose mark bit is clear, in heap-store
iteration order. -/
def sweepGarbage (heap : List (Int × MemoryHandle)) : List Int :=
  heap.filterMap fun kv =>
    if bit0 kv.2.flags = 0 then some kv.2.alloc_id else none

/-- The `max_steps == -1` branch of `Context::majorGC`: clear the scratch
sets, reset all mark bits, seed the frontier from the variable table, run
the mark loop to completion, then sweep and release.  A mark-loop failure
(absent identifier in the frontier; unreachable on well-formed contexts)
surfaces the error with the heap as it was before the loop. -/
def majorGCFull (ctx : Context) : Except RtError Unit × Context :=
  let ctx0 := { ctx with
                  m_magc_next_mem_handles := [],
                  m_magc_visited_mem_handles := [],
                  m_magc_new_mem_handles := [] }
  let heap0 := clearMarkFlags ctx0.m_mem_handles
  let seed := seedFrontier ctx0.m_data []
  match markLoop (heap0.length + 1) heap0 [] seed with
  | .error e => (.error e, { ctx0 with m_mem_handles := heap0, m_magc_next_mem_handles := seed })
  | .ok (heap1, visited1) =>
      let ctxM := { ctx0 with
                      m_mem_handles := heap1,
                      m_magc_visited_mem_handles := visited1 }
      match releaseGarbage ctxM (sweepGarbage heap1) with
      | (.ok _, ctx2) => (.ok (), ctx2)
      | (.error e, ctx2) => (.error e, ctx2)


/-- The while loop of the budgeted branch of `Context::majorGC`: states 3
(move frontier into visited), 4 (scan frontier under the step budget, with
resumption cursors), 5 (swap frontiers, reset cursors).  The step counter
`sc` is local to one call and persists across frontier generations within
it.  Returns `true` when the budget was exhausted (the C++ `return` inside
state 4) and `false` when the frontier emptied and the loop exited.  `fuel`
bounds the number of frontier generations (a model artifact, sufficient on
well-formed contexts). -/
def incLoop (fuel : Nat) (ctx : Context) (sc k : Int) :
    Except RtError Bool × Context :=
  match ctx.m_magc_next_mem_handles with
  | [] => (.ok false, ctx)
  | _ :: _ =>
      match fuel with
      | 0 => (.error .outOfFuel, ctx)
      | fuel' + 1 =>
          let ctx1 :=
            if ctx.m_magc_state = 3 then
              { ctx with
                  m_magc_visited_mem_handles :=
                    ctx.m_magc_next_mem_handles.foldl insertS ctx.m_magc_visited_mem_handles,
                  m_magc_state := 4 }
            else ctx
          match (if ctx1.m_magc_state = 4 then
                   markOuter ctx1.m_mem_handles ctx1.m_magc_visited_mem_handles
                     ctx1.m_magc_next_mem_handles ctx1.m_magc_new_mem_handles
                     0 ctx1.m_magc_last_handle ctx1.m_magc_last_handle_entry sc (some k)
                 else
                   .ok ⟨ctx1.m_mem_handles, ctx1.m_magc_new_mem_handles,
                        ctx1.m_magc_last_handle, ctx1.m_magc_last_handle_entry, sc, false⟩) with
          | .error e => (.error e, ctx1)
          | .ok r =>
              let ctx2 :=
                if ctx1.m_magc_state = 4 then
                  { ctx1 with
                      m_mem_handles := r.heap,
                      m_magc_new_mem_handles := r.newf,
                      m_magc_last_handle := r.lh,
                      m_magc_last_handle_entry := r.lhe,
                      m_magc_state := if r.early then 4 else 5 }
                else ctx1
              if r.early then (.ok true, ctx2)
              else
                let ctx3 :=
                  if ctx2.m_magc_state = 5 then
                    { ctx2 with
                        m_magc_last_handle := 0,
                        m_magc_last_handle_entry := 0,
                        m_magc_next_mem_handles := ctx2.m_magc_new_mem_handles,
                        m_magc_new_mem_handles := [],
                        m_magc_state := 3 }
                  else ctx2
                incLoop fuel' ctx3 r.sc k

/-- The budgeted (`max_steps != -1`) branch of `Context::majorGC`: state 0
clears the scratch sets, state 1 resets the mark bits, state 2 seeds the
frontier, then the while loop runs mark under the budget.  Only when the
loop exits (frontier empty) do the sweep and release run and the state
return to 0. -/
def majorGCInc (ctx : Context) (max_steps : Int) : Except RtError Unit × Context :=
  let c0 :=
    if ctx.m_magc_state = 0 then
      { ctx with
          m_magc_next_mem_handles := [],
          m_magc_visited_mem_handles := [],
          m_magc_new_mem_handles := [],
          m_magc_state := 1 }
    else ctx
  let c1 :=
    if c0.m_magc_state = 1 then
      { c0 with m_mem_handles := clearMarkFlags c0.m_mem_handles, m_magc_state := 2 }
    else c0
  let c2 :=
    if c1.m_magc_state = 2 then
      { c1 with
          m_magc_next_mem_handles := seedFrontier c1.m_data c1.m_magc_next_mem_handles,
          m_magc_state := 3 }
    else c1
  match incLoop (c2.m_mem_handles.length + 2) c2 0 max_steps with
  | (.error e, c3) => (.error e, c3)
  | (.ok true, c3) => (.ok (), c3)
  | (.ok false, c3) =>
      match releaseGarbage c3 (sweepGarbage c3.m_mem_handles) with
      | (.ok _, c4) => (.ok (), { c4 with m_magc_state := 0 })
      | (.error e, c4) => (.error e, c4)

/-- `Context::majorGC(max_steps = -1)`: dispatch between the full and the
budgeted branch. -/
def majorGC (ctx : Context) (max_steps : Int) : Except RtError Unit × Context :=
  if max_steps = -1 then majorGCFull ctx else majorGCInc ctx max_steps

/-- Repeatedly call `majorGC(k)` until the internal incremental state
returns to 0, with at most `n` calls. -/
def iterUntilDone (n : Nat) (ctx : Context) (k : Int) :
    Except RtError Unit × Context :=
  match n with
  | 0 => (.error .outOfFuel, ctx)
  | n' + 1 =>
      match majorGCInc ctx k with
      | (.error e, c1) => (.error e, c1)
      | (.ok _, c1) =>
          if c1.m_magc_state = 0 then (.ok (), c1) else iterUntilDone n' c1 k

/-- The context operations named by invariant claim C1 (`major_gc` run to
completion is the sentinel-budget call). -/
inductive Op where
  | alloc (size : Int)
  | read (array : Value) (index : Int)
  | write (array : Value) (index : Int) (value : Value)
  | push (array value : Value)
  | pop (array : Value)
  | assign (id : Int) (value : Value)
  | erase (id : Int)
  | minorGC
  | majorGCFull
deriving DecidableEq

/-- Run one operation, keeping the state only when it returns normally. -/
def applyOp (ctx : Context) : Op → Except RtError Context
  | .alloc n => match alloc ctx n with
                | (.ok _, c) => .ok c
                | (.error e, _) => .error e
  | .read a i => match read ctx a i with
                 | (.ok _, c) => .ok c
                 | (.error e, _) => .error e
  | .write a i v => match write ctx a i v with
                    | (.ok _, c) => .ok c
                    | (.error e, _) => .error e
  | .push a v => match push ctx a v with
                 | (.ok _, c) => .ok c
                 | (.error e, _) => .error e
  | .pop a => match pop ctx a with
              | (.ok _, c) => .ok c
              | (.error e, _) => .error e
  | .assign x v => match assign ctx x v with
                   | (.ok _, c) => .ok c
                   | (.error e, _) => .error e
  | .erase x => match erase ctx x with
                | (.ok _, c) => .ok c
                | (.error e, _) => .error e
  | .minorGC => match minorGC ctx with
                | (.ok _, c) => .ok c
                | (.error e, _) => .error e
  | .majorGCFull => match majorGC ctx (-1) with
                    | (.ok _, c) => .ok c
                    | (.error e, _) => .error e

/-- Run a sequence of operations from a context; the run aborts at the
first operation that raises. -/
def runOps (ctx : Context) : List Op → Except RtError Context
  | [] => .ok ctx
  | op :: rest =>
      match applyOp ctx op with
      | .error e => .error e
      | .ok c => runOps c rest

deriving instance DecidableEq for Except

/-- Shorthand for an `INT`-tagged Value. -/
def intV (n : Int) : Value := ⟨n, ValueType.integer⟩

/-- Shorthand for a `HANDLE`-tagged Value. -/
def handleV (n : Int) : Value := ⟨n, ValueType.memory_handle⟩

/-- The ref_count of the cell bound to `id`, if present. -/
def rcAt (ctx : Context) (id : Int) : Option Int :=
  (lookupA ctx.m_mem_handles id).map MemoryHandle.ref_count

/-- The data sequence of the cell bound to `id`, if present. -/
def dataAt (ctx : Context) (id : Int) : Option (List Value) :=
  (lookupA ctx.m_mem_handles id).map MemoryHandle.data

/-- The identifiers in the heap store, in iteration order. -/
def heapKeys (ctx : Context) : List Int :=
  ctx.m_mem_handles.map Prod.fst

/-- Number of `HANDLE`-tagged occurrences of identifier `t` in a list of
Values (as an `Int`, for refcount arithmetic). -/
def countVal (vs : List Value) (t : Int) : Int :=
  (vs.count ⟨t, ValueType.memory_handle⟩ : Int)

/-- Number of `HANDLE`-tagged Values carrying identifier `t` across all
variable-table entries and all data slots of all live cells (spec I1's
right-hand side). -/
def countRefs (ctx : Context) (t : Int) : Int :=
  countVal (ctx.m_data.map Prod.snd) t +
    (ctx.m_mem_handles.map fun kv => countVal kv.2.data t).sum

/-- Invariant I1: each live cell's `ref_count` equals the number of
`HANDLE`-tagged Values carrying its identifier. -/
def I1holds (ctx : Context) : Prop :=
  ∀ kv ∈ ctx.m_mem_handles, kv.2.ref_count = countRefs ctx kv.1

instance (ctx : Context) : Decidable (I1holds ctx) := by
  unfold I1holds; infer_instance

/-- Well-formedness of a context: the inductive invariant maintained by
every normally-returning operation (established at `Context.init`).
Besides I1 it records the representation invariants of the two maps,
identifier/key agreement, validity of every stored handle (spec I2's
"live handles"), the allocation-counter bound (I3), that the mark bit is
the only flag bit in use, and that no incremental major-GC cycle is in
progress. -/
structure WF (ctx : Context) : Prop where
  dataNodup : (ctx.m_data.map Prod.fst).Nodup
  heapNodup : (ctx.m_mem_handles.map Prod.fst).Nodup
  allocId : ∀ kv ∈ ctx.m_mem_handles, kv.2.alloc_id = kv.1
  counterBound : ∀ kv ∈ ctx.m_mem_handles, kv.1 < ctx.m_alloc_counter
  flagsOK : ∀ kv ∈ ctx.m_mem_handles, kv.2.flags = 0 ∨ kv.2.flags = 1
  varsValid : ∀ kv ∈ ctx.m_data, kv.2.type = ValueType.memory_handle →
    containsA ctx.m_mem_handles kv.2.data = true
  cellsValid : ∀ kv ∈ ctx.m_mem_handles, ∀ v ∈ kv.2.data,
    v.type = ValueType.memory_handle → containsA ctx.m_mem_handles v.data = true
  refcounts : I1holds ctx
  stateZero : ctx.m_magc_state = 0
  lhZero : ctx.m_magc_last_handle = 0
  lheZero : ctx.m_magc_last_handle_entry = 0

/-- Validity of all data slots of all cells of a heap, as a standalone
predicate on heap stores (stable under flag and refcount changes). -/
def heapValid (heap : List (Int × MemoryHandle)) : Prop :=
  ∀ kv ∈ heap, ∀ v ∈ kv.2.data,
    v.type = ValueType.memory_handle → containsA heap v.data = true

/-- The cycle scenario shared by spec scenarios 2 and 6 (claims C3 and C7):
two mutually referencing cells, rooted, then unrooted, then minor-collected. -/
def gcCycleOps : List Op :=
  [.alloc 1, .alloc 1, .write (handleV 1) 0 (handleV 2),
   .write (handleV 2) 0 (handleV 1), .assign 1 (handleV 1),
   .assign 2 (handleV 2), .erase 1, .erase 2, .minorGC]

/-- The context after `gcCycleOps` (the run returns normally; see the
claim theorems, which pin this down with `runOps`). -/
def gcCycleCtx : Context :=
  match runOps Context.init gcCycleOps with
  | .ok c => c
  | .error _ => Context.init

/-- Chained-release scenario for claim C6 (the "Nested MemoryHandle" test):
cell 1 holds the only reference to cell 2; unrooting cell 1 and running the
minor collector releases cell 1, whose decouple pass drives cell 2's
ref_count to 0 and pushes it onto the candidate list. -/
def chainRelOps : List Op :=
  [.alloc 1, .alloc 0, .write (handleV 1) 0 (handleV 2),
   .assign 1 (handleV 1), .erase 1, .minorGC]

/-- The context after `chainRelOps`. -/
def chainRelCtx : Context :=
  match runOps Context.init chainRelOps with
  | .ok c => c
  | .error _ => Context.init

/-- Setup for claim C5: cell 1 rooted at nothing holds cell 2 in its slot 0,
and variable 1 also holds cell 2, so cell 2's ref_count is 2. -/
def c5Ops : List Op :=
  [.alloc 1, .alloc 0, .assign 1 (handleV 2), .write (handleV 1) 0 (handleV 2)]

/-- The context after `c5Ops`. -/
def c5Ctx : Context :=
  match runOps Context.init c5Ops with
  | .ok c => c
  | .error _ => Context.init

/-- Setup for claim C4's counterexample: one rooted cell, then a completed
sentinel major GC. -/
def c4Ops : List Op := [.alloc 0, .assign 1 (handleV 1), .majorGCFull]

/-- The context after `c4Ops`. -/
def c4Ctx : Context :=
  match runOps Context.init c4Ops with
  | .ok c => c
  | .error _ => Context.init

/-- C7: after `a=alloc(1); b=alloc(1); write(a,0,b); write(b,0,a);
assign(1,a); assign(2,b); erase(1); erase(2); minor_gc();` the call
`read(a,0)` succeeds and returns a Value whose payload is b's identifier
(the cycle survives reference counting); after a subsequent sentinel
`major_gc()`, `read(a,0)` fails with InvalidHandle. -/
theorem C7_cycle_survives_minor_dies_on_major :
    runOps Context.init gcCycleOps = .ok gcCycleCtx ∧
    (read gcCycleCtx (handleV 1) 0).1 = .ok (handleV 2) ∧
    (majorGC gcCycleCtx (-1)).1 = .ok () ∧
    (read (majorGC gcCycleCtx (-1)).2 (handleV 1) 0).1 = .error .invalidMemHandle := by
  decide

/-- C3, counterexample: after the same sequence followed by `major_gc(1)`,
`read(a,0)` does not succeed — it already fails with InvalidHandle,
contrary to the claim that the budget of 1 leaves the cycle alive. -/
theorem C3_counterexample :
    runOps Context.init gcCycleOps = .ok gcCycleCtx ∧
    (majorGC gcCycleCtx 1).1 = .ok () ∧
    (read (majorGC gcCycleCtx 1).2 (handleV 1) 0).1 = .error .invalidMemHandle := by
  decide

/-- C3, amended: with the variable table empty at Seed time, the mark phase
of `major_gc(1)` needs zero budgeted steps, so the single budgeted call
runs the sweep and completes the whole collection (the incremental state
returns to 0 and the heap store empties): `read(a,0)` fails with
InvalidHandle immediately after `major_gc(1)` and still fails after a
subsequent sentinel `major_gc()`. -/
theorem C3_amended_budget_one_completes :
    (majorGC gcCycleCtx 1).2.m_magc_state = 0 ∧
    heapKeys (majorGC gcCycleCtx 1).2 = [] ∧
    (read (majorGC gcCycleCtx 1).2 (handleV 1) 0).1 = .error .invalidMemHandle ∧
    (read (majorGC (majorGC gcCycleCtx 1).2 (-1)).2 (handleV 1) 0).1 =
      .error .invalidMemHandle := by
  decide

/-- C4, counterexample: `h=alloc(0); assign(1,h); major_gc()` — after the
sentinel call returns, the surviving cell has bit 0 of its flags SET (the
reachable mark is only cleared at the next cycle's Reset), contradicting
the claim that every remaining cell has bit 0 clear. -/
theorem C4_counterexample :
    runOps Context.init c4Ops = .ok c4Ctx ∧
    (lookupA c4Ctx.m_mem_handles 1).map MemoryHandle.flags = some 1 := by
  decide

/-- C6, code-bug evaluation: cell 1 holds the only reference to cell 2;
`assign(1,h1); erase(1); minor_gc()` releases cell 1, and its decouple pass
drives cell 2's ref_count to 0 and pushes its identifier onto the candidate
list — but `minorGC` clears the candidate list after `releaseGarbage`
returns, so at return the candidate list is empty, cell 2 is still live
with ref_count 0, and the next `minor_gc()` reclaims nothing. -/
theorem C6_code_bug_eval :
    runOps Context.init chainRelOps = .ok chainRelCtx ∧
    rcAt chainRelCtx 2 = some 0 ∧
    chainRelCtx.m_gc_candidates = [] ∧
    (minorGC chainRelCtx).1 = .ok () ∧
    heapKeys (minorGC chainRelCtx).2 = [2] := by
  decide

/-- C5, code-bug evaluation: with variable 1 and cell 1's slot 0 both
holding cell 2 (ref_count 2), `write(h1, 0, HANDLE 99)` first decrements
cell 2's ref_count and only then validates the incoming handle, which
fails: the operation raises InvalidHandle and leaves cell 2's ref_count at
1 while both references still exist, so invariant I1 does not hold in the
resulting state. -/
theorem C5_code_bug_eval :
    runOps Context.init c5Ops = .ok c5Ctx ∧
    rcAt c5Ctx 2 = some 2 ∧
    (write c5Ctx (handleV 1) 0 (handleV 99)).1 = .error .invalidMemHandle ∧
    rcAt (write c5Ctx (handleV 1) 0 (handleV 99)).2 2 = some 1 ∧
    dataAt (write c5Ctx (handleV 1) 0 (handleV 99)).2 1 = some [handleV 2] ∧
    lookupA (write c5Ctx (handleV 1) 0 (handleV 99)).2.m_data 1 = some (handleV 2) ∧
    ¬ I1holds (write c5Ctx (handleV 1) 0 (handleV 99)).2 := by
  decide

/-- C8, counterexample: `assign` does have an error kind — on a fresh
context, assigning a HANDLE-tagged value whose identifier is absent from
the heap store raises InvalidHandle (the incref validates it) instead of
returning normally. -/
theorem C8_counterexample :
    (assign Context.init 5 (handleV 42)).1 = .error .invalidMemHandle := by
  decide


theorem lookupA_nil {α : Type} (t : Int) : lookupA ([] : List (Int × α)) t = none := rfl

theorem lookupA_cons {α : Type} (k : Int) (a : α) (rest : List (Int × α)) (t : Int) :
    lookupA ((k, a) :: rest) t = if k = t then some a else lookupA rest t := rfl

theorem modifyA_nil {α : Type} (k : Int) (f : α → α) :
    modifyA ([] : List (Int × α)) k f = [] := rfl

theorem modifyA_cons {α : Type} (k' : Int) (b : α) (rest : List (Int × α))
    (k : Int) (f : α → α) :
    modifyA ((k', b) :: rest) k f =
      (if k' = k then (k', f b) else (k', b)) :: modifyA rest k f := rfl

theorem modifyA_of_not_mem {α : Type} {l : List (Int × α)} {k : Int} (f : α → α)
    (h : k ∉ l.map Prod.fst) : modifyA l k f = l := by
  induction l with
  | nil => rfl
  | cons kv rest ih =>
      obtain ⟨k', b⟩ := kv
      simp only [List.map_cons, List.mem_cons] at h
      push_neg at h
      rw [modifyA_cons, if_neg (fun hkk => h.1 hkk.symm), ih h.2]

theorem lookupA_mem {α : Type} {l : List (Int × α)} {k : Int} {a : α}
    (h : lookupA l k = some a) : (k, a) ∈ l := by
  induction l with
  | nil => simp [lookupA_nil] at h
  | cons kv rest ih =>
      obtain ⟨k', b⟩ := kv
      rw [lookupA_cons] at h
      by_cases hk : k' = k
      · subst hk
        rw [if_pos rfl] at h
        injection h with h
        subst h
        exact List.mem_cons_self _ _
      · rw [if_neg hk] at h
        exact List.mem_cons_of_mem _ (ih h)

theorem lookupA_of_mem_nodup {α : Type} {l : List (Int × α)} {k : Int} {a : α}
    (h : (k, a) ∈ l) (hn : (l.map Prod.fst).Nodup) : lookupA l k = some a := by
  induction l with
  | nil => simp at h
  | cons kv rest ih =>
      obtain ⟨k', b⟩ := kv
      simp only [List.map_cons, List.nodup_cons] at hn
      rcases List.mem_cons.mp h with h1 | h1
      · injection h1 with h1a h1b
        subst h1a
        subst h1b
        rw [lookupA_cons, if_pos rfl]
      · have hk : k' ≠ k := by
          intro hkk
          subst hkk
          exact hn.1 (List.mem_map.mpr ⟨(k', a), h1, rfl⟩)
        rw [lookupA_cons, if_neg hk]
        exact ih h1 hn.2

theorem containsA_iff {α : Type} {l : List (Int × α)} {k : Int} :
    containsA l k = true ↔ ∃ a, lookupA l k = some a := by
  simp [containsA, Option.isSome_iff_exists]

theorem lookupA_modifyA {α : Type} (l : List (Int × α)) (k t : Int) (f : α → α) :
    lookupA (modifyA l k f) t =
      if k = t then (lookupA l t).map f else lookupA l t := by
  induction l with
  | nil => by_cases hk : k = t <;> simp [modifyA_nil, lookupA_nil, hk]
  | cons kv rest ih =>
      obtain ⟨k', b⟩ := kv
      rw [modifyA_cons]
      by_cases hk' : k' = k
      · subst hk'
        rw [if_pos rfl]
        by_cases hkt : k' = t
        · subst hkt
          simp [lookupA_cons]
        · simp [lookupA_cons, hkt, ih]
      · rw [if_neg hk']
        by_cases hkt : k' = t
        · subst hkt
          have hne : k ≠ k' := fun hkk => hk' hkk.symm
          simp [lookupA_cons, hne]
        · simp [lookupA_cons, hkt, ih]

theorem keys_modifyA {α : Type} (l : List (Int × α)) (k : Int) (f : α → α) :
    (modifyA l k f).map Prod.fst = l.map Prod.fst := by
  induction l with
  | nil => rfl
  | cons kv rest ih =>
      obtain ⟨k', b⟩ := kv
      rw [modifyA_cons]
      by_cases hk : k' = k
      · rw [if_pos hk]
        simpa using ih
      · rw [if_neg hk]
        simpa using ih

theorem containsA_modifyA {α : Type} (l : List (Int × α)) (k t : Int) (f : α → α) :
    containsA (modifyA l k f) t = containsA l t := by
  by_cases hk : k = t <;> simp [containsA, lookupA_modifyA, hk]

theorem mem_modifyA {α : Type} {l : List (Int × α)} {k : Int} {f : α → α} {kv : Int × α}
    (h : kv ∈ modifyA l k f) :
    ∃ b, (kv.1, b) ∈ l ∧ (kv.2 = b ∨ kv.2 = f b) := by
  simp only [modifyA, List.mem_map] at h
  obtain ⟨⟨k0, b0⟩, h0, heq⟩ := h
  by_cases hk : k0 = k
  · rw [if_pos hk] at heq
    subst heq
    exact ⟨b0, h0, Or.inr rfl⟩
  · rw [if_neg hk] at heq
    subst heq
    exact ⟨b0, h0, Or.inl rfl⟩

theorem map_modifyA_congr {α β : Type} (l : List (Int × α)) (k : Int) (f : α → α)
    (g : Int × α → β) (hg : ∀ k' a, g (k', f a) = g (k', a)) :
    (modifyA l k f).map g = l.map g := by
  induction l with
  | nil => rfl
  | cons kv rest ih =>
      obtain ⟨k', b⟩ := kv
      rw [modifyA_cons]
      by_cases hk : k' = k
      · rw [if_pos hk, List.map_cons, List.map_cons, hg, ih]
      · rw [if_neg hk, List.map_cons, List.map_cons, ih]

theorem sum_map_modifyA {α : Type} (l : List (Int × α)) (k : Int) (f : α → α)
    (g : α → Int) {a : α} (hn : (l.map Prod.fst).Nodup) (ha : lookupA l k = some a) :
    ((modifyA l k f).map fun kv => g kv.2).sum =
      (l.map fun kv => g kv.2).sum + (g (f a) - g a) := by
  induction l with
  | nil => simp [lookupA_nil] at ha
  | cons kv rest ih =>
      obtain ⟨k', b⟩ := kv
      simp only [List.map_cons, List.nodup_cons] at hn
      rw [modifyA_cons]
      by_cases hk : k' = k
      · subst hk
        rw [lookupA_cons, if_pos rfl] at ha
        injection ha with ha
        subst ha
        rw [if_pos rfl]
        rw [modifyA_of_not_mem f hn.1, List.map_cons, List.map_cons,
          List.sum_cons, List.sum_cons]
        ring
      · rw [if_neg hk]
        rw [lookupA_cons, if_neg hk] at ha
        rw [List.map_cons, List.map_cons, List.sum_cons, List.sum_cons, ih hn.2 ha]
        ring

theorem eraseA_sublist {α : Type} (l : List (Int × α)) (k : Int) :
    (eraseA l k).Sublist l := by
  induction l with
  | nil => exact List.Sublist.refl _
  | cons kv rest ih =>
      obtain ⟨k', b⟩ := kv
      simp only [eraseA]
      by_cases hk : k' = k
      · rw [if_pos hk]
        exact List.sublist_cons_of_sublist _ (List.Sublist.refl _)
      · rw [if_neg hk]
        exact List.Sublist.cons₂ _ ih

theorem keys_eraseA_sublist {α : Type} (l : List (Int × α)) (k : Int) :
    ((eraseA l k).map Prod.fst).Sublist (l.map Prod.fst) :=
  (eraseA_sublist l k).map Prod.fst

theorem lookupA_eraseA {α : Type} {l : List (Int × α)} (k t : Int)
    (hn : (l.map Prod.fst).Nodup) :
    lookupA (eraseA l k) t = if t = k then none else lookupA l t := by
  induction l with
  | nil => simp [eraseA, lookupA_nil]
  | cons kv rest ih =>
      obtain ⟨k', b⟩ := kv
      simp only [List.map_cons, List.nodup_cons] at hn
      simp only [eraseA]
      by_cases hk : k' = k
      · subst hk
        rw [if_pos rfl]
        by_cases hkt : t = k'
        · subst hkt
          rw [if_pos rfl]
          cases ho : lookupA rest t with
          | none => rfl
          | some c => exact absurd (List.mem_map.mpr ⟨(t, c), lookupA_mem ho, rfl⟩) hn.1
        · rw [if_neg hkt, lookupA_cons, if_neg (fun h => hkt h.symm)]
      · rw [if_neg hk, lookupA_cons, lookupA_cons]
        by_cases hkt : k' = t
        · subst hkt
          rw [if_pos rfl, if_pos rfl, if_neg]
          intro htk
          exact hk htk
        · rw [if_neg hkt, if_neg hkt, ih hn.2]

theorem sum_map_eraseA {α : Type} (l : List (Int × α)) (k : Int)
    (g : α → Int) {a : α} (hn : (l.map Prod.fst).Nodup) (ha : lookupA l k = some a) :
    ((eraseA l k).map fun kv => g kv.2).sum = (l.map fun kv => g kv.2).sum - g a := by
  induction l with
  | nil => simp [lookupA_nil] at ha
  | cons kv rest ih =>
      obtain ⟨k', b⟩ := kv
      simp only [List.map_cons, List.nodup_cons] at hn
      simp only [eraseA]
      by_cases hk : k' = k
      · subst hk
        rw [lookupA_cons, if_pos rfl] at ha
        injection ha with ha
        subst ha
        rw [if_pos rfl, List.map_cons, List.sum_cons]
        ring
      · rw [lookupA_cons, if_neg hk] at ha
        rw [if_neg hk, List.map_cons, List.map_cons, List.sum_cons, List.sum_cons,
          ih hn.2 ha]
        ring

theorem lookupA_append_left {α : Type} {l : List (Int × α)} (l' : List (Int × α))
    {t : Int} {a : α} (h : lookupA l t = some a) :
    lookupA (l ++ l') t = some a := by
  induction l with
  | nil => simp [lookupA_nil] at h
  | cons kv rest ih =>
      obtain ⟨k', b⟩ := kv
      rw [lookupA_cons] at h
      rw [List.cons_append, lookupA_cons]
      by_cases hk : k' = t
      · rwa [if_pos hk] at h ⊢
      · rw [if_neg hk] at h ⊢
        exact ih h

theorem lookupA_append_right {α : Type} {l : List (Int × α)} (l' : List (Int × α))
    {t : Int} (h : lookupA l t = none) :
    lookupA (l ++ l') t = lookupA l' t := by
  induction l with
  | nil => rfl
  | cons kv rest ih =>
      obtain ⟨k', b⟩ := kv
      rw [lookupA_cons] at h
      rw [List.cons_append, lookupA_cons]
      by_cases hk : k' = t
      · rw [if_pos hk] at h
        exact absurd h (by simp)
      · rw [if_neg hk] at h ⊢
        exact ih h

theorem lookupA_none_iff {α : Type} {l : List (Int × α)} {t : Int} :
    lookupA l t = none ↔ t ∉ l.map Prod.fst := by
  induction l with
  | nil => simp [lookupA_nil]
  | cons kv rest ih =>
      obtain ⟨k', b⟩ := kv
      rw [lookupA_cons]
      by_cases hk : k' = t
      · subst hk
        simp
      · simp only [if_neg hk, List.map_cons, List.mem_cons]
        rw [ih]
        constructor
        · intro h h2
          rcases h2 with h2 | h2
          · exact hk h2.symm
          · exact h h2
        · intro h h2
          exact h (Or.inr h2)

theorem lookupA_upsertA {α : Type} (l : List (Int × α)) (k : Int) (a : α) (t : Int) :
    lookupA (upsertA l k a) t = if k = t then some a else lookupA l t := by
  induction l with
  | nil => by_cases hk : k = t <;> simp [upsertA, lookupA_cons, lookupA_nil, hk]
  | cons kv rest ih =>
      obtain ⟨k', b⟩ := kv
      simp only [upsertA]
      by_cases hk' : k' = k
      · subst hk'
        rw [if_pos rfl, lookupA_cons, lookupA_cons]
        by_cases hkt : k' = t <;> simp [hkt]
      · rw [if_neg hk', lookupA_cons, lookupA_cons]
        by_cases hkt : k' = t
        · subst hkt
          rw [if_pos rfl, if_pos rfl, if_neg (fun h => hk' h.symm)]
        · rw [if_neg hkt, if_neg hkt, ih]

theorem keys_upsertA {α : Type} (l : List (Int × α)) (k : Int) (a : α) :
    (upsertA l k a).map Prod.fst =
      if containsA l k then l.map Prod.fst else l.map Prod.fst ++ [k] := by
  induction l with
  | nil => simp [upsertA, containsA, lookupA_nil]
  | cons kv rest ih =>
      obtain ⟨k', b⟩ := kv
      simp only [upsertA]
      by_cases hk' : k' = k
      · subst hk'
        rw [if_pos rfl]
        simp [containsA, lookupA_cons]
      · rw [if_neg hk']
        simp only [List.map_cons, containsA, lookupA_cons, if_neg hk']
        rw [show (lookupA rest k).isSome = containsA rest k from rfl] at *
        by_cases hc : containsA rest k
        · rw [hc] at ih ⊢
          simp [ih]
        · simp only [Bool.not_eq_true] at hc
          rw [hc] at ih ⊢
          simp [ih]

theorem count_snd_upsertA {α : Type} [DecidableEq α] (l : List (Int × α)) (k : Int)
    (a : α) (x : α) (hn : (l.map Prod.fst).Nodup) :
    (((upsertA l k a).map Prod.snd).count x : Int) =
      ((l.map Prod.snd).count x : Int) + (if a = x then 1 else 0) -
        (match lookupA l k with
         | some b => if b = x then 1 else 0
         | none => 0) := by
  induction l with
  | nil => simp [upsertA, lookupA_nil, List.count_cons, List.count_nil]
  | cons kv rest ih =>
      obtain ⟨k', b⟩ := kv
      simp only [List.map_cons, List.nodup_cons] at hn
      simp only [upsertA]
      by_cases hk' : k' = k
      · subst hk'
        rw [if_pos rfl, lookupA_cons, if_pos rfl]
        simp only [List.map_cons, List.count_cons]
        by_cases hax : a = x <;> by_cases hbx : b = x <;>
          simp [hax, hbx] <;> ring
      · rw [if_neg hk', lookupA_cons, if_neg hk']
        simp only [List.map_cons, List.count_cons]
        have hih := ih hn.2
        cases holk : lookupA rest k with
        | none =>
            rw [holk] at hih
            push_cast
            rw [hih]
            split_ifs <;> ring
        | some c =>
            rw [holk] at hih
            push_cast at hih ⊢
            rw [hih]
            split_ifs <;> ring

theorem emplaceA_of_contains {α : Type} {l : List (Int × α)} {k : Int} (a : α)
    (h : containsA l k = true) : emplaceA l k a = l := by
  simp [emplaceA, h]

theorem emplaceA_of_not_contains {α : Type} {l : List (Int × α)} {k : Int} (a : α)
    (h : containsA l k = false) : emplaceA l k a = l ++ [(k, a)] := by
  simp [emplaceA, h]

theorem mem_insertS {s : List Int} {x y : Int} :
    y ∈ insertS s x ↔ y ∈ s ∨ y = x := by
  by_cases hx : x ∈ s
  · simp only [insertS, if_pos hx]
    constructor
    · exact Or.inl
    · rintro (h | rfl)
      · exact h
      · exact hx
  · simp [insertS, if_neg hx]

theorem insertS_subset {s : List Int} {x : Int} : s ⊆ insertS s x := by
  intro y hy
  exact mem_insertS.mpr (Or.inl hy)

theorem mem_insertS_self {s : List Int} {x : Int} : x ∈ insertS s x :=
  mem_insertS.mpr (Or.inr rfl)

theorem nodup_insertS {s : List Int} {x : Int} (hn : s.Nodup) :
    (insertS s x).Nodup := by
  by_cases hx : x ∈ s
  · simpa [insertS, if_pos hx] using hn
  · simp [insertS, if_neg hx, List.nodup_append, hn, hx]

theorem mem_foldl_insertS {s : List Int} {xs : List Int} {y : Int} :
    y ∈ xs.foldl insertS s ↔ y ∈ s ∨ y ∈ xs := by
  induction xs generalizing s with
  | nil => simp
  | cons x rest ih =>
      simp only [List.foldl_cons, ih, mem_insertS, List.mem_cons]
      tauto

theorem nodup_foldl_insertS {s : List Int} {xs : List Int} (hn : s.Nodup) :
    (xs.foldl insertS s).Nodup := by
  induction xs generalizing s with
  | nil => exact hn
  | cons x rest ih => exact ih (nodup_insertS hn)

theorem countVal_append (xs ys : List Value) (t : Int) :
    countVal (xs ++ ys) t = countVal xs t + countVal ys t := by
  simp [countVal, List.count_append]

theorem countVal_concat (xs : List Value) (v : Value) (t : Int) :
    countVal (xs ++ [v]) t =
      countVal xs t + (if v = ⟨t, ValueType.memory_handle⟩ then 1 else 0) := by
  rw [countVal_append]
  simp only [countVal, List.count_singleton]
  by_cases hv : v = (⟨t, ValueType.memory_handle⟩ : Value)
  · simp [hv]
  · simp [hv, fun h => hv (beq_iff_eq.mp h)]

theorem countVal_set (xs : List Value) (i : Nat) (v : Value) (t : Int)
    (h : i < xs.length) :
    countVal (xs.set i v) t =
      countVal xs t + (if v = ⟨t, ValueType.memory_handle⟩ then 1 else 0) -
        (if xs.getD i ⟨0, ValueType.integer⟩ = ⟨t, ValueType.memory_handle⟩ then 1
         else 0) := by
  induction xs generalizing i with
  | nil => simp at h
  | cons x rest ih =>
      cases i with
      | zero =>
          simp only [List.set_cons_zero, List.getD_cons_zero, countVal,
            List.count_cons, beq_iff_eq]
          push_cast
          split_ifs <;> simp_all <;> omega
      | succ i' =>
          simp only [List.set_cons_succ, List.getD_cons_succ, countVal,
            List.count_cons, beq_iff_eq]
          have hlen : i' < rest.length := by simpa using h
          have hih := ih i' hlen
          simp only [countVal] at hih
          push_cast
          push_cast at hih
          split_ifs at hih ⊢ <;> omega

theorem countVal_dropLast (xs : List Value) (t : Int) (h : xs ≠ []) :
    countVal xs.dropLast t =
      countVal xs t -
        (if xs.getLastD ⟨0, ValueType.integer⟩ = ⟨t, ValueType.memory_handle⟩ then 1
         else 0) := by
  have hx : xs.dropLast ++ [xs.getLast h] = xs := List.dropLast_append_getLast h
  have hlast : xs.getLastD ⟨0, ValueType.integer⟩ = xs.getLast h := by
    rw [List.getLastD_eq_getLast?, List.getLast?_eq_getLast xs h]
    rfl
  calc countVal xs.dropLast t
      = countVal (xs.dropLast ++ [xs.getLast h]) t -
          (if xs.getLast h = ⟨t, ValueType.memory_handle⟩ then 1 else 0) := by
        rw [countVal_concat]
        ring
    _ = countVal xs t -
          (if xs.getLastD ⟨0, ValueType.integer⟩ = ⟨t, ValueType.memory_handle⟩ then 1
           else 0) := by rw [hx, hlast]

theorem containsA_iff_mem {α : Type} {l : List (Int × α)} {t : Int} :
    containsA l t = true ↔ t ∈ l.map Prod.fst := by
  rw [containsA_iff]
  constructor
  · rintro ⟨a, ha⟩
    exact List.mem_map.mpr ⟨(t, a), lookupA_mem ha, rfl⟩
  · intro h
    cases ho : lookupA l t with
    | none => exact absurd (lookupA_none_iff.mp ho) (by simp [h])
    | some a => exact ⟨a, rfl⟩

theorem containsA_eq_of_keys_eq {α β : Type} {l : List (Int × α)}
    {l' : List (Int × β)} (h : l'.map Prod.fst = l.map Prod.fst) (t : Int) :
    containsA l' t = containsA l t := by
  have hiff : containsA l' t = true ↔ containsA l t = true := by
    rw [containsA_iff_mem, containsA_iff_mem, h]
  cases hb : containsA l t with
  | true => exact hiff.mpr hb
  | false =>
      cases hb' : containsA l' t with
      | false => rfl
      | true => rw [hiff.mp hb'] at hb; exact hb

theorem countRefs_eq_of (c c' : Context) (h1 : c'.m_data = c.m_data)
    (h2 : c'.m_mem_handles.map (fun kv => kv.2.data) =
      c.m_mem_handles.map fun kv => kv.2.data) (t : Int) :
    countRefs c' t = countRefs c t := by
  unfold countRefs
  rw [h1]
  have e : c'.m_mem_handles.map (fun kv => countVal kv.2.data t) =
      c.m_mem_handles.map fun kv => countVal kv.2.data t := by
    have hc : (fun kv : Int × MemoryHandle => countVal kv.2.data t) =
        (fun d => countVal d t) ∘ fun kv : Int × MemoryHandle => kv.2.data := rfl
    rw [hc, ← List.map_map, ← List.map_map, h2]
  rw [e]

theorem map_data_modifyA_rc (l : List (Int × MemoryHandle)) (k : Int)
    (f : MemoryHandle → MemoryHandle) (hf : ∀ mh, (f mh).data = mh.data) :
    (modifyA l k f).map (fun kv => kv.2.data) = l.map fun kv => kv.2.data := by
  induction l with
  | nil => rfl
  | cons kv rest ih =>
      obtain ⟨k', b⟩ := kv
      rw [modifyA_cons]
      by_cases hk : k' = k
      · rw [if_pos hk, List.map_cons, List.map_cons, hf, ih]
      · rw [if_neg hk, List.map_cons, List.map_cons, ih]

theorem incref_ok_iff {ctx : Context} {v : Value} {c' : Context} :
    incref ctx v = .ok c' ↔
      validMemHandle ctx v = true ∧
        c' = { ctx with
                 m_mem_handles := modifyA ctx.m_mem_handles v.data
                   fun mh => { mh with ref_count := mh.ref_count + 1 } } := by
  unfold incref
  by_cases hv : validMemHandle ctx v
  · simp only [if_pos hv, hv, true_and]
    constructor
    · intro h
      injection h with h
      exact h.symm
    · intro h
      subst h
      rfl
  · simp [if_neg hv, hv]

theorem decrefCheck_heap (ctx' : Context) (id : Int) :
    (decrefCheck ctx' id).m_mem_handles = ctx'.m_mem_handles := by
  unfold decrefCheck
  split
  · split <;> rfl
  · rfl

theorem decrefCheck_data (ctx' : Context) (id : Int) :
    (decrefCheck ctx' id).m_data = ctx'.m_data := by
  unfold decrefCheck
  split
  · split <;> rfl
  · rfl

theorem decrefCheck_frame (ctx' : Context) (id : Int) :
    (decrefCheck ctx' id).m_alloc_counter = ctx'.m_alloc_counter ∧
    (decrefCheck ctx' id).m_magc_visited_mem_handles = ctx'.m_magc_visited_mem_handles ∧
    (decrefCheck ctx' id).m_magc_next_mem_handles = ctx'.m_magc_next_mem_handles ∧
    (decrefCheck ctx' id).m_magc_new_mem_handles = ctx'.m_magc_new_mem_handles ∧
    (decrefCheck ctx' id).m_magc_last_handle = ctx'.m_magc_last_handle ∧
    (decrefCheck ctx' id).m_magc_last_handle_entry = ctx'.m_magc_last_handle_entry ∧
    (decrefCheck ctx' id).m_magc_state = ctx'.m_magc_state := by
  unfold decrefCheck
  split
  · split <;> simp
  · simp

theorem decrefCheck_cands (ctx' : Context) (id : Int) :
    ∃ extra : List Int,
      (decrefCheck ctx' id).m_gc_candidates = ctx'.m_gc_candidates ++ extra := by
  unfold decrefCheck
  split
  · split
    · exact ⟨[id], rfl⟩
    · exact ⟨[], by simp⟩
  · exact ⟨[], by simp⟩

theorem decrefPresent_heap (ctx : Context) (id : Int) :
    (decrefPresent ctx id).m_mem_handles =
      modifyA ctx.m_mem_handles id fun mh => { mh with ref_count := mh.ref_count - 1 } := by
  unfold decrefPresent
  rw [decrefCheck_heap]

theorem decrefPresent_data (ctx : Context) (id : Int) :
    (decrefPresent ctx id).m_data = ctx.m_data := by
  unfold decrefPresent
  rw [decrefCheck_data]

theorem decrefPresent_frame (ctx : Context) (id : Int) :
    (decrefPresent ctx id).m_alloc_counter = ctx.m_alloc_counter ∧
    (decrefPresent ctx id).m_magc_visited_mem_handles = ctx.m_magc_visited_mem_handles ∧
    (decrefPresent ctx id).m_magc_next_mem_handles = ctx.m_magc_next_mem_handles ∧
    (decrefPresent ctx id).m_magc_new_mem_handles = ctx.m_magc_new_mem_handles ∧
    (decrefPresent ctx id).m_magc_last_handle = ctx.m_magc_last_handle ∧
    (decrefPresent ctx id).m_magc_last_handle_entry = ctx.m_magc_last_handle_entry ∧
    (decrefPresent ctx id).m_magc_state = ctx.m_magc_state := by
  unfold decrefPresent
  exact decrefCheck_frame _ id

theorem decrefPresent_cands (ctx : Context) (id : Int) :
    ∃ extra : List Int,
      (decrefPresent ctx id).m_gc_candidates = ctx.m_gc_candidates ++ extra := by
  unfold decrefPresent
  exact decrefCheck_cands _ id

theorem decref_ok_iff {ctx : Context} {v : Value} {c' : Context} :
    decref ctx v = .ok c' ↔
      validMemHandle ctx v = true ∧ c' = decrefPresent ctx v.data := by
  unfold decref
  by_cases hv : validMemHandle ctx v
  · simp only [if_pos hv, hv, true_and]
    constructor
    · intro h
      injection h with h
      exact h.symm
    · intro h
      subst h
      rfl
  · simp [if_neg hv, hv]

theorem validMemHandle_iff {ctx : Context} {v : Value} :
    validMemHandle ctx v = true ↔
      v.type = ValueType.memory_handle ∧ containsA ctx.m_mem_handles v.data = true := by
  unfold validMemHandle
  by_cases ht : v.type = ValueType.memory_handle <;> simp [ht]

theorem countVal_eq_zero_of_not_mem {vs : List Value} {t : Int}
    (h : (⟨t, ValueType.memory_handle⟩ : Value) ∉ vs) : countVal vs t = 0 := by
  simp [countVal, List.count_eq_zero.mpr h]

theorem countVal_nonneg (vs : List Value) (t : Int) : 0 ≤ countVal vs t := by
  simp [countVal]

theorem countRefs_zero_of_absent {ctx : Context} {t : Int}
    (habs : containsA ctx.m_mem_handles t = false)
    (hvars : ∀ kv ∈ ctx.m_data, kv.2.type = ValueType.memory_handle →
      containsA ctx.m_mem_handles kv.2.data = true)
    (hcells : ∀ kv ∈ ctx.m_mem_handles, ∀ v ∈ kv.2.data,
      v.type = ValueType.memory_handle → containsA ctx.m_mem_handles v.data = true) :
    countRefs ctx t = 0 := by
  unfold countRefs
  have h1 : countVal (ctx.m_data.map Prod.snd) t = 0 := by
    apply countVal_eq_zero_of_not_mem
    intro hmem
    obtain ⟨kv, hkv, hv⟩ := List.mem_map.mp hmem
    have hval := hvars kv hkv (by rw [hv])
    rw [show kv.2.data = t from congrArg Value.data hv] at hval
    simp [hval] at habs
  have h2 : ∀ x ∈ ctx.m_mem_handles.map fun kv => countVal kv.2.data t, x = 0 := by
    intro x hx
    obtain ⟨kv, hkv, hv⟩ := List.mem_map.mp hx
    subst hv
    apply countVal_eq_zero_of_not_mem
    intro hmem
    have hval := hcells kv hkv _ hmem rfl
    simp only at hval
    simp [hval] at habs
  rw [h1, List.sum_eq_zero h2]
  norm_num

/-- Well-formedness holds at the default-constructed context. -/
theorem WF_init : WF Context.init := by
  constructor <;> simp [Context.init, I1holds]

theorem WF_read {ctx : Context} {a : Value} {i : Int} {r : Value} {c' : Context}
    (hW : WF ctx) (h : read ctx a i = (.ok r, c')) : WF c' := by
  unfold read at h
  split at h
  · split at h
    · exact absurd (congrArg Prod.fst h) (by simp)
    · split at h
      · exact absurd (congrArg Prod.fst h) (by simp)
      · rw [show c' = ctx from (congrArg Prod.snd h).symm]
        exact hW
  · exact absurd (congrArg Prod.fst h) (by simp)

/-- Pointwise form of I1, keyed by identifier. -/
def I1at (c : Context) (t : Int) : Prop :=
  ∀ mh, lookupA c.m_mem_handles t = some mh → mh.ref_count = countRefs c t

theorem I1holds_iff_at {c : Context} (hn : (c.m_mem_handles.map Prod.fst).Nodup) :
    I1holds c ↔ ∀ t, I1at c t := by
  constructor
  · intro h t mh hmh
    exact h (t, mh) (lookupA_mem hmh)
  · intro h kv hkv
    exact h kv.1 kv.2 (lookupA_of_mem_nodup (by rcases kv with ⟨k, mh⟩; exact hkv) hn)

theorem containsA_append_left {α : Type} {l : List (Int × α)} (l' : List (Int × α))
    {t : Int} (h : containsA l t = true) : containsA (l ++ l') t = true := by
  obtain ⟨a, ha⟩ := containsA_iff.mp h
  exact containsA_iff.mpr ⟨a, lookupA_append_left l' ha⟩

theorem countRefs_modify_rc (ctx : Context) (k : Int) (f : MemoryHandle → MemoryHandle)
    (hf : ∀ mh, (f mh).data = mh.data) (t : Int) :
    countRefs { ctx with m_mem_handles := modifyA ctx.m_mem_handles k f } t =
      countRefs ctx t := by
  apply countRefs_eq_of
  · rfl
  · exact map_data_modifyA_rc _ _ _ hf

theorem countRefs_modify_data {ctx : Context} {k : Int} {mh : MemoryHandle}
    (f : MemoryHandle → MemoryHandle)
    (hn : (ctx.m_mem_handles.map Prod.fst).Nodup)
    (hmh : lookupA ctx.m_mem_handles k = some mh) (t : Int) :
    countRefs { ctx with m_mem_handles := modifyA ctx.m_mem_handles k f } t =
      countRefs ctx t + (countVal (f mh).data t - countVal mh.data t) := by
  unfold countRefs
  simp only
  rw [sum_map_modifyA ctx.m_mem_handles k f (fun mh => countVal mh.data t) hn hmh]
  ring

theorem WF_alloc {ctx : Context} {n : Int} {v : Value} {c' : Context}
    (hW : WF ctx) (h : alloc ctx n = (.ok v, c')) : WF c' := by
  unfold alloc at h
  split at h
  · exact absurd (congrArg Prod.fst h) (by simp)
  · have hfresh : containsA ctx.m_mem_handles ctx.m_alloc_counter = false := by
      cases hcc : containsA ctx.m_mem_handles ctx.m_alloc_counter with
      | false => rfl
      | true =>
          obtain ⟨mh, hmh⟩ := containsA_iff.mp hcc
          have hlt := hW.counterBound _ (lookupA_mem hmh)
          simp only at hlt
          omega
    have hk0 : ctx.m_alloc_counter ∉ ctx.m_mem_handles.map Prod.fst := by
      intro hm
      rw [containsA_iff_mem.mpr hm] at hfresh
      exact absurd hfresh (by simp)
    have hc' : c' =
        { ctx with
            m_alloc_counter := ctx.m_alloc_counter + 1,
            m_mem_handles := ctx.m_mem_handles ++
              [(ctx.m_alloc_counter,
                ⟨List.replicate n.toNat ⟨0, ValueType.integer⟩, ctx.m_alloc_counter, 0, 0⟩)] } := by
      have := (congrArg Prod.snd h).symm
      simpa [emplaceA_of_not_contains _ hfresh] using this
    subst hc'
    have hnocell : ∀ t : Int,
        countVal (List.replicate n.toNat (⟨0, ValueType.integer⟩ : Value)) t = 0 := by
      intro t
      apply countVal_eq_zero_of_not_mem
      intro hmem
      have := List.eq_of_mem_replicate hmem
      simp at this
    have hcount : ∀ t : Int,
        countRefs
          { ctx with
              m_alloc_counter := ctx.m_alloc_counter + 1,
              m_mem_handles := ctx.m_mem_handles ++
                [(ctx.m_alloc_counter,
                  ⟨List.replicate n.toNat ⟨0, ValueType.integer⟩, ctx.m_alloc_counter, 0, 0⟩)] } t =
          countRefs ctx t := by
      intro t
      unfold countRefs
      simp only [List.map_append, List.sum_append, List.map_cons, List.map_nil,
        List.sum_cons, List.sum_nil]
      rw [hnocell t]
      ring
    constructor
    · exact hW.dataNodup
    · simp only [List.map_append, List.map_cons, List.map_nil]
      rw [List.nodup_append]
      exact ⟨hW.heapNodup, List.nodup_singleton _, by simpa using fun hm => hk0 hm⟩
    · intro kv hkv
      rcases List.mem_append.mp hkv with hm | hm
      · exact hW.allocId kv hm
      · simp only [List.mem_singleton] at hm
        subst hm
        rfl
    · intro kv hkv
      rcases List.mem_append.mp hkv with hm | hm
      · have := hW.counterBound kv hm
        simp only
        omega
      · simp only [List.mem_singleton] at hm
        subst hm
        simp only
        omega
    · intro kv hkv
      rcases List.mem_append.mp hkv with hm | hm
      · exact hW.flagsOK kv hm
      · simp only [List.mem_singleton] at hm
        subst hm
        exact Or.inl rfl
    · intro kv hkv ht
      exact containsA_append_left _ (hW.varsValid kv hkv ht)
    · intro kv hkv v' hv' ht
      rcases List.mem_append.mp hkv with hm | hm
      · exact containsA_append_left _ (hW.cellsValid kv hm v' hv' ht)
      · simp only [List.mem_singleton] at hm
        subst hm
        simp only at hv'
        have := List.eq_of_mem_replicate hv'
        subst this
        simp at ht
    · intro kv hkv
      rw [hcount kv.1]
      rcases List.mem_append.mp hkv with hm | hm
      · exact hW.refcounts kv hm
      · simp only [List.mem_singleton] at hm
        subst hm
        simp only
        rw [countRefs_zero_of_absent hfresh hW.varsValid hW.cellsValid]
    · exact hW.stateZero
    · exact hW.lhZero
    · exact hW.lheZero

theorem mem_modifyA_pred {α : Type} (P : Int → α → Prop) (f : α → α)
    {l : List (Int × α)} {k : Int} (hf : ∀ k' b, P k' b → P k' (f b))
    (hl : ∀ kv ∈ l, P kv.1 kv.2) :
    ∀ kv ∈ modifyA l k f, P kv.1 kv.2 := by
  intro kv hkv
  obtain ⟨b, hb, hor⟩ := mem_modifyA hkv
  rcases hor with hc | hc
  · rw [hc]
    exact hl _ hb
  · rw [hc]
    exact hf _ _ (hl _ hb)

theorem WF_push {ctx : Context} {a v : Value} {c' : Context}
    (hW : WF ctx) (h : push ctx a v = (.ok (), c')) : WF c' := by
  unfold push at h
  split at h
  case isFalse => exact absurd (congrArg Prod.fst h) (by simp)
  case isTrue hva =>
  obtain ⟨hat, hac⟩ := validMemHandle_iff.mp hva
  cases hm : (if v.type = ValueType.memory_handle then incref ctx v else .ok ctx) with
  | error e =>
      rw [hm] at h
      exact absurd (congrArg Prod.fst h) (by simp)
  | ok ctx1 =>
      rw [hm] at h
      have hc' : c' = { ctx1 with
          m_mem_handles := modifyA ctx1.m_mem_handles a.data
            fun mh => { mh with data := mh.data ++ [v] } } :=
        (congrArg Prod.snd h).symm
      by_cases hvt : v.type = ValueType.memory_handle
      · -- v is a handle: ctx1 is the incref'd context
        rw [if_pos hvt] at hm
        obtain ⟨hvv, hctx1⟩ := incref_ok_iff.mp hm
        obtain ⟨-, hvc⟩ := validMemHandle_iff.mp hvv
        subst hctx1
        subst hc'
        have hkeys : ∀ (β : Type) (g : MemoryHandle → MemoryHandle)
            (l : List (Int × MemoryHandle)) (k : Int),
            (modifyA l k g).map Prod.fst = l.map Prod.fst := fun _ g l k => keys_modifyA l k g
        have hkeys2 :
            (modifyA (modifyA ctx.m_mem_handles v.data
                fun mh => { mh with ref_count := mh.ref_count + 1 }) a.data
              (fun mh => { mh with data := mh.data ++ [v] })).map Prod.fst =
              ctx.m_mem_handles.map Prod.fst := by
          rw [keys_modifyA, keys_modifyA]
        have hcontains : ∀ t, containsA
            (modifyA (modifyA ctx.m_mem_handles v.data
                fun mh => { mh with ref_count := mh.ref_count + 1 }) a.data
              (fun mh => { mh with data := mh.data ++ [v] })) t =
            containsA ctx.m_mem_handles t :=
          containsA_eq_of_keys_eq hkeys2
        -- the member cell of the inner modify, for the count computation
        obtain ⟨mh1, hmh1⟩ := containsA_iff.mp
          (show containsA (modifyA ctx.m_mem_handles v.data
              fun mh => { mh with ref_count := mh.ref_count + 1 }) a.data = true by
            rw [containsA_modifyA]
            exact hac)
        have hcount : ∀ t,
            countRefs { ctx with
                m_mem_handles := modifyA (modifyA ctx.m_mem_handles v.data
                    fun mh => { mh with ref_count := mh.ref_count + 1 }) a.data
                  fun mh => { mh with data := mh.data ++ [v] } } t =
              countRefs ctx t + (if v.data = t then 1 else 0) := by
          intro t
          have e1 := @countRefs_modify_data
            { ctx with
                m_mem_handles := modifyA ctx.m_mem_handles v.data
                  fun mh => { mh with ref_count := mh.ref_count + 1 } }
            a.data mh1
            (fun mh => { mh with data := mh.data ++ [v] })
            (by rw [keys_modifyA]; exact hW.heapNodup) hmh1 t
          rw [e1, countRefs_modify_rc ctx v.data
            (fun mh => { mh with ref_count := mh.ref_count + 1 }) (fun mh => rfl) t]
          simp only [countVal_concat]
          have hv_eq : (v = (⟨t, ValueType.memory_handle⟩ : Value)) ↔ v.data = t := by
            constructor
            · intro hh
              rw [hh]
            · intro hh
              cases v with
              | mk d ty =>
                  simp only at hh hvt
                  subst hh
                  subst hvt
                  rfl
          by_cases hvd : v.data = t
          · simp [hv_eq, hvd]
          · simp [hv_eq, hvd]
        constructor
        · exact hW.dataNodup
        · rw [hkeys2]
          exact hW.heapNodup
        · exact mem_modifyA_pred (fun k (b : MemoryHandle) => b.alloc_id = k) (fun mh => { mh with data := mh.data ++ [v] }) (fun k' b hb => hb)
            (mem_modifyA_pred (fun k (b : MemoryHandle) => b.alloc_id = k) (fun mh => { mh with ref_count := mh.ref_count + 1 }) (fun k' b hb => hb) hW.allocId)
        · exact mem_modifyA_pred (fun k (_ : MemoryHandle) => k < ctx.m_alloc_counter) (fun mh => { mh with data := mh.data ++ [v] }) (fun k' b hb => hb)
            (mem_modifyA_pred (fun k (_ : MemoryHandle) => k < ctx.m_alloc_counter) (fun mh => { mh with ref_count := mh.ref_count + 1 }) (fun k' b hb => hb) hW.counterBound)
        · exact mem_modifyA_pred (fun _ (b : MemoryHandle) => b.flags = 0 ∨ b.flags = 1) (fun mh => { mh with data := mh.data ++ [v] }) (fun k' b hb => hb)
            (mem_modifyA_pred (fun _ (b : MemoryHandle) => b.flags = 0 ∨ b.flags = 1) (fun mh => { mh with ref_count := mh.ref_count + 1 }) (fun k' b hb => hb) hW.flagsOK)
        · intro kv hkv ht
          rw [hcontains]
          exact hW.varsValid kv hkv ht
        · intro kv hkv v' hv' ht
          rw [hcontains]
          replace hkv : kv ∈ modifyA (modifyA ctx.m_mem_handles v.data
              fun mh => { mh with ref_count := mh.ref_count + 1 }) a.data
              (fun mh => { mh with data := mh.data ++ [v] }) := hkv
          obtain ⟨b1, hb1, hor1⟩ := mem_modifyA hkv
          obtain ⟨b0, hb0, hor0⟩ := mem_modifyA hb1
          have hb1data : b1.data = b0.data := by
            rcases hor0 with hc | hc <;> rw [show b1 = _ from hc]
          rcases hor1 with hc | hc
          · rw [hc] at hv'
            rw [hb1data] at hv'
            exact hW.cellsValid _ hb0 v' hv' ht
          · rw [hc] at hv'
            simp only [hb1data] at hv'
            rcases List.mem_append.mp hv' with hm' | hm'
            · exact hW.cellsValid _ hb0 v' hm' ht
            · simp only [List.mem_singleton] at hm'
              subst hm'
              exact hvc
        · rw [I1holds_iff_at (by rw [hkeys2]; exact hW.heapNodup)]
          intro t mh' hmh'
          rw [hcount t]
          have hI := (I1holds_iff_at hW.heapNodup).mp hW.refcounts t
          rw [lookupA_modifyA] at hmh'
          by_cases hadt : a.data = t
          · rw [if_pos hadt] at hmh'
            rw [lookupA_modifyA] at hmh'
            by_cases hvdt : v.data = t
            · rw [if_pos hvdt] at hmh'
              cases h0 : lookupA ctx.m_mem_handles t with
              | none => rw [h0] at hmh'; simp at hmh'
              | some mh0 =>
                  rw [h0] at hmh'
                  simp only [Option.map_some'] at hmh'
                  injection hmh' with hmh'
                  subst hmh'
                  simp only [if_pos hvdt]
                  rw [← hI mh0 h0]
            · rw [if_neg hvdt] at hmh'
              cases h0 : lookupA ctx.m_mem_handles t with
              | none => rw [h0] at hmh'; simp at hmh'
              | some mh0 =>
                  rw [h0] at hmh'
                  simp only [Option.map_some'] at hmh'
                  injection hmh' with hmh'
                  subst hmh'
                  simp only [if_neg hvdt]
                  rw [← hI mh0 h0]
                  ring
          · rw [if_neg hadt] at hmh'
            rw [lookupA_modifyA] at hmh'
            by_cases hvdt : v.data = t
            · rw [if_pos hvdt] at hmh'
              cases h0 : lookupA ctx.m_mem_handles t with
              | none => rw [h0] at hmh'; simp at hmh'
              | some mh0 =>
                  rw [h0] at hmh'
                  simp only [Option.map_some'] at hmh'
                  injection hmh' with hmh'
                  subst hmh'
                  simp only [if_pos hvdt]
                  rw [← hI mh0 h0]
            · rw [if_neg hvdt] at hmh'
              cases h0 : lookupA ctx.m_mem_handles t with
              | none => rw [h0] at hmh'; simp at hmh'
              | some mh0 =>
                  rw [h0] at hmh'
                  injection hmh' with hmh'
                  subst hmh'
                  simp only [if_neg hvdt]
                  rw [← hI mh0 h0]
                  ring
        · exact hW.stateZero
        · exact hW.lhZero
        · exact hW.lheZero
      · -- v is not a handle: ctx1 = ctx and the appended value carries no reference
        rw [if_neg hvt] at hm
        injection hm with hm
        subst hm
        subst hc'
        have hkeys2 :
            (modifyA ctx.m_mem_handles a.data
              (fun mh => { mh with data := mh.data ++ [v] })).map Prod.fst =
              ctx.m_mem_handles.map Prod.fst := keys_modifyA _ _ _
        have hcontains := containsA_eq_of_keys_eq hkeys2
        obtain ⟨mh1, hmh1⟩ := containsA_iff.mp hac
        have hcount : ∀ t,
            countRefs { ctx with
                m_mem_handles := modifyA ctx.m_mem_handles a.data
                  fun mh => { mh with data := mh.data ++ [v] } } t =
              countRefs ctx t := by
          intro t
          rw [countRefs_modify_data _ hW.heapNodup hmh1 t]
          simp only [countVal_concat]
          have : v ≠ (⟨t, ValueType.memory_handle⟩ : Value) := by
            intro hh
            rw [hh] at hvt
            exact hvt rfl
          simp [this]
        constructor
        · exact hW.dataNodup
        · rw [hkeys2]
          exact hW.heapNodup
        · exact mem_modifyA_pred (fun k (b : MemoryHandle) => b.alloc_id = k) (fun mh => { mh with data := mh.data ++ [v] }) (fun k' b hb => hb) hW.allocId
        · exact mem_modifyA_pred (fun k (_ : MemoryHandle) => k < ctx.m_alloc_counter) (fun mh => { mh with data := mh.data ++ [v] }) (fun k' b hb => hb) hW.counterBound
        · exact mem_modifyA_pred (fun _ (b : MemoryHandle) => b.flags = 0 ∨ b.flags = 1) (fun mh => { mh with data := mh.data ++ [v] }) (fun k' b hb => hb) hW.flagsOK
        · intro kv hkv ht
          rw [hcontains]
          exact hW.varsValid kv hkv ht
        · intro kv hkv v' hv' ht
          rw [hcontains]
          replace hkv : kv ∈ modifyA ctx.m_mem_handles a.data
              (fun mh => { mh with data := mh.data ++ [v] }) := hkv
          obtain ⟨b0, hb0, hor0⟩ := mem_modifyA hkv
          rcases hor0 with hc | hc
          · rw [hc] at hv'
            exact hW.cellsValid _ hb0 v' hv' ht
          · rw [hc] at hv'
            rcases List.mem_append.mp hv' with hm' | hm'
            · exact hW.cellsValid _ hb0 v' hm' ht
            · simp only [List.mem_singleton] at hm'
              subst hm'
              exact absurd ht hvt
        · rw [I1holds_iff_at (by rw [hkeys2]; exact hW.heapNodup)]
          intro t mh' hmh'
          rw [hcount t]
          have hI := (I1holds_iff_at hW.heapNodup).mp hW.refcounts t
          rw [lookupA_modifyA] at hmh'
          by_cases hadt : a.data = t
          · rw [if_pos hadt] at hmh'
            cases h0 : lookupA ctx.m_mem_handles t with
            | none => rw [h0] at hmh'; simp at hmh'
            | some mh0 =>
                rw [h0] at hmh'
                simp only [Option.map_some'] at hmh'
                injection hmh' with hmh'
                subst hmh'
                exact hI mh0 h0
          · rw [if_neg hadt] at hmh'
            exact hI mh' hmh'
        · exact hW.stateZero
        · exact hW.lhZero
        · exact hW.lheZero

theorem I1_rc_shift {c c' : Context} (hn : (c.m_mem_handles.map Prod.fst).Nodup)
    (hn' : (c'.m_mem_handles.map Prod.fst).Nodup) (δ : Int → Int)
    (hrc : ∀ t mh', lookupA c'.m_mem_handles t = some mh' →
      ∃ mh, lookupA c.m_mem_handles t = some mh ∧ mh'.ref_count = mh.ref_count + δ t)
    (hcount : ∀ t, countRefs c' t = countRefs c t + δ t)
    (hI : I1holds c) : I1holds c' := by
  rw [I1holds_iff_at hn']
  intro t mh' hmh'
  obtain ⟨mh, hmh, hrceq⟩ := hrc t mh' hmh'
  rw [hrceq, hcount, (I1holds_iff_at hn).mp hI t mh hmh]

theorem rc_delta_modify {l : List (Int × MemoryHandle)} {k : Int}
    {f : MemoryHandle → MemoryHandle} {d : Int}
    (hf : ∀ b, (f b).ref_count = b.ref_count + d) :
    ∀ t mh', lookupA (modifyA l k f) t = some mh' →
      ∃ mh, lookupA l t = some mh ∧
        mh'.ref_count = mh.ref_count + (if k = t then d else 0) := by
  intro t mh' hmh'
  rw [lookupA_modifyA] at hmh'
  by_cases hk : k = t
  · rw [if_pos hk] at hmh'
    cases h0 : lookupA l t with
    | none => rw [h0] at hmh'; simp at hmh'
    | some mh =>
        rw [h0] at hmh'
        simp only [Option.map_some'] at hmh'
        injection hmh' with hmh'
        subst hmh'
        exact ⟨mh, rfl, by rw [if_pos hk, hf]⟩
  · rw [if_neg hk] at hmh'
    exact ⟨mh', hmh', by rw [if_neg hk]; ring⟩

theorem WF_pop {ctx : Context} {a : Value} {r : Value} {c' : Context}
    (hW : WF ctx) (h : pop ctx a = (.ok r, c')) : WF c' := by
  unfold pop at h
  split at h
  case isFalse => exact absurd (congrArg Prod.fst h) (by simp)
  case isTrue hva =>
  obtain ⟨hat, hac⟩ := validMemHandle_iff.mp hva
  split at h
  next hlk => exact absurd (congrArg Prod.fst h) (by simp)
  next mh hlk =>
  split at h
  next hemp => exact absurd (congrArg Prod.fst h) (by simp)
  next hne =>
  simp only [] at h
  split at h
  next e hm => exact absurd (congrArg Prod.fst h) (by simp)
  next ctx1 hm =>
  have hc' : c' = { ctx1 with
      m_mem_handles := modifyA ctx1.m_mem_handles a.data
        fun mh => { mh with data := mh.data.dropLast } } :=
    (congrArg Prod.snd h).symm
  by_cases hvt : (mh.data.getLastD ⟨0, ValueType.integer⟩).type = ValueType.memory_handle
  · -- popped value is a handle: ctx1 is the decref'd context
    rw [if_pos hvt] at hm
    obtain ⟨hvv, hctx1⟩ := decref_ok_iff.mp hm
    obtain ⟨-, hvc⟩ := validMemHandle_iff.mp hvv
    subst hctx1
    subst hc'
    set w := mh.data.getLastD ⟨0, ValueType.integer⟩ with hw
    have hheap1 := decrefPresent_heap ctx w.data
    have hkeys2 :
        (modifyA (decrefPresent ctx w.data).m_mem_handles a.data
          (fun mh => { mh with data := mh.data.dropLast })).map Prod.fst =
          ctx.m_mem_handles.map Prod.fst := by
      rw [keys_modifyA, hheap1, keys_modifyA]
    have hcontains := containsA_eq_of_keys_eq hkeys2
    have hwht : (⟨w.data, ValueType.memory_handle⟩ : Value) = w := by
      cases hww : w with
      | mk d ty => rw [hww] at hvt; simp only at hvt; rw [hvt]
    -- the a.data cell of the decref'd heap has the same data as mh
    have hmh1 : ∃ mh1, lookupA (decrefPresent ctx w.data).m_mem_handles a.data =
        some mh1 ∧ mh1.data = mh.data := by
      rw [hheap1, lookupA_modifyA]
      by_cases hwd : w.data = a.data
      · rw [if_pos hwd, hlk]
        exact ⟨_, rfl, rfl⟩
      · rw [if_neg hwd, hlk]
        exact ⟨mh, rfl, rfl⟩
    obtain ⟨mh1, hmh1, hmh1d⟩ := hmh1
    have hcount : ∀ t,
        countRefs { decrefPresent ctx w.data with
            m_mem_handles := modifyA (decrefPresent ctx w.data).m_mem_handles a.data
              fun mh => { mh with data := mh.data.dropLast } } t =
          countRefs ctx t + (if w.data = t then -1 else 0) := by
      intro t
      rw [countRefs_modify_data (fun mh => { mh with data := mh.data.dropLast })
        (by rw [hheap1, keys_modifyA]; exact hW.heapNodup) hmh1 t]
      have hc0 : countRefs (decrefPresent ctx w.data) t = countRefs ctx t := by
        apply countRefs_eq_of
        · exact decrefPresent_data ctx w.data
        · rw [hheap1]
          exact map_data_modifyA_rc _ _ _ fun mh => rfl
      rw [hc0]
      simp only [hmh1d]
      rw [countVal_dropLast mh.data t hne]
      rw [← hw]
      have hcond : (w = (⟨t, ValueType.memory_handle⟩ : Value)) ↔ w.data = t :=
        ⟨fun hh => congrArg Value.data hh, fun hh => by rw [← hwht, hh]⟩
      by_cases hwt : w.data = t
      · rw [if_pos (hcond.mpr hwt), if_pos hwt]
        ring
      · rw [if_neg (fun hh => hwt (hcond.mp hh)), if_neg hwt]
        ring
    constructor
    · rw [show ({ decrefPresent ctx w.data with
          m_mem_handles := modifyA (decrefPresent ctx w.data).m_mem_handles a.data
            fun mh => { mh with data := mh.data.dropLast } } : Context).m_data =
          (decrefPresent ctx w.data).m_data from rfl, decrefPresent_data]
      exact hW.dataNodup
    · rw [show ({ decrefPresent ctx w.data with
          m_mem_handles := modifyA (decrefPresent ctx w.data).m_mem_handles a.data
            fun mh => { mh with data := mh.data.dropLast } } : Context).m_mem_handles =
          modifyA (decrefPresent ctx w.data).m_mem_handles a.data
            (fun mh => { mh with data := mh.data.dropLast }) from rfl, hkeys2]
      exact hW.heapNodup
    · refine mem_modifyA_pred (fun k (b : MemoryHandle) => b.alloc_id = k)
        (fun mh => { mh with data := mh.data.dropLast }) (fun k' b hb => hb) ?_
      rw [hheap1]
      exact mem_modifyA_pred (fun k (b : MemoryHandle) => b.alloc_id = k)
        (fun mh => { mh with ref_count := mh.ref_count - 1 }) (fun k' b hb => hb) hW.allocId
    · refine mem_modifyA_pred
        (fun k (_ : MemoryHandle) => k <
          ({ decrefPresent ctx w.data with
              m_mem_handles := modifyA (decrefPresent ctx w.data).m_mem_handles a.data
                fun mh => { mh with data := mh.data.dropLast } } : Context).m_alloc_counter)
        (fun mh => { mh with data := mh.data.dropLast }) (fun k' b hb => hb) ?_
      rw [hheap1]
      refine mem_modifyA_pred (fun k (_ : MemoryHandle) => k < _)
        (fun mh => { mh with ref_count := mh.ref_count - 1 }) (fun k' b hb => hb) ?_
      have hcnt : ({ decrefPresent ctx w.data with
          m_mem_handles := modifyA (decrefPresent ctx w.data).m_mem_handles a.data
            fun mh => { mh with data := mh.data.dropLast } } : Context).m_alloc_counter =
          ctx.m_alloc_counter := (decrefPresent_frame ctx w.data).1
      rw [hcnt]
      exact hW.counterBound
    · refine mem_modifyA_pred (fun _ (b : MemoryHandle) => b.flags = 0 ∨ b.flags = 1)
        (fun mh => { mh with data := mh.data.dropLast }) (fun k' b hb => hb) ?_
      rw [hheap1]
      exact mem_modifyA_pred (fun _ (b : MemoryHandle) => b.flags = 0 ∨ b.flags = 1)
        (fun mh => { mh with ref_count := mh.ref_count - 1 }) (fun k' b hb => hb) hW.flagsOK
    · intro kv hkv ht
      rw [hcontains]
      replace hkv : kv ∈ (decrefPresent ctx w.data).m_data := hkv
      rw [decrefPresent_data] at hkv
      exact hW.varsValid kv hkv ht
    · intro kv hkv v' hv' ht
      rw [hcontains]
      replace hkv : kv ∈ modifyA (decrefPresent ctx w.data).m_mem_handles a.data
          (fun mh => { mh with data := mh.data.dropLast }) := hkv
      rw [hheap1] at hkv
      obtain ⟨b1, hb1, hor1⟩ := mem_modifyA hkv
      obtain ⟨b0, hb0, hor0⟩ := mem_modifyA hb1
      have hb1data : b1.data = b0.data := by
        rcases hor0 with hc | hc <;> rw [show b1 = _ from hc]
      rcases hor1 with hc | hc
      · rw [hc, hb1data] at hv'
        exact hW.cellsValid _ hb0 v' hv' ht
      · rw [hc] at hv'
        simp only [hb1data] at hv'
        exact hW.cellsValid _ hb0 v' (List.dropLast_sublist b0.data |>.mem hv') ht
    · rw [I1holds_iff_at (by rw [hkeys2]; exact hW.heapNodup)]
      intro t mh' hmh'
      rw [hcount t]
      replace hmh' : lookupA (modifyA (decrefPresent ctx w.data).m_mem_handles a.data
          fun mh => { mh with data := mh.data.dropLast }) t = some mh' := hmh'
      obtain ⟨mhb, hmhb, hrc1⟩ := rc_delta_modify
        (f := fun mh => { mh with data := mh.data.dropLast }) (d := 0)
        (fun b => by simp) t mh' hmh'
      rw [hheap1] at hmhb
      obtain ⟨mh0, hmh0, hrc0⟩ := rc_delta_modify
        (f := fun mh => { mh with ref_count := mh.ref_count - 1 }) (d := -1)
        (fun b => by simp; ring) t mhb hmhb
      have hI := (I1holds_iff_at hW.heapNodup).mp hW.refcounts t mh0 hmh0
      rw [hrc1, hrc0, hI]
      by_cases hwt : w.data = t <;> simp [hwt]
    · exact (decrefPresent_frame ctx w.data).2.2.2.2.2.2 ▸ hW.stateZero
    · exact (decrefPresent_frame ctx w.data).2.2.2.2.1 ▸ hW.lhZero
    · exact (decrefPresent_frame ctx w.data).2.2.2.2.2.1 ▸ hW.lheZero
  · -- popped value is an integer: ctx1 = ctx
    rw [if_neg hvt] at hm
    injection hm with hm
    subst hm
    subst hc'
    have hkeys2 :
        (modifyA ctx.m_mem_handles a.data
          (fun mh => { mh with data := mh.data.dropLast })).map Prod.fst =
          ctx.m_mem_handles.map Prod.fst := keys_modifyA _ _ _
    have hcontains := containsA_eq_of_keys_eq hkeys2
    have hcount : ∀ t,
        countRefs { ctx with
            m_mem_handles := modifyA ctx.m_mem_handles a.data
              fun mh => { mh with data := mh.data.dropLast } } t = countRefs ctx t := by
      intro t
      rw [countRefs_modify_data (fun mh => { mh with data := mh.data.dropLast })
        hW.heapNodup hlk t]
      simp only
      rw [countVal_dropLast mh.data t hne]
      rw [if_neg (fun hh : mh.data.getLastD ⟨0, ValueType.integer⟩ =
          (⟨t, ValueType.memory_handle⟩ : Value) => hvt (by rw [hh]))]
      ring
    constructor
    · exact hW.dataNodup
    · rw [hkeys2]
      exact hW.heapNodup
    · exact mem_modifyA_pred (fun k (b : MemoryHandle) => b.alloc_id = k)
        (fun mh => { mh with data := mh.data.dropLast }) (fun k' b hb => hb) hW.allocId
    · exact mem_modifyA_pred (fun k (_ : MemoryHandle) => k < ctx.m_alloc_counter)
        (fun mh => { mh with data := mh.data.dropLast }) (fun k' b hb => hb) hW.counterBound
    · exact mem_modifyA_pred (fun _ (b : MemoryHandle) => b.flags = 0 ∨ b.flags = 1)
        (fun mh => { mh with data := mh.data.dropLast }) (fun k' b hb => hb) hW.flagsOK
    · intro kv hkv ht
      rw [hcontains]
      exact hW.varsValid kv hkv ht
    · intro kv hkv v' hv' ht
      rw [hcontains]
      replace hkv : kv ∈ modifyA ctx.m_mem_handles a.data
          (fun mh => { mh with data := mh.data.dropLast }) := hkv
      obtain ⟨b0, hb0, hor0⟩ := mem_modifyA hkv
      rcases hor0 with hc | hc
      · rw [hc] at hv'
        exact hW.cellsValid _ hb0 v' hv' ht
      · rw [hc] at hv'
        exact hW.cellsValid _ hb0 v' (List.dropLast_sublist b0.data |>.mem hv') ht
    · rw [I1holds_iff_at (by rw [hkeys2]; exact hW.heapNodup)]
      intro t mh' hmh'
      rw [hcount t]
      obtain ⟨mh0, hmh0, hrc0⟩ := rc_delta_modify
        (f := fun mh => { mh with data := mh.data.dropLast }) (d := 0)
        (fun b => by simp) t mh' hmh'
      have hI := (I1holds_iff_at hW.heapNodup).mp hW.refcounts t mh0 hmh0
      rw [hrc0, hI]
      simp
    · exact hW.stateZero
    · exact hW.lhZero
    · exact hW.lheZero

theorem mem_modifyA_rc_chain (f : MemoryHandle → MemoryHandle)
    {l : List (Int × MemoryHandle)} {k : Int}
    (hf : ∀ b, (f b).alloc_id = b.alloc_id ∧ (f b).flags = b.flags ∧ (f b).data = b.data) :
    ∀ kv ∈ modifyA l k f, ∃ b, (kv.1, b) ∈ l ∧
      kv.2.alloc_id = b.alloc_id ∧ kv.2.flags = b.flags ∧ kv.2.data = b.data := by
  intro kv hkv
  obtain ⟨b, hb, hor⟩ := mem_modifyA hkv
  rcases hor with hc | hc
  · exact ⟨b, hb, by rw [hc], by rw [hc], by rw [hc]⟩
  · exact ⟨b, hb, by rw [hc]; exact (hf b).1, by rw [hc]; exact (hf b).2.1,
      by rw [hc]; exact (hf b).2.2⟩

/-- Core preservation lemma for the heap-slot operations (`push`, `pop`,
`write`): the context `ctxM` differs from a well-formed `ctx` only by
refcount shifts `δ` and candidate-list noise, and the final state applies
one data transformation `g` to the cell bound to `ad` whose count change
matches `δ`. -/
theorem WF_heap_update {ctx ctxM : Context} (hW : WF ctx) (ad : Int)
    (g : List Value → List Value) (δ : Int → Int)
    (hdata : ctxM.m_data = ctx.m_data)
    (hkeysM : ctxM.m_mem_handles.map Prod.fst = ctx.m_mem_handles.map Prod.fst)
    (hmapdataM : ctxM.m_mem_handles.map (fun kv => kv.2.data) =
      ctx.m_mem_handles.map fun kv => kv.2.data)
    (hmemM : ∀ kv ∈ ctxM.m_mem_handles, ∃ b, (kv.1, b) ∈ ctx.m_mem_handles ∧
      kv.2.alloc_id = b.alloc_id ∧ kv.2.flags = b.flags ∧ kv.2.data = b.data)
    (hrcM : ∀ t mh', lookupA ctxM.m_mem_handles t = some mh' →
      ∃ mh, lookupA ctx.m_mem_handles t = some mh ∧
        mh'.ref_count = mh.ref_count + δ t)
    (hcnt : ctxM.m_alloc_counter = ctx.m_alloc_counter)
    (hst : ctxM.m_magc_state = ctx.m_magc_state)
    (hlh : ctxM.m_magc_last_handle = ctx.m_magc_last_handle)
    (hlhe : ctxM.m_magc_last_handle_entry = ctx.m_magc_last_handle_entry)
    (had : containsA ctxM.m_mem_handles ad = true)
    (hg_mem : ∀ d v', v' ∈ g d → v'.type = ValueType.memory_handle →
      (v' ∈ d ∨ containsA ctx.m_mem_handles v'.data = true))
    (hg_count : ∀ mhM, lookupA ctxM.m_mem_handles ad = some mhM →
      ∀ t, countVal (g mhM.data) t = countVal mhM.data t + δ t) :
    WF { ctxM with
           m_mem_handles := modifyA ctxM.m_mem_handles ad
             fun mh => { mh with data := g mh.data } } := by
  obtain ⟨mhM, hmhM⟩ := containsA_iff.mp had
  have hkeys2 : (modifyA ctxM.m_mem_handles ad
      (fun mh => { mh with data := g mh.data })).map Prod.fst =
      ctx.m_mem_handles.map Prod.fst := by
    rw [keys_modifyA, hkeysM]
  have hnodup2 : ((modifyA ctxM.m_mem_handles ad
      (fun mh => { mh with data := g mh.data })).map Prod.fst).Nodup := by
    rw [hkeys2]
    exact hW.heapNodup
  have hcontains := containsA_eq_of_keys_eq hkeys2
  have hcountM : ∀ t, countRefs ctxM t = countRefs ctx t :=
    countRefs_eq_of _ _ hdata hmapdataM
  have hnodupM : (ctxM.m_mem_handles.map Prod.fst).Nodup := by
    rw [hkeysM]
    exact hW.heapNodup
  have hcount : ∀ t,
      countRefs { ctxM with
          m_mem_handles := modifyA ctxM.m_mem_handles ad
            fun mh => { mh with data := g mh.data } } t = countRefs ctx t + δ t := by
    intro t
    rw [countRefs_modify_data (fun mh => { mh with data := g mh.data }) hnodupM hmhM t,
      hcountM, hg_count mhM hmhM t]
    ring
  constructor
  · rw [show ({ ctxM with
        m_mem_handles := modifyA ctxM.m_mem_handles ad
          fun mh => { mh with data := g mh.data } } : Context).m_data =
        ctxM.m_data from rfl, hdata]
    exact hW.dataNodup
  · exact hnodup2
  · intro kv hkv
    replace hkv : kv ∈ modifyA ctxM.m_mem_handles ad
        (fun mh => { mh with data := g mh.data }) := hkv
    obtain ⟨b, hb, hor⟩ := mem_modifyA hkv
    have hid : kv.2.alloc_id = b.alloc_id := by
      rcases hor with hc | hc <;> rw [show kv.2 = _ from hc]
    obtain ⟨b0, hb0, hid0, -, -⟩ := hmemM _ hb
    simp only at hid0 ⊢
    rw [hid, hid0]
    exact hW.allocId _ hb0
  · intro kv hkv
    have hmem : kv.1 ∈ (modifyA ctxM.m_mem_handles ad
        (fun mh => { mh with data := g mh.data })).map Prod.fst :=
      List.mem_map.mpr ⟨kv, hkv, rfl⟩
    rw [hkeys2] at hmem
    obtain ⟨⟨k0, b0⟩, hb0, hk0⟩ := List.mem_map.mp hmem
    simp only at hk0
    subst hk0
    have := hW.counterBound _ hb0
    simp only at this ⊢
    rw [show ({ ctxM with
        m_mem_handles := modifyA ctxM.m_mem_handles ad
          fun mh => { mh with data := g mh.data } } : Context).m_alloc_counter =
        ctxM.m_alloc_counter from rfl, hcnt]
    exact this
  · intro kv hkv
    replace hkv : kv ∈ modifyA ctxM.m_mem_handles ad
        (fun mh => { mh with data := g mh.data }) := hkv
    obtain ⟨b, hb, hor⟩ := mem_modifyA hkv
    have hfl : kv.2.flags = b.flags := by
      rcases hor with hc | hc <;> rw [show kv.2 = _ from hc]
    obtain ⟨b0, hb0, -, hfl0, -⟩ := hmemM _ hb
    rw [hfl, hfl0]
    exact hW.flagsOK _ hb0
  · intro kv hkv ht
    rw [hcontains]
    replace hkv : kv ∈ ctxM.m_data := hkv
    rw [hdata] at hkv
    exact hW.varsValid kv hkv ht
  · intro kv hkv v' hv' ht
    rw [hcontains]
    replace hkv : kv ∈ modifyA ctxM.m_mem_handles ad
        (fun mh => { mh with data := g mh.data }) := hkv
    obtain ⟨b, hb, hor⟩ := mem_modifyA hkv
    obtain ⟨b0, hb0, -, -, hd0⟩ := hmemM _ hb
    rcases hor with hc | hc
    · rw [hc, hd0] at hv'
      exact hW.cellsValid _ hb0 v' hv' ht
    · rw [hc] at hv'
      simp only at hv'
      rcases hg_mem b.data v' hv' ht with hin | hval
      · rw [hd0] at hin
        exact hW.cellsValid _ hb0 v' hin ht
      · exact hval
  · rw [I1holds_iff_at hnodup2]
    intro t mh' hmh'
    rw [hcount t]
    replace hmh' : lookupA (modifyA ctxM.m_mem_handles ad
        fun mh => { mh with data := g mh.data }) t = some mh' := hmh'
    obtain ⟨mhb, hmhb, hrc1⟩ := rc_delta_modify
      (f := fun mh => { mh with data := g mh.data }) (d := 0)
      (fun b => by simp) t mh' hmh'
    obtain ⟨mh0, hmh0, hrc0⟩ := hrcM t mhb hmhb
    have hI := (I1holds_iff_at hW.heapNodup).mp hW.refcounts t mh0 hmh0
    rw [hrc1, hrc0, hI]
    split_ifs <;> ring
  · rw [show ({ ctxM with
        m_mem_handles := modifyA ctxM.m_mem_handles ad
          fun mh => { mh with data := g mh.data } } : Context).m_magc_state =
        ctxM.m_magc_state from rfl, hst]
    exact hW.stateZero
  · rw [show ({ ctxM with
        m_mem_handles := modifyA ctxM.m_mem_handles ad
          fun mh => { mh with data := g mh.data } } : Context).m_magc_last_handle =
        ctxM.m_magc_last_handle from rfl, hlh]
    exact hW.lhZero
  · rw [show ({ ctxM with
        m_mem_handles := modifyA ctxM.m_mem_handles ad
          fun mh => { mh with data := g mh.data } } : Context).m_magc_last_handle_entry =
        ctxM.m_magc_last_handle_entry from rfl, hlhe]
    exact hW.lheZero

theorem value_eq_handle_iff {v : Value} {t : Int} :
    (v = (⟨t, ValueType.memory_handle⟩ : Value)) ↔
      v.type = ValueType.memory_handle ∧ v.data = t := by
  cases v with
  | mk d ty =>
      constructor
      · intro h
        injection h with h1 h2
        exact ⟨h2, h1⟩
      · rintro ⟨h1, h2⟩
        simp only at h1 h2
        rw [h1, h2]

theorem rcdata_delta_modify {l : List (Int × MemoryHandle)} {k : Int}
    {f : MemoryHandle → MemoryHandle} {d : Int}
    (hf : ∀ b, (f b).ref_count = b.ref_count + d)
    (hfd : ∀ b, (f b).data = b.data) :
    ∀ t mh', lookupA (modifyA l k f) t = some mh' →
      ∃ mh, lookupA l t = some mh ∧
        mh'.ref_count = mh.ref_count + (if k = t then d else 0) ∧
        mh'.data = mh.data := by
  intro t mh' hmh'
  rw [lookupA_modifyA] at hmh'
  by_cases hk : k = t
  · rw [if_pos hk] at hmh'
    cases h0 : lookupA l t with
    | none => rw [h0] at hmh'; simp at hmh'
    | some mh =>
        rw [h0] at hmh'
        simp only [Option.map_some'] at hmh'
        injection hmh' with hmh'
        subst hmh'
        exact ⟨mh, rfl, by rw [if_pos hk, hf], hfd mh⟩
  · rw [if_neg hk] at hmh'
    exact ⟨mh', hmh', by rw [if_neg hk]; ring, rfl⟩

/-- Characterization of the `if handle then decref else nothing` step used
by `pop`, `write`, `assign` and `erase`. -/
theorem decref_if_step {ctx ctx1 : Context} {w : Value}
    (hm : (if w.type = ValueType.memory_handle then decref ctx w else .ok ctx) = .ok ctx1) :
    ctx1.m_data = ctx.m_data ∧
    ctx1.m_mem_handles.map Prod.fst = ctx.m_mem_handles.map Prod.fst ∧
    ctx1.m_mem_handles.map (fun kv => kv.2.data) =
      (ctx.m_mem_handles.map fun kv => kv.2.data) ∧
    (∀ kv ∈ ctx1.m_mem_handles, ∃ b, (kv.1, b) ∈ ctx.m_mem_handles ∧
      kv.2.alloc_id = b.alloc_id ∧ kv.2.flags = b.flags ∧ kv.2.data = b.data) ∧
    (∀ t mh', lookupA ctx1.m_mem_handles t = some mh' →
      ∃ mh, lookupA ctx.m_mem_handles t = some mh ∧
        mh'.ref_count = mh.ref_count +
          (if w.type = ValueType.memory_handle ∧ w.data = t then -1 else 0) ∧
        mh'.data = mh.data) ∧
    ctx1.m_alloc_counter = ctx.m_alloc_counter ∧
    ctx1.m_magc_state = ctx.m_magc_state ∧
    ctx1.m_magc_last_handle = ctx.m_magc_last_handle ∧
    ctx1.m_magc_last_handle_entry = ctx.m_magc_last_handle_entry := by
  by_cases hw : w.type = ValueType.memory_handle
  · rw [if_pos hw] at hm
    obtain ⟨hvv, hctx1⟩ := decref_ok_iff.mp hm
    subst hctx1
    have hheap := decrefPresent_heap ctx w.data
    refine ⟨decrefPresent_data ctx w.data, ?_, ?_, ?_, ?_,
      (decrefPresent_frame ctx w.data).1,
      (decrefPresent_frame ctx w.data).2.2.2.2.2.2,
      (decrefPresent_frame ctx w.data).2.2.2.2.1,
      (decrefPresent_frame ctx w.data).2.2.2.2.2.1⟩
    · rw [hheap, keys_modifyA]
    · rw [hheap]
      exact map_data_modifyA_rc _ _ _ fun mh => rfl
    · intro kv hkv
      rw [hheap] at hkv
      exact mem_modifyA_rc_chain (fun mh => { mh with ref_count := mh.ref_count - 1 })
        (fun b => ⟨rfl, rfl, rfl⟩) kv hkv
    · intro t mh' hmh'
      rw [hheap] at hmh'
      obtain ⟨mh, hmh, hrc, hd⟩ := rcdata_delta_modify
        (f := fun mh => { mh with ref_count := mh.ref_count - 1 }) (d := -1)
        (fun b => by simp; ring) (fun b => rfl) t mh' hmh'
      refine ⟨mh, hmh, ?_, hd⟩
      rw [hrc]
      by_cases hwt : w.data = t
      · simp [hwt, hw]
      · simp [hwt, hw]
  · rw [if_neg hw] at hm
    injection hm with hm
    subst hm
    refine ⟨rfl, rfl, rfl, ?_, ?_, rfl, rfl, rfl, rfl⟩
    · intro kv hkv
      exact ⟨kv.2, by rcases kv with ⟨k, b⟩; exact hkv, rfl, rfl, rfl⟩
    · intro t mh' hmh'
      refine ⟨mh', hmh', ?_, rfl⟩
      simp [hw]

/-- Characterization of the `if handle then incref else nothing` step used
by `push`, `write` and `assign`.  On success a handle-tagged `w` is valid. -/
theorem incref_if_step {ctx ctx1 : Context} {w : Value}
    (hm : (if w.type = ValueType.memory_handle then incref ctx w else .ok ctx) = .ok ctx1) :
    ctx1.m_data = ctx.m_data ∧
    ctx1.m_mem_handles.map Prod.fst = ctx.m_mem_handles.map Prod.fst ∧
    ctx1.m_mem_handles.map (fun kv => kv.2.data) =
      (ctx.m_mem_handles.map fun kv => kv.2.data) ∧
    (∀ kv ∈ ctx1.m_mem_handles, ∃ b, (kv.1, b) ∈ ctx.m_mem_handles ∧
      kv.2.alloc_id = b.alloc_id ∧ kv.2.flags = b.flags ∧ kv.2.data = b.data) ∧
    (∀ t mh', lookupA ctx1.m_mem_handles t = some mh' →
      ∃ mh, lookupA ctx.m_mem_handles t = some mh ∧
        mh'.ref_count = mh.ref_count +
          (if w.type = ValueType.memory_handle ∧ w.data = t then 1 else 0) ∧
        mh'.data = mh.data) ∧
    ctx1.m_alloc_counter = ctx.m_alloc_counter ∧
    ctx1.m_magc_state = ctx.m_magc_state ∧
    ctx1.m_magc_last_handle = ctx.m_magc_last_handle ∧
    ctx1.m_magc_last_handle_entry = ctx.m_magc_last_handle_entry ∧
    (w.type = ValueType.memory_handle → containsA ctx.m_mem_handles w.data = true) := by
  by_cases hw : w.type = ValueType.memory_handle
  · rw [if_pos hw] at hm
    obtain ⟨hvv, hctx1⟩ := incref_ok_iff.mp hm
    obtain ⟨-, hvc⟩ := validMemHandle_iff.mp hvv
    subst hctx1
    refine ⟨rfl, by rw [show ({ ctx with
        m_mem_handles := modifyA ctx.m_mem_handles w.data
          fun mh => { mh with ref_count := mh.ref_count + 1 } } : Context).m_mem_handles =
        modifyA ctx.m_mem_handles w.data
          (fun mh => { mh with ref_count := mh.ref_count + 1 }) from rfl, keys_modifyA],
      map_data_modifyA_rc ctx.m_mem_handles w.data
        (fun mh => { mh with ref_count := mh.ref_count + 1 }) fun mh => rfl,
      ?_, ?_, rfl, rfl, rfl, rfl, fun _ => hvc⟩
    · intro kv hkv
      replace hkv : kv ∈ modifyA ctx.m_mem_handles w.data
          (fun mh => { mh with ref_count := mh.ref_count + 1 }) := hkv
      exact mem_modifyA_rc_chain (fun mh => { mh with ref_count := mh.ref_count + 1 })
        (fun b => ⟨rfl, rfl, rfl⟩) kv hkv
    · intro t mh' hmh'
      replace hmh' : lookupA (modifyA ctx.m_mem_handles w.data
          fun mh => { mh with ref_count := mh.ref_count + 1 }) t = some mh' := hmh'
      obtain ⟨mh, hmh, hrc, hd⟩ := rcdata_delta_modify
        (f := fun mh => { mh with ref_count := mh.ref_count + 1 }) (d := 1)
        (fun b => by simp) (fun b => rfl) t mh' hmh'
      refine ⟨mh, hmh, ?_, hd⟩
      rw [hrc]
      by_cases hwt : w.data = t
      · simp [hwt, hw]
      · simp [hwt, hw]
  · rw [if_neg hw] at hm
    injection hm with hm
    subst hm
    refine ⟨rfl, rfl, rfl, ?_, ?_, rfl, rfl, rfl, rfl, fun hh => absurd hh hw⟩
    · intro kv hkv
      exact ⟨kv.2, by rcases kv with ⟨k, b⟩; exact hkv, rfl, rfl, rfl⟩
    · intro t mh' hmh'
      refine ⟨mh', hmh', ?_, rfl⟩
      simp [hw]

theorem WF_write {ctx : Context} {a : Value} {i : Int} {v : Value} {c' : Context}
    (hW : WF ctx) (h : write ctx a i v = (.ok (), c')) : WF c' := by
  unfold write at h
  split at h
  case isFalse => exact absurd (congrArg Prod.fst h) (by simp)
  case isTrue hva =>
  obtain ⟨hat, hac⟩ := validMemHandle_iff.mp hva
  split at h
  next hlk => exact absurd (congrArg Prod.fst h) (by simp)
  next mh hlk =>
  split at h
  next hbound => exact absurd (congrArg Prod.fst h) (by simp)
  next hbound =>
  simp only [] at h
  split at h
  next e hm1 => exact absurd (congrArg Prod.fst h) (by simp)
  next ctx1 hm1 =>
  split at h
  next e hm2 => exact absurd (congrArg Prod.fst h) (by simp)
  next ctx2 hm2 =>
  have hc' : c' = { ctx2 with
      m_mem_handles := modifyA ctx2.m_mem_handles a.data
        fun mh => { mh with data := mh.data.set i.toNat v } } :=
    (congrArg Prod.snd h).symm
  subst hc'
  push_neg at hbound
  obtain ⟨hb0, hb1⟩ := hbound
  have hil : i.toNat < mh.data.length := by omega
  obtain ⟨hd1, hk1, hmd1, hmem1, hrc1, hcnt1, hst1, hlh1, hlhe1⟩ := decref_if_step hm1
  obtain ⟨hd2, hk2, hmd2, hmem2, hrc2, hcnt2, hst2, hlh2, hlhe2, hvalid2⟩ := incref_if_step hm2
  set w := mh.data.getD i.toNat ⟨0, ValueType.integer⟩ with hwdef
  apply WF_heap_update hW a.data (fun d => d.set i.toNat v)
    (fun t => (if v.type = ValueType.memory_handle ∧ v.data = t then 1 else 0) +
      (if w.type = ValueType.memory_handle ∧ w.data = t then -1 else 0))
  · rw [hd2, hd1]
  · rw [hk2, hk1]
  · rw [hmd2, hmd1]
  · intro kv hkv
    obtain ⟨b1, hb1m, hid1, hfl1, hdd1⟩ := hmem2 kv hkv
    obtain ⟨b0, hb0m, hid0, hfl0, hdd0⟩ := hmem1 _ hb1m
    exact ⟨b0, hb0m, by rw [hid1]; exact hid0, by rw [hfl1]; exact hfl0,
      by rw [hdd1]; exact hdd0⟩
  · intro t mh' hmh'
    obtain ⟨mhb, hmhb, hrcb, hdb⟩ := hrc2 t mh' hmh'
    obtain ⟨mh0, hmh0, hrc0, hd0⟩ := hrc1 t mhb hmhb
    exact ⟨mh0, hmh0, by rw [hrcb, hrc0]; ring⟩
  · rw [hcnt2, hcnt1]
  · rw [hst2, hst1]
  · rw [hlh2, hlh1]
  · rw [hlhe2, hlhe1]
  · rw [containsA_eq_of_keys_eq (by rw [hk2, hk1] : ctx2.m_mem_handles.map Prod.fst =
      ctx.m_mem_handles.map Prod.fst) a.data]
    exact hac
  · intro d v' hv' ht
    rcases List.mem_or_eq_of_mem_set hv' with hin | hveq
    · exact Or.inl hin
    · subst hveq
      refine Or.inr ?_
      rw [← containsA_eq_of_keys_eq hk1 v'.data]
      exact hvalid2 ht
  · intro mhM hmhM t
    obtain ⟨mhb, hmhb, -, hdb⟩ := hrc2 a.data mhM hmhM
    obtain ⟨mh0, hmh0, -, hd0⟩ := hrc1 a.data mhb hmhb
    have hmm : mh0 = mh := by
      have h2 := hlk
      rw [hmh0] at h2
      exact Option.some.inj h2
    have hdM : mhM.data = mh.data := by rw [hdb, hd0, hmm]
    rw [hdM, countVal_set mh.data i.toNat v t hil]
    have e1 : (if v = (⟨t, ValueType.memory_handle⟩ : Value) then (1 : Int) else 0) =
        if v.type = ValueType.memory_handle ∧ v.data = t then 1 else 0 := by
      by_cases hc1 : v.type = ValueType.memory_handle ∧ v.data = t
      · rw [if_pos hc1, if_pos (value_eq_handle_iff.mpr hc1)]
      · rw [if_neg hc1, if_neg (fun hh => hc1 (value_eq_handle_iff.mp hh))]
    have e2 : (if mh.data.getD i.toNat ⟨0, ValueType.integer⟩ =
          (⟨t, ValueType.memory_handle⟩ : Value) then (1 : Int) else 0) =
        if w.type = ValueType.memory_handle ∧ w.data = t then 1 else 0 := by
      rw [← hwdef]
      by_cases hc1 : w.type = ValueType.memory_handle ∧ w.data = t
      · rw [if_pos hc1, if_pos (value_eq_handle_iff.mpr hc1)]
      · rw [if_neg hc1, if_neg (fun hh => hc1 (value_eq_handle_iff.mp hh))]
    rw [e1, e2]
    split_ifs <;> ring

theorem mem_upsertA {α : Type} {l : List (Int × α)} {k : Int} {a : α} {kv : Int × α}
    (h : kv ∈ upsertA l k a) : kv ∈ l ∨ kv = (k, a) := by
  induction l with
  | nil => simpa [upsertA] using h
  | cons kv0 rest ih =>
      obtain ⟨k', b⟩ := kv0
      simp only [upsertA] at h
      by_cases hk' : k' = k
      · rw [if_pos hk'] at h
        rcases List.mem_cons.mp h with h1 | h1
        · exact Or.inr h1
        · exact Or.inl (List.mem_cons_of_mem _ h1)
      · rw [if_neg hk'] at h
        rcases List.mem_cons.mp h with h1 | h1
        · exact Or.inl (List.mem_cons.mpr (Or.inl h1))
        · rcases ih h1 with h2 | h2
          · exact Or.inl (List.mem_cons_of_mem _ h2)
          · exact Or.inr h2

theorem count_snd_eraseA {α : Type} [DecidableEq α] (l : List (Int × α)) (k : Int)
    (x : α) {w : α} (hn : (l.map Prod.fst).Nodup) (hw : lookupA l k = some w) :
    (((eraseA l k).map Prod.snd).count x : Int) =
      ((l.map Prod.snd).count x : Int) - (if w = x then 1 else 0) := by
  induction l with
  | nil => simp [lookupA_nil] at hw
  | cons kv rest ih =>
      obtain ⟨k', b⟩ := kv
      simp only [List.map_cons, List.nodup_cons] at hn
      rw [lookupA_cons] at hw
      simp only [eraseA]
      by_cases hk : k' = k
      · rw [if_pos hk] at hw ⊢
        injection hw with hw
        subst hw
        simp only [List.map_cons, List.count_cons, beq_iff_eq]
        push_cast
        split_ifs <;> simp_all <;> ring
      · rw [if_neg hk] at hw ⊢
        simp only [List.map_cons, List.count_cons, beq_iff_eq]
        push_cast
        rw [ih hn.2 hw]
        split_ifs <;> ring

theorem lookupA_emplaceA_self {α : Type} (l : List (Int × α)) (k : Int) (d : α) :
    lookupA (emplaceA l k d) k = some ((lookupA l k).getD d) := by
  cases ho : lookupA l k with
  | some b =>
      rw [emplaceA_of_contains d (containsA_iff.mpr ⟨b, ho⟩), ho]
      rfl
  | none =>
      have hc : containsA l k = false := by simp [containsA, ho]
      rw [emplaceA_of_not_contains d hc, lookupA_append_right _ ho, lookupA_cons,
        if_pos rfl, Option.getD_none]

/-- Inserting the value-initialized `INT(0)` binding performed by
`m_data[id]` preserves well-formedness. -/
theorem WF_emplace_default {ctx : Context} (hW : WF ctx) (id : Int) :
    WF { ctx with m_data := emplaceA ctx.m_data id ⟨0, ValueType.integer⟩ } := by
  by_cases hc : containsA ctx.m_data id
  · rw [emplaceA_of_contains _ hc]
    constructor <;> first
      | exact hW.dataNodup
      | exact hW.heapNodup
      | exact hW.allocId
      | exact hW.counterBound
      | exact hW.flagsOK
      | exact hW.varsValid
      | exact hW.cellsValid
      | exact hW.refcounts
      | exact hW.stateZero
      | exact hW.lhZero
      | exact hW.lheZero
  · simp only [Bool.not_eq_true] at hc
    rw [emplaceA_of_not_contains _ hc]
    have hid : id ∉ ctx.m_data.map Prod.fst := by
      intro hm
      rw [containsA_iff_mem.mpr hm] at hc
      exact absurd hc (by simp)
    have hcount : ∀ t, countVal
        ((ctx.m_data ++ [(id, (⟨0, ValueType.integer⟩ : Value))]).map Prod.snd) t =
        countVal (ctx.m_data.map Prod.snd) t := by
      intro t
      rw [List.map_append, countVal_append]
      simp [countVal, List.count_singleton]
    constructor
    · simp only [List.map_append, List.map_cons, List.map_nil]
      rw [List.nodup_append]
      refine ⟨hW.dataNodup, List.nodup_singleton _, ?_⟩
      intro a ha hb
      simp only [List.mem_singleton] at hb
      subst hb
      exact hid ha
    · exact hW.heapNodup
    · exact hW.allocId
    · exact hW.counterBound
    · exact hW.flagsOK
    · intro kv hkv ht
      rcases List.mem_append.mp hkv with hm | hm
      · exact hW.varsValid kv hm ht
      · simp only [List.mem_singleton] at hm
        subst hm
        simp at ht
    · exact hW.cellsValid
    · intro kv hkv
      have := hW.refcounts kv hkv
      unfold countRefs at this ⊢
      simp only at this ⊢
      rw [hcount kv.1]
      exact this
    · exact hW.stateZero
    · exact hW.lhZero
    · exact hW.lheZero

/-- Core preservation lemma for the variable-table operations (`assign`,
`erase`): the context `ctxM` differs from a well-formed `ctx` only by
refcount shifts `δ` and candidate-list noise, and the final state replaces
the variable table with `newVars` whose count change matches `δ`. -/
theorem WF_var_update {ctx ctxM : Context} (hW : WF ctx)
    (newVars : List (Int × Value)) (δ : Int → Int)
    (hkeysM : ctxM.m_mem_handles.map Prod.fst = ctx.m_mem_handles.map Prod.fst)
    (hmapdataM : ctxM.m_mem_handles.map (fun kv => kv.2.data) =
      ctx.m_mem_handles.map fun kv => kv.2.data)
    (hmemM : ∀ kv ∈ ctxM.m_mem_handles, ∃ b, (kv.1, b) ∈ ctx.m_mem_handles ∧
      kv.2.alloc_id = b.alloc_id ∧ kv.2.flags = b.flags ∧ kv.2.data = b.data)
    (hrcM : ∀ t mh', lookupA ctxM.m_mem_handles t = some mh' →
      ∃ mh, lookupA ctx.m_mem_handles t = some mh ∧
        mh'.ref_count = mh.ref_count + δ t)
    (hcnt : ctxM.m_alloc_counter = ctx.m_alloc_counter)
    (hst : ctxM.m_magc_state = ctx.m_magc_state)
    (hlh : ctxM.m_magc_last_handle = ctx.m_magc_last_handle)
    (hlhe : ctxM.m_magc_last_handle_entry = ctx.m_magc_last_handle_entry)
    (hnewNodup : (newVars.map Prod.fst).Nodup)
    (hnewValid : ∀ kv ∈ newVars, kv.2.type = ValueType.memory_handle →
      containsA ctx.m_mem_handles kv.2.data = true)
    (hnewCount : ∀ t, countVal (newVars.map Prod.snd) t =
      countVal (ctx.m_data.map Prod.snd) t + δ t) :
    WF { ctxM with m_data := newVars } := by
  have hnodupM : (ctxM.m_mem_handles.map Prod.fst).Nodup := by
    rw [hkeysM]
    exact hW.heapNodup
  have hcontains := containsA_eq_of_keys_eq hkeysM
  have hcount : ∀ t, countRefs { ctxM with m_data := newVars } t =
      countRefs ctx t + δ t := by
    intro t
    unfold countRefs
    simp only
    rw [hnewCount t]
    have e : ctxM.m_mem_handles.map (fun kv => countVal kv.2.data t) =
        ctx.m_mem_handles.map fun kv => countVal kv.2.data t := by
      have hc2 : (fun kv : Int × MemoryHandle => countVal kv.2.data t) =
          (fun d => countVal d t) ∘ fun kv : Int × MemoryHandle => kv.2.data := rfl
      rw [hc2, ← List.map_map, ← List.map_map, hmapdataM]
    rw [e]
    ring
  constructor
  · exact hnewNodup
  · exact hnodupM
  · intro kv hkv
    obtain ⟨b, hb, hid, -, -⟩ := hmemM kv hkv
    rw [hid]
    exact hW.allocId _ hb
  · intro kv hkv
    have hmem : kv.1 ∈ ctxM.m_mem_handles.map Prod.fst :=
      List.mem_map.mpr ⟨kv, hkv, rfl⟩
    rw [hkeysM] at hmem
    obtain ⟨⟨k0, b0⟩, hb0, hk0⟩ := List.mem_map.mp hmem
    simp only at hk0
    subst hk0
    have := hW.counterBound _ hb0
    simp only at this ⊢
    rw [hcnt]
    exact this
  · intro kv hkv
    obtain ⟨b, hb, -, hfl, -⟩ := hmemM kv hkv
    rw [hfl]
    exact hW.flagsOK _ hb
  · intro kv hkv ht
    rw [hcontains]
    exact hnewValid kv hkv ht
  · intro kv hkv v' hv' ht
    rw [hcontains]
    obtain ⟨b, hb, -, -, hd⟩ := hmemM kv hkv
    rw [hd] at hv'
    exact hW.cellsValid _ hb v' hv' ht
  · have hnodupM' : ((({ ctxM with m_data := newVars } : Context)).m_mem_handles.map
        Prod.fst).Nodup := hnodupM
    rw [I1holds_iff_at hnodupM']
    intro t mh' hmh'
    rw [hcount t]
    replace hmh' : lookupA ctxM.m_mem_handles t = some mh' := hmh'
    obtain ⟨mh0, hmh0, hrc0⟩ := hrcM t mh' hmh'
    have hI := (I1holds_iff_at hW.heapNodup).mp hW.refcounts t mh0 hmh0
    rw [hrc0, hI]
  · rw [show ({ ctxM with m_data := newVars } : Context).m_magc_state =
      ctxM.m_magc_state from rfl, hst]
    exact hW.stateZero
  · rw [show ({ ctxM with m_data := newVars } : Context).m_magc_last_handle =
      ctxM.m_magc_last_handle from rfl, hlh]
    exact hW.lhZero
  · rw [show ({ ctxM with m_data := newVars } : Context).m_magc_last_handle_entry =
      ctxM.m_magc_last_handle_entry from rfl, hlhe]
    exact hW.lheZero

theorem WF_assign {ctx : Context} {id : Int} {v : Value} {c' : Context}
    (hW : WF ctx) (h : assign ctx id v = (.ok (), c')) : WF c' := by
  unfold assign at h
  simp only [] at h
  split at h
  next e hm1 => exact absurd (congrArg Prod.fst h) (by simp)
  next ctx1 hm1 =>
  split at h
  next e hm2 => exact absurd (congrArg Prod.fst h) (by simp)
  next ctx2 hm2 =>
  have hc' : c' = { ctx2 with m_data := upsertA ctx2.m_data id v } :=
    (congrArg Prod.snd h).symm
  subst hc'
  set w := (lookupA (emplaceA ctx.m_data id ⟨0, ValueType.integer⟩) id).getD
    ⟨0, ValueType.integer⟩ with hwdef
  obtain ⟨hd1, hk1, hmd1, hmem1, hrc1, hcnt1, hst1, hlh1, hlhe1⟩ := decref_if_step hm1
  obtain ⟨hd2, hk2, hmd2, hmem2, hrc2, hcnt2, hst2, hlh2, hlhe2, hvalid2⟩ :=
    incref_if_step hm2
  have hdd : ctx2.m_data = emplaceA ctx.m_data id ⟨0, ValueType.integer⟩ := hd2.trans hd1
  have hW0 : WF { ctx with m_data := emplaceA ctx.m_data id ⟨0, ValueType.integer⟩ } :=
    WF_emplace_default hW id
  have hn0 : ((emplaceA ctx.m_data id
      (⟨0, ValueType.integer⟩ : Value)).map Prod.fst).Nodup := hW0.dataNodup
  have hcont0 : containsA (emplaceA ctx.m_data id
      (⟨0, ValueType.integer⟩ : Value)) id = true :=
    containsA_iff.mpr ⟨_, lookupA_emplaceA_self _ _ _⟩
  have hlk2 : lookupA ctx2.m_data id = some w := by
    rw [hdd, lookupA_emplaceA_self, hwdef, lookupA_emplaceA_self, Option.getD_some]
  apply WF_var_update hW0 (upsertA ctx2.m_data id v)
    (fun t => (if v.type = ValueType.memory_handle ∧ v.data = t then 1 else 0) +
      (if w.type = ValueType.memory_handle ∧ w.data = t then -1 else 0))
  · rw [hk2, hk1]
  · rw [hmd2, hmd1]
  · intro kv hkv
    obtain ⟨b1, hb1m, hid1, hfl1, hdd1⟩ := hmem2 kv hkv
    obtain ⟨b0, hb0m, hid0, hfl0, hdd0⟩ := hmem1 _ hb1m
    exact ⟨b0, hb0m, by rw [hid1]; exact hid0, by rw [hfl1]; exact hfl0,
      by rw [hdd1]; exact hdd0⟩
  · intro t mh' hmh'
    obtain ⟨mhb, hmhb, hrcb, hdb⟩ := hrc2 t mh' hmh'
    obtain ⟨mh0, hmh0, hrc0, hd0⟩ := hrc1 t mhb hmhb
    exact ⟨mh0, hmh0, by rw [hrcb, hrc0]; ring⟩
  · rw [hcnt2, hcnt1]
  · rw [hst2, hst1]
  · rw [hlh2, hlh1]
  · rw [hlhe2, hlhe1]
  · rw [keys_upsertA, hdd, if_pos hcont0]
    exact hn0
  · intro kv hkv ht
    rcases mem_upsertA hkv with hin | hveq
    · rw [hdd] at hin
      exact hW0.varsValid kv hin ht
    · subst hveq
      rw [← containsA_eq_of_keys_eq hk1 v.data]
      exact hvalid2 ht
  · intro t
    show countVal ((upsertA ctx2.m_data id v).map Prod.snd) t =
      countVal ((emplaceA ctx.m_data id
        (⟨0, ValueType.integer⟩ : Value)).map Prod.snd) t +
        ((if v.type = ValueType.memory_handle ∧ v.data = t then 1 else 0) +
          (if w.type = ValueType.memory_handle ∧ w.data = t then -1 else 0))
    have hn2 : (ctx2.m_data.map Prod.fst).Nodup := by rw [hdd]; exact hn0
    have hcu := count_snd_upsertA ctx2.m_data id v
      (⟨t, ValueType.memory_handle⟩ : Value) hn2
    rw [hlk2] at hcu
    simp only [] at hcu
    unfold countVal
    rw [hcu, hdd]
    have e1 : (if v = (⟨t, ValueType.memory_handle⟩ : Value) then (1 : Int) else 0) =
        if v.type = ValueType.memory_handle ∧ v.data = t then 1 else 0 := by
      by_cases hc1 : v.type = ValueType.memory_handle ∧ v.data = t
      · rw [if_pos hc1, if_pos (value_eq_handle_iff.mpr hc1)]
      · rw [if_neg hc1, if_neg (fun hh => hc1 (value_eq_handle_iff.mp hh))]
    have e2 : (if w = (⟨t, ValueType.memory_handle⟩ : Value) then (1 : Int) else 0) =
        if w.type = ValueType.memory_handle ∧ w.data = t then 1 else 0 := by
      by_cases hc1 : w.type = ValueType.memory_handle ∧ w.data = t
      · rw [if_pos hc1, if_pos (value_eq_handle_iff.mpr hc1)]
      · rw [if_neg hc1, if_neg (fun hh => hc1 (value_eq_handle_iff.mp hh))]
    rw [e1, e2]
    split_ifs <;> ring

theorem WF_erase {ctx : Context} {id : Int} {c' : Context}
    (hW : WF ctx) (h : erase ctx id = (.ok (), c')) : WF c' := by
  unfold erase at h
  split at h
  case isFalse => exact absurd (congrArg Prod.fst h) (by simp)
  case isTrue hvd =>
  simp only [] at h
  split at h
  next e hm1 => exact absurd (congrArg Prod.fst h) (by simp)
  next ctx1 hm1 =>
  have hc' : c' = { ctx1 with m_data := eraseA ctx1.m_data id } :=
    (congrArg Prod.snd h).symm
  subst hc'
  set w := (lookupA ctx.m_data id).getD (⟨0, ValueType.integer⟩ : Value) with hwdef
  obtain ⟨hd1, hk1, hmd1, hmem1, hrc1, hcnt1, hst1, hlh1, hlhe1⟩ := decref_if_step hm1
  have hcont : containsA ctx.m_data id = true := hvd
  obtain ⟨w0, hw0⟩ := containsA_iff.mp hcont
  have hwlk : lookupA ctx.m_data id = some w := by
    rw [hw0, hwdef, hw0, Option.getD_some]
  apply WF_var_update hW (eraseA ctx1.m_data id)
    (fun t => if w.type = ValueType.memory_handle ∧ w.data = t then -1 else 0)
  · rw [hk1]
  · rw [hmd1]
  · exact hmem1
  · intro t mh' hmh'
    obtain ⟨mh0, hmh0, hrc0, hd0⟩ := hrc1 t mh' hmh'
    exact ⟨mh0, hmh0, hrc0⟩
  · rw [hcnt1]
  · rw [hst1]
  · rw [hlh1]
  · rw [hlhe1]
  · rw [hd1]
    exact List.Nodup.sublist ((eraseA_sublist ctx.m_data id).map Prod.fst) hW.dataNodup
  · intro kv hkv ht
    rw [hd1] at hkv
    exact hW.varsValid kv ((eraseA_sublist ctx.m_data id).subset hkv) ht
  · intro t
    show countVal ((eraseA ctx1.m_data id).map Prod.snd) t =
      countVal (ctx.m_data.map Prod.snd) t +
        (if w.type = ValueType.memory_handle ∧ w.data = t then -1 else 0)
    rw [hd1]
    unfold countVal
    rw [count_snd_eraseA ctx.m_data id (⟨t, ValueType.memory_handle⟩ : Value)
      hW.dataNodup hwlk]
    have e2 : (if w = (⟨t, ValueType.memory_handle⟩ : Value) then (1 : Int) else 0) =
        if w.type = ValueType.memory_handle ∧ w.data = t then 1 else 0 := by
      by_cases hc1 : w.type = ValueType.memory_handle ∧ w.data = t
      · rw [if_pos hc1, if_pos (value_eq_handle_iff.mpr hc1)]
      · rw [if_neg hc1, if_neg (fun hh => hc1 (value_eq_handle_iff.mp hh))]
    rw [e2]
    split_ifs <;> ring

theorem countVal_cons (v : Value) (vs : List Value) (t : Int) :
    countVal (v :: vs) t =
      (if v = (⟨t, ValueType.memory_handle⟩ : Value) then 1 else 0) + countVal vs t := by
  simp only [countVal, List.count_cons, beq_iff_eq]
  push_cast
  split_ifs <;> ring

/-- The shape shared by refcount-only heap mutations (`decref` chains, the
decouple pass): variables, heap keys, cell payloads, identifiers, flags and
the GC cursor fields are all preserved, and each cell's `ref_count` moves by
`δ` of its key. -/
def RcShift (ctx ctx' : Context) (δ : Int → Int) : Prop :=
  ctx'.m_data = ctx.m_data ∧
  ctx'.m_mem_handles.map Prod.fst = ctx.m_mem_handles.map Prod.fst ∧
  ctx'.m_mem_handles.map (fun kv => kv.2.data) =
    (ctx.m_mem_handles.map fun kv => kv.2.data) ∧
  (∀ kv ∈ ctx'.m_mem_handles, ∃ b, (kv.1, b) ∈ ctx.m_mem_handles ∧
    kv.2.alloc_id = b.alloc_id ∧ kv.2.flags = b.flags ∧ kv.2.data = b.data) ∧
  (∀ t mh', lookupA ctx'.m_mem_handles t = some mh' →
    ∃ mh, lookupA ctx.m_mem_handles t = some mh ∧
      mh'.ref_count = mh.ref_count + δ t ∧ mh'.data = mh.data) ∧
  ctx'.m_alloc_counter = ctx.m_alloc_counter ∧
  ctx'.m_magc_state = ctx.m_magc_state ∧
  ctx'.m_magc_last_handle = ctx.m_magc_last_handle ∧
  ctx'.m_magc_last_handle_entry = ctx.m_magc_last_handle_entry

theorem RcShift_refl (ctx : Context) : RcShift ctx ctx (fun _ => 0) := by
  refine ⟨rfl, rfl, rfl, ?_, ?_, rfl, rfl, rfl, rfl⟩
  · intro kv hkv
    exact ⟨kv.2, by rcases kv with ⟨k, b⟩; exact hkv, rfl, rfl, rfl⟩
  · intro t mh' hmh'
    exact ⟨mh', hmh', by ring, rfl⟩

theorem RcShift_congr {a b : Context} {δ δ' : Int → Int}
    (h : RcShift a b δ) (hδ : ∀ t, δ t = δ' t) : RcShift a b δ' := by
  obtain ⟨h1, h2, h3, h4, h5, h6, h7, h8, h9⟩ := h
  refine ⟨h1, h2, h3, h4, ?_, h6, h7, h8, h9⟩
  intro t mh' hmh'
  obtain ⟨mh, hmh, hrc, hd⟩ := h5 t mh' hmh'
  exact ⟨mh, hmh, by rw [hrc, hδ], hd⟩

theorem RcShift_trans {a b c : Context} {δ1 δ2 : Int → Int}
    (hab : RcShift a b δ1) (hbc : RcShift b c δ2) :
    RcShift a c (fun t => δ1 t + δ2 t) := by
  obtain ⟨h1, h2, h3, h4, h5, h6, h7, h8, h9⟩ := hab
  obtain ⟨g1, g2, g3, g4, g5, g6, g7, g8, g9⟩ := hbc
  refine ⟨g1.trans h1, g2.trans h2, g3.trans h3, ?_, ?_, g6.trans h6,
    g7.trans h7, g8.trans h8, g9.trans h9⟩
  · intro kv hkv
    obtain ⟨b1, hb1, hi1, hf1, hd1⟩ := g4 kv hkv
    obtain ⟨b0, hb0, hi0, hf0, hd0⟩ := h4 _ hb1
    exact ⟨b0, hb0, by rw [hi1]; exact hi0, by rw [hf1]; exact hf0,
      by rw [hd1]; exact hd0⟩
  · intro t mh' hmh'
    obtain ⟨mhb, hmhb, hrcb, hdb⟩ := g5 t mh' hmh'
    obtain ⟨mh0, hmh0, hrc0, hd0⟩ := h5 t mhb hmhb
    exact ⟨mh0, hmh0, by rw [hrcb, hrc0]; ring, by rw [hdb, hd0]⟩

theorem RcShift_decrefPresent (ctx : Context) (p : Int) :
    RcShift ctx (decrefPresent ctx p) (fun t => if p = t then -1 else 0) := by
  have hheap := decrefPresent_heap ctx p
  refine ⟨decrefPresent_data ctx p, ?_, ?_, ?_, ?_,
    (decrefPresent_frame ctx p).1,
    (decrefPresent_frame ctx p).2.2.2.2.2.2,
    (decrefPresent_frame ctx p).2.2.2.2.1,
    (decrefPresent_frame ctx p).2.2.2.2.2.1⟩
  · rw [hheap, keys_modifyA]
  · rw [hheap]
    exact map_data_modifyA_rc _ _ _ fun mh => rfl
  · intro kv hkv
    rw [hheap] at hkv
    exact mem_modifyA_rc_chain (fun mh => { mh with ref_count := mh.ref_count - 1 })
      (fun b => ⟨rfl, rfl, rfl⟩) kv hkv
  · intro t mh' hmh'
    rw [hheap] at hmh'
    obtain ⟨mh, hmh, hrc, hd⟩ := rcdata_delta_modify
      (f := fun mh => { mh with ref_count := mh.ref_count - 1 }) (d := -1)
      (fun b => by simp; ring) (fun b => rfl) t mh' hmh'
    exact ⟨mh, hmh, hrc, hd⟩

/-- Sum over a garbage list of the number of handle slots its cells hold on
identifier `t` (absent identifiers contribute nothing). -/
def garbageCount (heap : List (Int × MemoryHandle)) (l : List Int) (t : Int) : Int :=
  (l.map fun g => match lookupA heap g with
                  | some mh => countVal mh.data t
                  | none => 0).sum

theorem garbageCount_nil (heap : List (Int × MemoryHandle)) (t : Int) :
    garbageCount heap [] t = 0 := rfl

theorem garbageCount_cons (heap : List (Int × MemoryHandle)) (g : Int)
    (rest : List Int) (t : Int) :
    garbageCount heap (g :: rest) t =
      (match lookupA heap g with
       | some mh => countVal mh.data t
       | none => 0) + garbageCount heap rest t := by
  simp [garbageCount]

/-- `RcShift` leaves the per-identifier garbage counts unchanged. -/
theorem garbageCount_of_RcShift {a b : Context} {δ : Int → Int}
    (h : RcShift a b δ) (l : List Int) (t : Int) :
    garbageCount b.m_mem_handles l t = garbageCount a.m_mem_handles l t := by
  obtain ⟨-, hk, -, -, h5, -⟩ := h
  unfold garbageCount
  congr 1
  apply List.map_congr_left
  intro g hg
  cases hob : lookupA b.m_mem_handles g with
  | some mh' =>
      obtain ⟨mh, hmh, -, hd⟩ := h5 g mh' hob
      rw [hmh]
      simp only []
      rw [hd]
  | none =>
      cases hoa : lookupA a.m_mem_handles g with
      | none => rfl
      | some mh =>
          exfalso
          have hga : g ∈ a.m_mem_handles.map Prod.fst :=
            List.mem_map.mpr ⟨(g, mh), lookupA_mem hoa, rfl⟩
          rw [← hk] at hga
          exact absurd (lookupA_none_iff.mp hob) (by simp [hga])

/-- `RcShift` preserves slot validity of the heap. -/
theorem heapValid_of_RcShift {a b : Context} {δ : Int → Int}
    (h : RcShift a b δ) (hv : heapValid a.m_mem_handles) :
    heapValid b.m_mem_handles := by
  obtain ⟨-, hk, -, h4, -⟩ := h
  intro kv hkv v hvm ht
  obtain ⟨b0, hb0, -, -, hd0⟩ := h4 kv hkv
  rw [hd0] at hvm
  rw [containsA_eq_of_keys_eq hk]
  exact hv _ hb0 v hvm ht

/-- Effect of `decoupleMemHandle`'s fold over a slot list whose handle slots
are all valid targets: each held target loses one reference. -/
theorem RcShift_decouple_fold : ∀ (d : List Value) (c : Context),
    (∀ v ∈ d, v.type = ValueType.memory_handle →
      containsA c.m_mem_handles v.data = true) →
    RcShift c
      (d.foldl (fun c v =>
        if v.type = ValueType.memory_handle ∧ containsA c.m_mem_handles v.data = true
        then decrefPresent c v.data
        else c) c)
      (fun t => -countVal d t)
  | [], c, _ => by
      simp only [List.foldl_nil]
      exact RcShift_congr (RcShift_refl c) (fun t => by simp [countVal])
  | v :: rest, c, hvalid => by
      rw [List.foldl_cons]
      by_cases hv : v.type = ValueType.memory_handle
      · have hc1 : containsA c.m_mem_handles v.data = true := hvalid v (by simp) hv
        rw [if_pos ⟨hv, hc1⟩]
        have h1 := RcShift_decrefPresent c v.data
        have hvalid' : ∀ v' ∈ rest, v'.type = ValueType.memory_handle →
            containsA (decrefPresent c v.data).m_mem_handles v'.data = true := by
          intro v' hv' ht
          have hkeys : (decrefPresent c v.data).m_mem_handles.map Prod.fst =
              c.m_mem_handles.map Prod.fst := by
            rw [decrefPresent_heap, keys_modifyA]
          rw [containsA_eq_of_keys_eq hkeys]
          exact hvalid v' (List.mem_cons_of_mem _ hv') ht
        have h2 := RcShift_decouple_fold rest (decrefPresent c v.data) hvalid'
        refine RcShift_congr (RcShift_trans h1 h2) ?_
        intro t
        rw [countVal_cons]
        have he : (if v = (⟨t, ValueType.memory_handle⟩ : Value) then (1 : Int) else 0) =
            if v.data = t then 1 else 0 := by
          by_cases hd : v.data = t
          · rw [if_pos hd, if_pos (value_eq_handle_iff.mpr ⟨hv, hd⟩)]
          · rw [if_neg hd, if_neg (fun hh => hd (value_eq_handle_iff.mp hh).2)]
        rw [he]
        split_ifs <;> ring
      · rw [if_neg (fun hh => hv hh.1)]
        have h2 := RcShift_decouple_fold rest c
          (fun v' hv' ht => hvalid v' (List.mem_cons_of_mem _ hv') ht)
        refine RcShift_congr h2 ?_
        intro t
        rw [countVal_cons, if_neg (fun hh => hv (value_eq_handle_iff.mp hh).1)]
        ring

/-- `decoupleMemHandle` on a cell all of whose handle slots are valid. -/
theorem RcShift_decoupleMemHandle (c : Context) (mh : MemoryHandle)
    (hvalid : ∀ v ∈ mh.data, v.type = ValueType.memory_handle →
      containsA c.m_mem_handles v.data = true) :
    RcShift c (decoupleMemHandle c mh) (fun t => -countVal mh.data t) :=
  RcShift_decouple_fold mh.data c hvalid

/-- The decouple pass on a slot-valid heap: every slot of every garbage cell
is decrefed, so each identifier `t` loses `garbageCount l t` references. -/
theorem RcShift_decouplePass : ∀ (l : List Int) (c c1 : Context),
    heapValid c.m_mem_handles →
    decouplePass c l = (.ok (), c1) →
    RcShift c c1 (fun t => -garbageCount c.m_mem_handles l t)
  | [], c, c1, _, h => by
      unfold decouplePass at h
      have hc : c1 = c := (congrArg Prod.snd h).symm
      rw [hc]
      exact RcShift_congr (RcShift_refl c) (fun t => by rw [garbageCount_nil]; ring)
  | g :: rest, c, c1, hv, h => by
      unfold decouplePass at h
      split at h
      next hnone => exact absurd (congrArg Prod.fst h) (by simp)
      next mh hmh =>
      have hvs : ∀ v ∈ mh.data, v.type = ValueType.memory_handle →
          containsA c.m_mem_handles v.data = true :=
        hv (g, mh) (lookupA_mem hmh)
      have h1 := RcShift_decoupleMemHandle c mh hvs
      have hv0 : heapValid (decoupleMemHandle c mh).m_mem_handles :=
        heapValid_of_RcShift h1 hv
      have h2 := RcShift_decouplePass rest (decoupleMemHandle c mh) c1 hv0 h
      refine RcShift_congr (RcShift_trans h1 h2) ?_
      intro t
      rw [garbageCount_of_RcShift h1 rest t, garbageCount_cons, hmh]
      simp only []
      ring


/-- Characterization of a successful destroy pass: the heap loses exactly
the listed cells (all of which were present), everything else is untouched. -/
theorem destroyPass_ok : ∀ (l : List Int) (c c2 : Context),
    (∀ kv ∈ c.m_mem_handles, kv.2.alloc_id = kv.1) →
    ((c.m_mem_handles.map Prod.fst).Nodup) →
    destroyPass c l = (.ok (), c2) →
    c2.m_mem_handles.Sublist c.m_mem_handles ∧
    (∀ t, lookupA c2.m_mem_handles t =
      if t ∈ l then none else lookupA c.m_mem_handles t) ∧
    (∀ t, (c2.m_mem_handles.map fun kv => countVal kv.2.data t).sum =
      (c.m_mem_handles.map fun kv => countVal kv.2.data t).sum -
        garbageCount c.m_mem_handles l t) ∧
    (∀ g ∈ l, containsA c.m_mem_handles g = true) ∧
    c2.m_data = c.m_data ∧
    c2.m_alloc_counter = c.m_alloc_counter ∧
    c2.m_magc_state = c.m_magc_state ∧
    c2.m_magc_last_handle = c.m_magc_last_handle ∧
    c2.m_magc_last_handle_entry = c.m_magc_last_handle_entry
  | [], c, c2, _, _, h => by
      unfold destroyPass at h
      have hc : c2 = c := (congrArg Prod.snd h).symm
      subst hc
      refine ⟨List.Sublist.refl _, ?_, ?_, ?_, rfl, rfl, rfl, rfl, rfl⟩
      · intro t
        simp
      · intro t
        rw [garbageCount_nil]
        ring
      · intro g hg
        simp at hg
  | g :: rest, c, c2, hA, hn, h => by
      unfold destroyPass at h
      split at h
      next hnone => exact absurd (congrArg Prod.fst h) (by simp)
      next mh hmh =>
      have halloc : mh.alloc_id = g := hA (g, mh) (lookupA_mem hmh)
      have hch : (destroyMemHandle c mh).m_mem_handles = eraseA c.m_mem_handles g := by
        unfold destroyMemHandle
        rw [halloc]
      have hA0 : ∀ kv ∈ (destroyMemHandle c mh).m_mem_handles, kv.2.alloc_id = kv.1 := by
        intro kv hkv
        rw [hch] at hkv
        exact hA kv ((eraseA_sublist _ _).subset hkv)
      have hn0 : ((destroyMemHandle c mh).m_mem_handles.map Prod.fst).Nodup := by
        rw [hch]
        exact List.Nodup.sublist (keys_eraseA_sublist _ _) hn
      obtain ⟨hsub, hlk, hsum, hpres, hdata, hcnt, hst, hlh, hlhe⟩ :=
        destroyPass_ok rest (destroyMemHandle c mh) c2 hA0 hn0 h
      have hlk0 : ∀ t, lookupA (destroyMemHandle c mh).m_mem_handles t =
          if t = g then none else lookupA c.m_mem_handles t := by
        intro t
        rw [hch]
        exact lookupA_eraseA g t hn
      have hpres' : ∀ g' ∈ rest, containsA c.m_mem_handles g' = true ∧ g' ≠ g := by
        intro g' hg'
        have hp := hpres g' hg'
        obtain ⟨b, hb⟩ := containsA_iff.mp hp
        rw [hlk0 g'] at hb
        by_cases hgg : g' = g
        · rw [if_pos hgg] at hb
          exact absurd hb (by simp)
        · rw [if_neg hgg] at hb
          exact ⟨containsA_iff.mpr ⟨b, hb⟩, hgg⟩
      refine ⟨?_, ?_, ?_, ?_, hdata, hcnt, hst, hlh, hlhe⟩
      · refine hsub.trans ?_
        rw [hch]
        exact eraseA_sublist _ _
      · intro t
        rw [hlk t, hlk0 t]
        by_cases h1 : t ∈ rest
        · simp [h1]
        · by_cases h2 : t = g
          · simp [h1, h2]
          · simp [h1, h2]
      · intro t
        rw [hsum t]
        have e0 : ((destroyMemHandle c mh).m_mem_handles.map
            fun kv => countVal kv.2.data t).sum =
            (c.m_mem_handles.map fun kv => countVal kv.2.data t).sum -
              countVal mh.data t := by
          rw [hch]
          exact sum_map_eraseA c.m_mem_handles g (fun b => countVal b.data t) hn hmh
        have e1 : garbageCount (destroyMemHandle c mh).m_mem_handles rest t =
            garbageCount c.m_mem_handles rest t := by
          unfold garbageCount
          congr 1
          apply List.map_congr_left
          intro g' hg'
          rw [hlk0 g', if_neg (hpres' g' hg').2]
        rw [e0, e1, garbageCount_cons, hmh]
        simp only []
        ring
      · intro g' hg'
        rcases List.mem_cons.mp hg' with h1 | h1
        · subst h1
          exact containsA_iff.mpr ⟨mh, hmh⟩
        · exact (hpres' g' h1).1

theorem countRefs_pos_of_var {ctx : Context} {kv : Int × Value} {t : Int}
    (hkv : kv ∈ ctx.m_data) (hv : kv.2 = (⟨t, ValueType.memory_handle⟩ : Value)) :
    1 ≤ countRefs ctx t := by
  unfold countRefs
  have hm : (⟨t, ValueType.memory_handle⟩ : Value) ∈ ctx.m_data.map Prod.snd :=
    List.mem_map.mpr ⟨kv, hkv, hv⟩
  have hnz : (ctx.m_data.map Prod.snd).count
      (⟨t, ValueType.memory_handle⟩ : Value) ≠ 0 :=
    fun hz => (List.count_eq_zero.mp hz) hm
  have h1 : 1 ≤ countVal (ctx.m_data.map Prod.snd) t := by
    unfold countVal
    exact_mod_cast Nat.one_le_iff_ne_zero.mpr hnz
  have h2 : 0 ≤ (ctx.m_mem_handles.map fun kv => countVal kv.2.data t).sum := by
    apply List.sum_nonneg
    intro x hx
    obtain ⟨kv', -, hx'⟩ := List.mem_map.mp hx
    rw [← hx']
    exact countVal_nonneg _ _
  omega

theorem countRefs_pos_of_slot {ctx : Context} {kv : Int × MemoryHandle} {v : Value}
    {t : Int} (hkv : kv ∈ ctx.m_mem_handles) (hv : v ∈ kv.2.data)
    (hveq : v = (⟨t, ValueType.memory_handle⟩ : Value)) : 1 ≤ countRefs ctx t := by
  unfold countRefs
  have h1 : 0 ≤ countVal (ctx.m_data.map Prod.snd) t := countVal_nonneg _ _
  have hm : (⟨t, ValueType.memory_handle⟩ : Value) ∈ kv.2.data := hveq ▸ hv
  have hnz : kv.2.data.count (⟨t, ValueType.memory_handle⟩ : Value) ≠ 0 :=
    fun hz => (List.count_eq_zero.mp hz) hm
  have h2 : 1 ≤ countVal kv.2.data t := by
    unfold countVal
    exact_mod_cast Nat.one_le_iff_ne_zero.mpr hnz
  have h3 : countVal kv.2.data t ≤
      (ctx.m_mem_handles.map fun kv => countVal kv.2.data t).sum := by
    apply List.single_le_sum
    · intro x hx
      obtain ⟨kv', -, hx'⟩ := List.mem_map.mp hx
      rw [← hx']
      exact countVal_nonneg _ _
    · exact List.mem_map.mpr ⟨kv, hkv, rfl⟩
  omega

/-- The workhorse for the collectors: releasing a garbage list that nothing
outside it references preserves well-formedness. -/
theorem releaseGarbage_WF {ctx : Context} {G : List Int} {c' : Context}
    (hW : WF ctx)
    (hvars : ∀ kv ∈ ctx.m_data, kv.2.type = ValueType.memory_handle →
      kv.2.data ∉ G)
    (hcells : ∀ kv ∈ ctx.m_mem_handles, kv.1 ∉ G → ∀ v ∈ kv.2.data,
      v.type = ValueType.memory_handle → v.data ∉ G)
    (h : releaseGarbage ctx G = (.ok (), c')) : WF c' := by
  unfold releaseGarbage at h
  simp only [] at h
  split at h
  case h_2 e ctx1 hdec => exact absurd (congrArg Prod.fst h) (by simp)
  case h_1 u ctx1 hdec =>
  have hhv : heapValid ctx.m_mem_handles := hW.cellsValid
  have hsh := RcShift_decouplePass _ ctx ctx1 hhv hdec
  have hsh' := hsh
  obtain ⟨hd1, hk1, hmd1, hmem1, hrc1, hcnt1, hst1, hlh1, hlhe1⟩ := hsh'
  have hA1 : ∀ kv ∈ ctx1.m_mem_handles, kv.2.alloc_id = kv.1 := by
    intro kv hkv
    obtain ⟨b, hb, hi, -, -⟩ := hmem1 kv hkv
    rw [hi]
    exact hW.allocId _ hb
  have hn1 : (ctx1.m_mem_handles.map Prod.fst).Nodup := by
    rw [hk1]
    exact hW.heapNodup
  obtain ⟨hsub, hlk, hsum, hpres, hdata2, hcnt2, hst2, hlh2, hlhe2⟩ :=
    destroyPass_ok _ ctx1 c' hA1 hn1 h
  have hn' : (c'.m_mem_handles.map Prod.fst).Nodup :=
    List.Nodup.sublist (hsub.map Prod.fst) hn1
  constructor
  · rw [hdata2, hd1]
    exact hW.dataNodup
  · exact hn'
  · intro kv hkv
    exact hA1 kv (hsub.subset hkv)
  · intro kv hkv
    obtain ⟨b, hb, -, -, -⟩ := hmem1 kv (hsub.subset hkv)
    have := hW.counterBound _ hb
    simp only at this ⊢
    rw [hcnt2, hcnt1]
    exact this
  · intro kv hkv
    obtain ⟨b, hb, -, hf, -⟩ := hmem1 kv (hsub.subset hkv)
    rw [hf]
    exact hW.flagsOK _ hb
  · intro kv hkv ht
    rw [hdata2, hd1] at hkv
    have hG : kv.2.data ∉ G := hvars kv hkv ht
    obtain ⟨b, hb⟩ := containsA_iff.mp
      (by rw [containsA_eq_of_keys_eq hk1]
          exact hW.varsValid kv hkv ht)
    refine containsA_iff.mpr ⟨b, ?_⟩
    rw [hlk kv.2.data, if_neg (fun hm => hG (List.mem_filter.mp hm).1)]
    exact hb
  · intro kv hkv v hv ht
    have hkv1 : kv ∈ ctx1.m_mem_handles := hsub.subset hkv
    obtain ⟨b, hb, -, -, hdb⟩ := hmem1 kv hkv1
    have hklk : lookupA c'.m_mem_handles kv.1 = some kv.2 := by
      apply lookupA_of_mem_nodup _ hn'
      rcases kv with ⟨k0, mh0⟩
      exact hkv
    have hnotvalid : kv.1 ∉ G.filter fun ga => containsA ctx.m_mem_handles ga := by
      intro hm
      rw [hlk kv.1, if_pos hm] at hklk
      exact absurd hklk (by simp)
    have hkG : kv.1 ∉ G := by
      intro hmG
      apply hnotvalid
      refine List.mem_filter.mpr ⟨hmG, ?_⟩
      exact containsA_iff_mem.mpr (List.mem_map.mpr ⟨(kv.1, b), hb, rfl⟩)
    rw [hdb] at hv
    have hGv : v.data ∉ G := hcells (kv.1, b) hb hkG v hv ht
    obtain ⟨b2, hb2⟩ := containsA_iff.mp
      (by rw [containsA_eq_of_keys_eq hk1]
          exact hW.cellsValid (kv.1, b) hb v hv ht)
    refine containsA_iff.mpr ⟨b2, ?_⟩
    rw [hlk v.data, if_neg (fun hm => hGv (List.mem_filter.mp hm).1)]
    exact hb2
  · rw [I1holds_iff_at hn']
    intro t mh' hmh'
    have hl := hmh'
    rw [hlk t] at hl
    by_cases hm : t ∈ G.filter fun ga => containsA ctx.m_mem_handles ga
    · rw [if_pos hm] at hl
      exact absurd hl (by simp)
    · rw [if_neg hm] at hl
      obtain ⟨mh, hmh, hrc, hdm⟩ := hrc1 t mh' hl
      have hI := (I1holds_iff_at hW.heapNodup).mp hW.refcounts t mh hmh
      have hsump : (c'.m_mem_handles.map fun kv => countVal kv.2.data t).sum =
          (ctx.m_mem_handles.map fun kv => countVal kv.2.data t).sum -
            garbageCount ctx.m_mem_handles
              (G.filter fun ga => containsA ctx.m_mem_handles ga) t := by
        rw [hsum t, garbageCount_of_RcShift hsh _ t]
        congr 1
        have hc2 : (fun kv : Int × MemoryHandle => countVal kv.2.data t) =
            (fun d => countVal d t) ∘ fun kv : Int × MemoryHandle => kv.2.data := rfl
        rw [hc2, ← List.map_map, ← List.map_map, hmd1]
      have hcr : countRefs c' t = countRefs ctx t -
          garbageCount ctx.m_mem_handles
            (G.filter fun ga => containsA ctx.m_mem_handles ga) t := by
        unfold countRefs
        rw [hsump, hdata2, hd1]
        ring
      rw [hrc, hI, hcr]
      ring
  · rw [hst2, hst1]
    exact hW.stateZero
  · rw [hlh2, hlh1]
    exact hW.lhZero
  · rw [hlhe2, hlhe1]
    exact hW.lheZero

theorem WF_minorGC {ctx : Context} {c' : Context}
    (hW : WF ctx) (h : minorGC ctx = (.ok (), c')) : WF c' := by
  unfold minorGC at h
  simp only [] at h
  split at h
  case h_2 e ctx1 hrel => exact absurd (congrArg Prod.fst h) (by simp)
  case h_1 u ctx1 hrel =>
  have hc' : c' = { ctx1 with m_gc_candidates := [] } := (congrArg Prod.snd h).symm
  subst hc'
  have hGmem : ∀ p, p ∈ ctx.m_gc_candidates.filter (fun p =>
      match lookupA ctx.m_mem_handles p with
      | none => false
      | some mh => decide (mh.ref_count ≤ 0)) →
      ∃ mh, lookupA ctx.m_mem_handles p = some mh ∧ mh.ref_count ≤ 0 := by
    intro p hp
    have hf := (List.mem_filter.mp hp).2
    cases ho : lookupA ctx.m_mem_handles p with
    | none =>
        rw [ho] at hf
        simp at hf
    | some mh =>
        rw [ho] at hf
        simp only [decide_eq_true_eq] at hf
        exact ⟨mh, rfl, hf⟩
  have hW1 : WF ctx1 := by
    refine releaseGarbage_WF hW ?_ ?_ hrel
    · intro kv hkv ht hmG
      obtain ⟨mh, hmh, hrc⟩ := hGmem _ hmG
      have hI := (I1holds_iff_at hW.heapNodup).mp hW.refcounts kv.2.data mh hmh
      have hpos := countRefs_pos_of_var hkv (value_eq_handle_iff.mpr ⟨ht, rfl⟩)
      omega
    · intro kv hkv hk1 v hv ht hmG
      obtain ⟨mh, hmh, hrc⟩ := hGmem _ hmG
      have hI := (I1holds_iff_at hW.heapNodup).mp hW.refcounts v.data mh hmh
      have hpos := countRefs_pos_of_slot hkv hv (value_eq_handle_iff.mpr ⟨ht, rfl⟩)
      omega
  constructor
  · exact hW1.dataNodup
  · exact hW1.heapNodup
  · exact hW1.allocId
  · exact hW1.counterBound
  · exact hW1.flagsOK
  · exact hW1.varsValid
  · exact hW1.cellsValid
  · exact hW1.refcounts
  · exact hW1.stateZero
  · exact hW1.lhZero
  · exact hW1.lheZero

theorem bit0_setBit0 (f : Int) : bit0 (setBit0 f) = 1 := by
  unfold bit0 setBit0
  omega

theorem setBit0_setBit0 (f : Int) : setBit0 (setBit0 f) = setBit0 f := by
  unfold setBit0
  omega

theorem bit0_clearBit0 (f : Int) : bit0 (clearBit0 f) = 0 := by
  unfold bit0 clearBit0
  omega

theorem setBit0_clearBit0 (f : Int) : setBit0 (clearBit0 f) = clearBit0 f + 1 := by
  unfold setBit0 clearBit0
  omega

/-- The mark update applied to one cell (`mh.flags |= 0x1`). -/
def markF (mh : MemoryHandle) : MemoryHandle := { mh with flags := setBit0 mh.flags }

theorem markF_idem (mh : MemoryHandle) : markF (markF mh) = markF mh := by
  unfold markF
  rw [setBit0_setBit0]

theorem setFlagBit_eq (heap : List (Int × MemoryHandle)) (p : Int) :
    setFlagBit heap p = modifyA heap p markF := rfl

theorem keys_setFlagBit (heap : List (Int × MemoryHandle)) (p : Int) :
    (setFlagBit heap p).map Prod.fst = heap.map Prod.fst := by
  rw [setFlagBit_eq, keys_modifyA]

theorem lookupA_setFlagBit (heap : List (Int × MemoryHandle)) (p q : Int) :
    lookupA (setFlagBit heap p) q =
      if p = q then (lookupA heap q).map markF else lookupA heap q := by
  rw [setFlagBit_eq, lookupA_modifyA]

/-- Marking the whole frontier, cell by cell. -/
def markAll (heap : List (Int × MemoryHandle)) (next : List Int) :
    List (Int × MemoryHandle) :=
  next.foldl setFlagBit heap

theorem markAll_nil (heap : List (Int × MemoryHandle)) : markAll heap [] = heap := rfl

theorem markAll_cons (heap : List (Int × MemoryHandle)) (p : Int) (rest : List Int) :
    markAll heap (p :: rest) = markAll (setFlagBit heap p) rest := rfl

theorem keys_markAll : ∀ (next : List Int) (heap : List (Int × MemoryHandle)),
    (markAll heap next).map Prod.fst = heap.map Prod.fst
  | [], heap => rfl
  | p :: rest, heap => by
      rw [markAll_cons, keys_markAll rest _, keys_setFlagBit]

theorem lookupA_markAll : ∀ (next : List Int) (heap : List (Int × MemoryHandle)) (q : Int),
    lookupA (markAll heap next) q =
      if q ∈ next then (lookupA heap q).map markF else lookupA heap q
  | [], heap, q => by simp [markAll_nil]
  | p :: rest, heap, q => by
      rw [markAll_cons, lookupA_markAll rest _ q, lookupA_setFlagBit]
      by_cases h1 : q ∈ rest
      · rw [if_pos h1, if_pos (List.mem_cons_of_mem _ h1)]
        by_cases h2 : p = q
        · rw [if_pos h2, Option.map_map]
          cases lookupA heap q with
          | none => rfl
          | some mh => simp [Function.comp, markF_idem]
        · rw [if_neg h2]
      · rw [if_neg h1]
        by_cases h2 : p = q
        · rw [if_pos h2, if_pos (by rw [← h2]; exact List.mem_cons_self _ _)]
        · rw [if_neg h2, if_neg (by
            intro hm
            rcases List.mem_cons.mp hm with hq | hq
            · exact h2 hq.symm
            · exact h1 hq)]

theorem keys_clearMarkFlags (heap : List (Int × MemoryHandle)) :
    (clearMarkFlags heap).map Prod.fst = heap.map Prod.fst := by
  unfold clearMarkFlags
  rw [List.map_map]
  rfl

theorem lookupA_clearMarkFlags (heap : List (Int × MemoryHandle)) (q : Int) :
    lookupA (clearMarkFlags heap) q =
      (lookupA heap q).map fun mh => { mh with flags := clearBit0 mh.flags } := by
  induction heap with
  | nil => simp [clearMarkFlags, lookupA_nil]
  | cons kv rest ih =>
      obtain ⟨k, b⟩ := kv
      unfold clearMarkFlags at ih ⊢
      simp only [List.map_cons]
      rw [lookupA_cons, lookupA_cons]
      by_cases hk : k = q
      · rw [if_pos hk, if_pos hk]
        rfl
      · rw [if_neg hk, if_neg hk]
        exact ih


theorem mem_seedFrontier : ∀ (vars : List (Int × Value)) (next : List Int) (t : Int),
    t ∈ seedFrontier vars next ↔
      t ∈ next ∨ ∃ kv ∈ vars, kv.2.type = ValueType.memory_handle ∧ kv.2.data = t
  | [], next, t => by simp [seedFrontier]
  | kv0 :: rest, next, t => by
      unfold seedFrontier
      rw [List.foldl_cons]
      have hrest := mem_seedFrontier rest
        (if kv0.2.type = ValueType.memory_handle then insertS next kv0.2.data else next) t
      unfold seedFrontier at hrest
      rw [hrest]
      by_cases h0 : kv0.2.type = ValueType.memory_handle
      · rw [if_pos h0] at *
        rw [mem_insertS]
        constructor
        · rintro ((h | h) | ⟨kv, hkv, hh⟩)
          · exact Or.inl h
          · exact Or.inr ⟨kv0, List.mem_cons_self _ _, h0, h.symm⟩
          · exact Or.inr ⟨kv, List.mem_cons_of_mem _ hkv, hh⟩
        · rintro (h | ⟨kv, hkv, hh⟩)
          · exact Or.inl (Or.inl h)
          · rcases List.mem_cons.mp hkv with h1 | h1
            · subst h1
              exact Or.inl (Or.inr hh.2.symm)
            · exact Or.inr ⟨kv, h1, hh⟩
      · rw [if_neg h0] at *
        constructor
        · rintro (h | ⟨kv, hkv, hh⟩)
          · exact Or.inl h
          · exact Or.inr ⟨kv, List.mem_cons_of_mem _ hkv, hh⟩
        · rintro (h | ⟨kv, hkv, hh⟩)
          · exact Or.inl h
          · rcases List.mem_cons.mp hkv with h1 | h1
            · subst h1
              exact absurd hh.1 h0
            · exact Or.inr ⟨kv, h1, hh⟩

theorem mem_sweepGarbage {heap : List (Int × MemoryHandle)} {g : Int} :
    g ∈ sweepGarbage heap ↔
      ∃ kv ∈ heap, bit0 kv.2.flags = 0 ∧ kv.2.alloc_id = g := by
  unfold sweepGarbage
  rw [List.mem_filterMap]
  constructor
  · rintro ⟨kv, hkv, hf⟩
    by_cases hb : bit0 kv.2.flags = 0
    · rw [if_pos hb] at hf
      injection hf with hf
      exact ⟨kv, hkv, hb, hf⟩
    · rw [if_neg hb] at hf
      exact absurd hf (by simp)
  · rintro ⟨kv, hkv, hb, hf⟩
    exact ⟨kv, hkv, by rw [if_pos hb, hf]⟩

/-- A cell is marked: present with mark bit set. -/
def markedIn (heap : List (Int × MemoryHandle)) (t : Int) : Prop :=
  ∃ mh, lookupA heap t = some mh ∧ bit0 mh.flags = 1

/-- The frontier contributions of one cell's slots (the unbudgeted inner
loop): unvisited handle targets are inserted into the new frontier. -/
def collectInner (visited nf : List Int) (data : List Value) : List Int :=
  data.foldl
    (fun nf v =>
      if v.type = ValueType.memory_handle ∧ v.data ∉ visited then insertS nf v.data
      else nf)
    nf

/-- The frontier contributions of all cells of the current frontier. -/
def collectNew (heap : List (Int × MemoryHandle)) (visited : List Int) :
    List Int → List Int → List Int
  | [], nf => nf
  | p :: rest, nf =>
      match lookupA heap p with
      | some mh => collectNew heap visited rest (collectInner visited nf mh.data)
      | none => collectNew heap visited rest nf

theorem collectNew_cons (heap : List (Int × MemoryHandle)) (visited : List Int)
    (p : Int) (rest nf : List Int) :
    collectNew heap visited (p :: rest) nf =
      match lookupA heap p with
      | some mh => collectNew heap visited rest (collectInner visited nf mh.data)
      | none => collectNew heap visited rest nf := rfl

theorem mem_collectInner : ∀ (data : List Value) (visited nf : List Int) (t : Int),
    t ∈ collectInner visited nf data ↔
      t ∈ nf ∨ ∃ v ∈ data, v.type = ValueType.memory_handle ∧ v.data = t ∧
        v.data ∉ visited
  | [], visited, nf, t => by simp [collectInner]
  | v :: rest, visited, nf, t => by
      unfold collectInner
      rw [List.foldl_cons]
      have hrest := mem_collectInner rest visited
        (if v.type = ValueType.memory_handle ∧ v.data ∉ visited
         then insertS nf v.data else nf) t
      unfold collectInner at hrest
      rw [hrest]
      by_cases h0 : v.type = ValueType.memory_handle ∧ v.data ∉ visited
      · rw [if_pos h0]
        rw [mem_insertS]
        constructor
        · rintro ((h | h) | ⟨v', hv', hh⟩)
          · exact Or.inl h
          · exact Or.inr ⟨v, List.mem_cons_self _ _, h0.1, h.symm, h0.2⟩
          · exact Or.inr ⟨v', List.mem_cons_of_mem _ hv', hh⟩
        · rintro (h | ⟨v', hv', hh⟩)
          · exact Or.inl (Or.inl h)
          · rcases List.mem_cons.mp hv' with h1 | h1
            · subst h1
              exact Or.inl (Or.inr hh.2.1.symm)
            · exact Or.inr ⟨v', h1, hh⟩
      · rw [if_neg h0]
        constructor
        · rintro (h | ⟨v', hv', hh⟩)
          · exact Or.inl h
          · exact Or.inr ⟨v', List.mem_cons_of_mem _ hv', hh⟩
        · rintro (h | ⟨v', hv', hh⟩)
          · exact Or.inl h
          · rcases List.mem_cons.mp hv' with h1 | h1
            · subst h1
              exact absurd ⟨hh.1, hh.2.1 ▸ hh.2.2⟩ h0
            · exact Or.inr ⟨v', h1, hh⟩

theorem mem_collectNew : ∀ (next : List Int) (heap : List (Int × MemoryHandle))
      (visited nf : List Int) (t : Int),
    t ∈ collectNew heap visited next nf ↔
      t ∈ nf ∨ ∃ p ∈ next, ∃ mh, lookupA heap p = some mh ∧
        ∃ v ∈ mh.data, v.type = ValueType.memory_handle ∧ v.data = t ∧
          v.data ∉ visited
  | [], heap, visited, nf, t => by simp [collectNew]
  | p :: rest, heap, visited, nf, t => by
      unfold collectNew
      cases ho : lookupA heap p with
      | some mh =>
          rw [mem_collectNew rest heap visited _ t, mem_collectInner]
          constructor
          · rintro ((h | ⟨v, hv, hh⟩) | ⟨p', hp', mh', hmh', hrest⟩)
            · exact Or.inl h
            · exact Or.inr ⟨p, List.mem_cons_self _ _, mh, ho, v, hv, hh⟩
            · exact Or.inr ⟨p', List.mem_cons_of_mem _ hp', mh', hmh', hrest⟩
          · rintro (h | ⟨p', hp', mh', hmh', v, hv, hh⟩)
            · exact Or.inl (Or.inl h)
            · rcases List.mem_cons.mp hp' with h1 | h1
              · subst h1
                rw [ho] at hmh'
                injection hmh' with hmh'
                subst hmh'
                exact Or.inl (Or.inr ⟨v, hv, hh⟩)
              · exact Or.inr ⟨p', h1, mh', hmh', v, hv, hh⟩
      | none =>
          rw [mem_collectNew rest heap visited nf t]
          constructor
          · rintro (h | ⟨p', hp', hrest⟩)
            · exact Or.inl h
            · exact Or.inr ⟨p', List.mem_cons_of_mem _ hp', hrest⟩
          · rintro (h | ⟨p', hp', mh', hmh', hrest⟩)
            · exact Or.inl h
            · rcases List.mem_cons.mp hp' with h1 | h1
              · subst h1
                rw [ho] at hmh'
                exact absurd hmh' (by simp)
              · exact Or.inr ⟨p', h1, mh', hmh', hrest⟩

theorem collectNew_setFlagBit : ∀ (rest : List Int) (heap : List (Int × MemoryHandle))
      (p : Int) (visited nf : List Int),
    collectNew (setFlagBit heap p) visited rest nf = collectNew heap visited rest nf
  | [], _, _, _, _ => rfl
  | q :: qs, heap, p, visited, nf => by
      unfold collectNew
      rw [lookupA_setFlagBit]
      by_cases hpq : p = q
      · rw [if_pos hpq]
        cases ho : lookupA heap q with
        | none =>
            simp only [Option.map_none']
            exact collectNew_setFlagBit qs heap p visited nf
        | some mh =>
            simp only [Option.map_some']
            exact collectNew_setFlagBit qs heap p visited _
      · rw [if_neg hpq]
        cases ho : lookupA heap q with
        | none => exact collectNew_setFlagBit qs heap p visited nf
        | some mh => exact collectNew_setFlagBit qs heap p visited _

theorem markInner_none : ∀ (data : List Value) (visited nf : List Int) (i sc : Int),
    ∃ l s, markInner visited nf data i i sc none =
      (collectInner visited nf data, l, s, false)
  | [], visited, nf, i, sc => ⟨i, sc, rfl⟩
  | v :: rest, visited, nf, i, sc => by
      unfold markInner
      rw [if_neg (lt_irrefl i)]
      have hms : msExhausted none sc = false := rfl
      rw [hms]
      simp only [Bool.false_eq_true, if_false]
      obtain ⟨l, s, hrec⟩ := markInner_none rest visited
        (if v.type = ValueType.memory_handle ∧ v.data ∉ visited
         then insertS nf v.data else nf) (i + 1) (sc + 1)
      exact ⟨l, s, hrec⟩

theorem markOuter_none : ∀ (next : List Int) (heap : List (Int × MemoryHandle))
      (visited nf : List Int) (i sc : Int),
    (∀ t ∈ next, containsA heap t = true) →
    ∃ lh' sc', markOuter heap visited next nf i i 0 sc none =
      .ok ⟨markAll heap next, collectNew heap visited next nf, lh', 0, sc', false⟩
  | [], heap, visited, nf, i, sc, _ => ⟨i, sc, rfl⟩
  | p :: rest, heap, visited, nf, i, sc, hpres => by
      unfold markOuter
      rw [if_neg (lt_irrefl i)]
      obtain ⟨mh, hmh⟩ := containsA_iff.mp (hpres p (List.mem_cons_self _ _))
      rw [hmh]
      simp only []
      obtain ⟨l, s, hrec⟩ := markInner_none mh.data visited nf 0 sc
      rw [hrec]
      simp only []
      have hpres' : ∀ t ∈ rest, containsA (setFlagBit heap p) t = true := by
        intro t ht
        rw [containsA_eq_of_keys_eq (keys_setFlagBit heap p)]
        exact hpres t (List.mem_cons_of_mem _ ht)
      obtain ⟨lh', sc', hrec2⟩ := markOuter_none rest (setFlagBit heap p) visited
        (collectInner visited nf mh.data) (i + 1) s hpres'
      refine ⟨lh', sc', ?_⟩
      rw [hrec2, collectNew_setFlagBit, markAll_cons]
      have hcn : collectNew heap visited (p :: rest) nf =
          collectNew heap visited rest (collectInner visited nf mh.data) := by
        rw [collectNew_cons, hmh]
      rw [hcn]

theorem lookupA_markAll_entry {heap : List (Int × MemoryHandle)} {next : List Int}
    {q : Int} {mh' : MemoryHandle}
    (h : lookupA (markAll heap next) q = some mh') :
    ∃ mh, lookupA heap q = some mh ∧ mh'.data = mh.data ∧
      mh'.ref_count = mh.ref_count ∧ mh'.alloc_id = mh.alloc_id ∧
      (mh'.flags = mh.flags ∨ mh'.flags = setBit0 mh.flags) := by
  rw [lookupA_markAll] at h
  by_cases hq : q ∈ next
  · rw [if_pos hq] at h
    cases ho : lookupA heap q with
    | none =>
        rw [ho] at h
        exact absurd h (by simp)
    | some mh =>
        rw [ho] at h
        simp only [Option.map_some'] at h
        injection h with h
        subst h
        exact ⟨mh, rfl, rfl, rfl, rfl, Or.inr rfl⟩
  · rw [if_neg hq] at h
    exact ⟨mh', h, rfl, rfl, rfl, Or.inl rfl⟩

theorem markedIn_markAll {heap : List (Int × MemoryHandle)} {next : List Int}
    {t : Int} (h : markedIn heap t) : markedIn (markAll heap next) t := by
  obtain ⟨mh, hmh, hb⟩ := h
  rw [markedIn, lookupA_markAll]
  by_cases hq : t ∈ next
  · rw [if_pos hq, hmh]
    exact ⟨markF mh, rfl, by unfold markF; simp only []; rw [bit0_setBit0]⟩
  · rw [if_neg hq]
    exact ⟨mh, hmh, hb⟩

theorem markedIn_markAll_of_mem {heap : List (Int × MemoryHandle)} {next : List Int}
    {t : Int} (hq : t ∈ next) (hc : containsA heap t = true) :
    markedIn (markAll heap next) t := by
  obtain ⟨mh, hmh⟩ := containsA_iff.mp hc
  rw [markedIn, lookupA_markAll, if_pos hq, hmh]
  exact ⟨markF mh, rfl, by unfold markF; simp only []; rw [bit0_setBit0]⟩

theorem heapValid_markAll {heap : List (Int × MemoryHandle)} {next : List Int}
    (hn : (heap.map Prod.fst).Nodup) (hv : heapValid heap) :
    heapValid (markAll heap next) := by
  intro kv hkv v hvm ht
  have hnm : ((markAll heap next).map Prod.fst).Nodup := by
    rw [keys_markAll]
    exact hn
  have hlk : lookupA (markAll heap next) kv.1 = some kv.2 := by
    apply lookupA_of_mem_nodup _ hnm
    rcases kv with ⟨k0, mh0⟩
    exact hkv
  obtain ⟨mh, hmh, hd, -, -, -⟩ := lookupA_markAll_entry hlk
  rw [hd] at hvm
  rw [containsA_eq_of_keys_eq (keys_markAll next heap)]
  exact hv (kv.1, mh) (lookupA_mem hmh) v hvm ht

/-- What a completed full-GC mark loop guarantees: shape preservation, that
the final visited set absorbs the initial visited set and frontier, that it
coincides with the set of marked cells, and that marked cells only point at
marked cells. -/
structure MarkLoopSpec (heap heap1 : List (Int × MemoryHandle))
    (visited next visitedF : List Int) : Prop where
  keys : heap1.map Prod.fst = heap.map Prod.fst
  entries : ∀ q mh', lookupA heap1 q = some mh' → ∃ mh, lookupA heap q = some mh ∧
    mh'.data = mh.data ∧ mh'.ref_count = mh.ref_count ∧ mh'.alloc_id = mh.alloc_id ∧
    (mh'.flags = mh.flags ∨ mh'.flags = setBit0 mh.flags)
  vsub : ∀ t ∈ visited, t ∈ visitedF
  nsub : ∀ t ∈ next, t ∈ visitedF
  allMarked : ∀ t ∈ visitedF, markedIn heap1 t
  markedSub : ∀ t, markedIn heap1 t → t ∈ visitedF
  closure : ∀ t mh, lookupA heap1 t = some mh → bit0 mh.flags = 1 →
    ∀ v ∈ mh.data, v.type = ValueType.memory_handle → v.data ∈ visitedF

theorem markLoop_spec : ∀ (fuel : Nat) (heap : List (Int × MemoryHandle))
      (visited next : List Int) (heap1 : List (Int × MemoryHandle))
      (visitedF : List Int),
    markLoop fuel heap visited next = .ok (heap1, visitedF) →
    (heap.map Prod.fst).Nodup →
    (∀ t ∈ next, containsA heap t = true) →
    heapValid heap →
    (∀ t, markedIn heap t → t ∈ visited ∨ t ∈ next) →
    (∀ t ∈ visited, markedIn heap t ∨ t ∈ next) →
    (∀ t mh, lookupA heap t = some mh → bit0 mh.flags = 1 →
      ∀ v ∈ mh.data, v.type = ValueType.memory_handle →
        v.data ∈ visited ∨ v.data ∈ next) →
    MarkLoopSpec heap heap1 visited next visitedF
  | fuel, heap, visited, [], heap1, visitedF, h, hn, _, _, hM0, hM1, hM2 => by
      unfold markLoop at h
      injection h with hp
      have e1 : heap1 = heap := (congrArg Prod.fst hp).symm
      have e2 : visitedF = visited := (congrArg Prod.snd hp).symm
      subst e1
      subst e2
      constructor
      · rfl
      · intro q mh' hq
        exact ⟨mh', hq, rfl, rfl, rfl, Or.inl rfl⟩
      · intro t ht
        exact ht
      · intro t ht
        simp at ht
      · intro t ht
        rcases hM1 t ht with hm | hm
        · exact hm
        · simp at hm
      · intro t hm
        rcases hM0 t hm with hv | hv
        · exact hv
        · simp at hv
      · intro t mh hlk hb v hv hvt
        rcases hM2 t mh hlk hb v hv hvt with h1 | h1
        · exact h1
        · simp at h1
  | 0, heap, visited, n :: ns, heap1, visitedF, h, _, _, _, _, _, _ => by
      unfold markLoop at h
      exact absurd h (by simp)
  | Nat.succ f, heap, visited, n :: ns, heap1, visitedF, h, hn, hpres, hhv,
      hM0, hM1, hM2 => by
      unfold markLoop at h
      simp only [] at h
      obtain ⟨lh', sc', heq⟩ := markOuter_none (n :: ns) heap
        ((n :: ns).foldl insertS visited) [] 0 0 hpres
      rw [heq] at h
      simp only [] at h
      have hpres_rec : ∀ t ∈ collectNew heap ((n :: ns).foldl insertS visited)
          (n :: ns) [], containsA (markAll heap (n :: ns)) t = true := by
        intro t ht
        rw [mem_collectNew] at ht
        rcases ht with ht | ⟨p, hp, mh, hmh, v, hv, hvt, hvd, -⟩
        · simp at ht
        · rw [containsA_eq_of_keys_eq (keys_markAll (n :: ns) heap), ← hvd]
          exact hhv (p, mh) (lookupA_mem hmh) v hv hvt
      have hn_rec : ((markAll heap (n :: ns)).map Prod.fst).Nodup := by
        rw [keys_markAll]
        exact hn
      have hM0_rec : ∀ t, markedIn (markAll heap (n :: ns)) t →
          t ∈ (n :: ns).foldl insertS visited ∨
            t ∈ collectNew heap ((n :: ns).foldl insertS visited) (n :: ns) [] := by
        intro t hm
        obtain ⟨mh', hmh', hb⟩ := hm
        rw [lookupA_markAll] at hmh'
        by_cases hq : t ∈ n :: ns
        · exact Or.inl (mem_foldl_insertS.mpr (Or.inr hq))
        · rw [if_neg hq] at hmh'
          rcases hM0 t ⟨mh', hmh', hb⟩ with hv | hv
          · exact Or.inl (mem_foldl_insertS.mpr (Or.inl hv))
          · exact Or.inl (mem_foldl_insertS.mpr (Or.inr hv))
      have hM1_rec : ∀ t ∈ (n :: ns).foldl insertS visited,
          markedIn (markAll heap (n :: ns)) t ∨
            t ∈ collectNew heap ((n :: ns).foldl insertS visited) (n :: ns) [] := by
        intro t ht
        rcases mem_foldl_insertS.mp ht with hv | hv
        · rcases hM1 t hv with hm | hm
          · exact Or.inl (markedIn_markAll hm)
          · exact Or.inl (markedIn_markAll_of_mem hm (hpres t hm))
        · exact Or.inl (markedIn_markAll_of_mem hv (hpres t hv))
      have hM2_rec : ∀ t mh, lookupA (markAll heap (n :: ns)) t = some mh →
          bit0 mh.flags = 1 → ∀ v ∈ mh.data, v.type = ValueType.memory_handle →
            v.data ∈ (n :: ns).foldl insertS visited ∨
              v.data ∈ collectNew heap ((n :: ns).foldl insertS visited) (n :: ns) [] := by
        intro t mh hmh hb v hv hvt
        rw [lookupA_markAll] at hmh
        by_cases hq : t ∈ n :: ns
        · rw [if_pos hq] at hmh
          cases ho : lookupA heap t with
          | none =>
              rw [ho] at hmh
              exact absurd hmh (by simp)
          | some mh0 =>
              rw [ho] at hmh
              simp only [Option.map_some'] at hmh
              injection hmh with hmh
              subst hmh
              by_cases hvis : v.data ∈ (n :: ns).foldl insertS visited
              · exact Or.inl hvis
              · exact Or.inr ((mem_collectNew _ _ _ _ _).mpr
                  (Or.inr ⟨t, hq, mh0, ho, v, hv, hvt, rfl, hvis⟩))
        · rw [if_neg hq] at hmh
          rcases hM2 t mh hmh hb v hv hvt with h1 | h1
          · exact Or.inl (mem_foldl_insertS.mpr (Or.inl h1))
          · exact Or.inl (mem_foldl_insertS.mpr (Or.inr h1))
      have rec := markLoop_spec f (markAll heap (n :: ns))
        ((n :: ns).foldl insertS visited)
        (collectNew heap ((n :: ns).foldl insertS visited) (n :: ns) [])
        heap1 visitedF h hn_rec hpres_rec (heapValid_markAll hn hhv)
        hM0_rec hM1_rec hM2_rec
      constructor
      · rw [rec.keys, keys_markAll]
      · intro q mh' hq
        obtain ⟨mhb, hmhb, hd1, hrc1, hid1, hf1⟩ := rec.entries q mh' hq
        obtain ⟨mh, hmh, hd0, hrc0, hid0, hf0⟩ := lookupA_markAll_entry hmhb
        refine ⟨mh, hmh, hd1.trans hd0, hrc1.trans hrc0, hid1.trans hid0, ?_⟩
        rcases hf1 with hf1 | hf1 <;> rcases hf0 with hf0 | hf0
        · exact Or.inl (hf1.trans hf0)
        · exact Or.inr (hf1.trans hf0)
        · exact Or.inr (by rw [hf1, hf0])
        · exact Or.inr (by rw [hf1, hf0, setBit0_setBit0])
      · intro t ht
        exact rec.vsub t (mem_foldl_insertS.mpr (Or.inl ht))
      · intro t ht
        exact rec.vsub t (mem_foldl_insertS.mpr (Or.inr ht))
      · exact rec.allMarked
      · exact rec.markedSub
      · exact rec.closure

theorem sum_f_eq_of_lookup_eq : ∀ (l' l : List (Int × MemoryHandle))
      (f : MemoryHandle → Int),
    l'.map Prod.fst = l.map Prod.fst →
    ((l.map Prod.fst).Nodup) →
    (∀ q mh', lookupA l' q = some mh' →
      ∃ mh, lookupA l q = some mh ∧ f mh' = f mh) →
    (l'.map fun kv => f kv.2).sum = (l.map fun kv => f kv.2).sum
  | [], l, f, hk, _, _ => by
      cases l with
      | nil => rfl
      | cons kv r => simp at hk
  | (k, b) :: r', l, f, hk, hn, hf => by
      cases l with
      | nil => simp at hk
      | cons kv0 r =>
          obtain ⟨k0, b0⟩ := kv0
          simp only [List.map_cons, List.cons.injEq] at hk
          obtain ⟨hk0, hkr⟩ := hk
          subst hk0
          simp only [List.map_cons, List.nodup_cons] at hn
          have hb : f b = f b0 := by
            obtain ⟨mh, hmh, hfe⟩ := hf k b (by rw [lookupA_cons, if_pos rfl])
            rw [lookupA_cons, if_pos rfl] at hmh
            injection hmh with hmh
            rw [hfe, hmh]
          have hrec := sum_f_eq_of_lookup_eq r' r f hkr hn.2 ?_
          · simp only [List.map_cons, List.sum_cons]
            rw [hb, hrec]
          · intro q mh' hq
            have hqk : q ≠ k := by
              intro hqe
              subst hqe
              have : q ∈ r'.map Prod.fst :=
                List.mem_map.mpr ⟨(q, mh'), lookupA_mem hq, rfl⟩
              rw [hkr] at this
              exact hn.1 this
            have hq' : lookupA ((k, b) :: r') q = some mh' := by
              rw [lookupA_cons, if_neg (fun hh => hqk hh.symm)]
              exact hq
            obtain ⟨mh, hmh, hfe⟩ := hf q mh' hq'
            rw [lookupA_cons, if_neg (fun hh => hqk hh.symm)] at hmh
            exact ⟨mh, hmh, hfe⟩

theorem not_mem_sweep_of_marked {heap1 : List (Int × MemoryHandle)}
    (hA : ∀ kv ∈ heap1, kv.2.alloc_id = kv.1)
    (hn : (heap1.map Prod.fst).Nodup) {t : Int}
    (hm : markedIn heap1 t) : t ∉ sweepGarbage heap1 := by
  intro hg
  obtain ⟨kvg, hkvg, hb0, hid⟩ := mem_sweepGarbage.mp hg
  obtain ⟨mhm, hmm, hb1⟩ := hm
  have hk : kvg.1 = t := (hA kvg hkvg).symm.trans hid
  have hlk : lookupA heap1 kvg.1 = some kvg.2 := by
    apply lookupA_of_mem_nodup _ hn
    rcases kvg with ⟨kg, bg⟩
    exact hkvg
  rw [hk, hmm] at hlk
  injection hlk with hlk
  rw [hlk] at hb1
  rw [hb1] at hb0
  exact absurd hb0 (by norm_num)

theorem WF_majorGCFull {ctx : Context} {c' : Context}
    (hW : WF ctx) (h : majorGCFull ctx = (.ok (), c')) : WF c' := by
  unfold majorGCFull at h
  simp only [] at h
  split at h
  next e hml => exact absurd (congrArg Prod.fst h) (by simp)
  next heap1 visited1 hml =>
  split at h
  case h_2 e ctx2 hrel => exact absurd (congrArg Prod.fst h) (by simp)
  case h_1 u ctx2 hrel =>
  have hc' : c' = ctx2 := (congrArg Prod.snd h).symm
  subst hc'
  -- shorthands
  set heap0 := clearMarkFlags ctx.m_mem_handles with hh0
  -- preconditions of the mark loop
  have hn0 : (heap0.map Prod.fst).Nodup := by
    rw [hh0, keys_clearMarkFlags]
    exact hW.heapNodup
  have hkeys0 : heap0.map Prod.fst = ctx.m_mem_handles.map Prod.fst := by
    rw [hh0, keys_clearMarkFlags]
  have hpres0 : ∀ t ∈ seedFrontier ctx.m_data [], containsA heap0 t = true := by
    intro t ht
    rcases (mem_seedFrontier ctx.m_data [] t).mp ht with h1 | ⟨kv, hkv, hht, hhd⟩
    · simp at h1
    · rw [containsA_eq_of_keys_eq hkeys0, ← hhd]
      exact hW.varsValid kv hkv hht
  have hlk0 : ∀ q, lookupA heap0 q =
      (lookupA ctx.m_mem_handles q).map
        fun mh => { mh with flags := clearBit0 mh.flags } := by
    intro q
    rw [hh0]
    exact lookupA_clearMarkFlags _ q
  have hhv0 : heapValid heap0 := by
    intro kv hkv v hv ht
    have hlk : lookupA heap0 kv.1 = some kv.2 := by
      apply lookupA_of_mem_nodup _ hn0
      rcases kv with ⟨k0, mh0⟩
      exact hkv
    rw [hlk0 kv.1] at hlk
    cases ho : lookupA ctx.m_mem_handles kv.1 with
    | none =>
        rw [ho] at hlk
        exact absurd hlk (by simp)
    | some mh =>
        rw [ho] at hlk
        simp only [Option.map_some'] at hlk
        injection hlk with hlk
        have hd : kv.2.data = mh.data := by rw [← hlk]
        rw [hd] at hv
        rw [containsA_eq_of_keys_eq hkeys0]
        exact hW.cellsValid (kv.1, mh) (lookupA_mem ho) v hv ht
  have hnomark : ∀ t, ¬ markedIn heap0 t := by
    intro t hm
    obtain ⟨mh', hm', hb⟩ := hm
    rw [hlk0 t] at hm'
    cases ho : lookupA ctx.m_mem_handles t with
    | none =>
        rw [ho] at hm'
        exact absurd hm' (by simp)
    | some mh =>
        rw [ho] at hm'
        simp only [Option.map_some'] at hm'
        injection hm' with hm'
        rw [← hm'] at hb
        simp only at hb
        rw [bit0_clearBit0] at hb
        exact absurd hb (by norm_num)
  have spec := markLoop_spec (heap0.length + 1) heap0 [] (seedFrontier ctx.m_data [])
    heap1 visited1 hml hn0 hpres0 hhv0
    (fun t hm => absurd hm (hnomark t))
    (fun t ht => absurd ht (by simp))
    (fun t mh hlk hb v hv hvt => absurd ⟨mh, hlk, hb⟩ (hnomark t))
  -- entry chain down to the original heap
  have hchain : ∀ q mh', lookupA heap1 q = some mh' →
      ∃ mh, lookupA ctx.m_mem_handles q = some mh ∧
        mh'.data = mh.data ∧ mh'.ref_count = mh.ref_count ∧
        mh'.alloc_id = mh.alloc_id ∧
        (mh'.flags = clearBit0 mh.flags ∨ mh'.flags = setBit0 (clearBit0 mh.flags)) := by
    intro q mh' hq
    obtain ⟨mhc, hmhc, hd1, hrc1, hid1, hf1⟩ := spec.entries q mh' hq
    rw [hlk0 q] at hmhc
    cases ho : lookupA ctx.m_mem_handles q with
    | none =>
        rw [ho] at hmhc
        exact absurd hmhc (by simp)
    | some mh =>
        rw [ho] at hmhc
        simp only [Option.map_some'] at hmhc
        injection hmhc with hmhc
        refine ⟨mh, rfl, ?_, ?_, ?_, ?_⟩
        · rw [hd1, ← hmhc]
        · rw [hrc1, ← hmhc]
        · rw [hid1, ← hmhc]
        · rcases hf1 with hf1 | hf1
          · exact Or.inl (by rw [hf1, ← hmhc])
          · exact Or.inr (by rw [hf1, ← hmhc])
  have hkeys1 : heap1.map Prod.fst = ctx.m_mem_handles.map Prod.fst :=
    spec.keys.trans hkeys0
  have hn1 : (heap1.map Prod.fst).Nodup := by
    rw [hkeys1]
    exact hW.heapNodup
  have hA1 : ∀ kv ∈ heap1, kv.2.alloc_id = kv.1 := by
    intro kv hkv
    have hlk : lookupA heap1 kv.1 = some kv.2 := by
      apply lookupA_of_mem_nodup _ hn1
      rcases kv with ⟨k0, mh0⟩
      exact hkv
    obtain ⟨mh, hmh, -, -, hid, -⟩ := hchain kv.1 kv.2 hlk
    rw [hid]
    exact hW.allocId (kv.1, mh) (lookupA_mem hmh)
  have hflags1 : ∀ kv ∈ heap1, kv.2.flags = 0 ∨ kv.2.flags = 1 := by
    intro kv hkv
    have hlk : lookupA heap1 kv.1 = some kv.2 := by
      apply lookupA_of_mem_nodup _ hn1
      rcases kv with ⟨k0, mh0⟩
      exact hkv
    obtain ⟨mh, hmh, -, -, -, hf⟩ := hchain kv.1 kv.2 hlk
    have h01 := hW.flagsOK (kv.1, mh) (lookupA_mem hmh)
    simp only at h01
    unfold clearBit0 setBit0 at hf
    rcases h01 with h01 | h01 <;> rw [h01] at hf <;> rcases hf with hf | hf <;>
      rw [hf] <;> norm_num
  -- well-formedness of the pre-release context
  have hWM : WF { ctx with
      m_magc_next_mem_handles := [],
      m_magc_visited_mem_handles := visited1,
      m_magc_new_mem_handles := [],
      m_mem_handles := heap1 } := by
    constructor
    · exact hW.dataNodup
    · exact hn1
    · exact hA1
    · intro kv hkv
      have hlk : lookupA heap1 kv.1 = some kv.2 := by
        apply lookupA_of_mem_nodup _ hn1
        rcases kv with ⟨k0, mh0⟩
        exact hkv
      obtain ⟨mh, hmh, -⟩ := hchain kv.1 kv.2 hlk
      exact hW.counterBound (kv.1, mh) (lookupA_mem hmh)
    · exact hflags1
    · intro kv hkv ht
      rw [containsA_eq_of_keys_eq hkeys1]
      exact hW.varsValid kv hkv ht
    · intro kv hkv v hv ht
      have hlk : lookupA heap1 kv.1 = some kv.2 := by
        apply lookupA_of_mem_nodup _ hn1
        rcases kv with ⟨k0, mh0⟩
        exact hkv
      obtain ⟨mh, hmh, hd, -⟩ := hchain kv.1 kv.2 hlk
      rw [hd] at hv
      rw [containsA_eq_of_keys_eq hkeys1]
      exact hW.cellsValid (kv.1, mh) (lookupA_mem hmh) v hv ht
    · rw [I1holds_iff_at hn1]
      intro t mh' hmh'
      obtain ⟨mh, hmh, -, hrc, -, -⟩ := hchain t mh' hmh'
      have hI := (I1holds_iff_at hW.heapNodup).mp hW.refcounts t mh hmh
      have hcnt : countRefs { ctx with
          m_magc_next_mem_handles := [],
          m_magc_visited_mem_handles := visited1,
          m_magc_new_mem_handles := [],
          m_mem_handles := heap1 } t = countRefs ctx t := by
        unfold countRefs
        simp only []
        congr 1
        apply sum_f_eq_of_lookup_eq heap1 ctx.m_mem_handles
          (fun mh => countVal mh.data t) hkeys1 hW.heapNodup
        intro q mh2 hq
        obtain ⟨mh3, hmh3, hd3, -⟩ := hchain q mh2 hq
        exact ⟨mh3, hmh3, by rw [hd3]⟩
      rw [hcnt, hrc, hI]
    · exact hW.stateZero
    · exact hW.lhZero
    · exact hW.lheZero
  -- nothing outside the sweep list references it
  have hmarked_not_g : ∀ t, t ∈ visited1 → t ∉ sweepGarbage heap1 := by
    intro t ht
    exact not_mem_sweep_of_marked hA1 hn1 (spec.allMarked t ht)
  have hvarsG : ∀ kv ∈ ctx.m_data, kv.2.type = ValueType.memory_handle →
      kv.2.data ∉ sweepGarbage heap1 := by
    intro kv hkv ht
    apply hmarked_not_g
    apply spec.nsub
    exact (mem_seedFrontier ctx.m_data [] kv.2.data).mpr
      (Or.inr ⟨kv, hkv, ht, rfl⟩)
  have hcellsG : ∀ kv ∈ heap1, kv.1 ∉ sweepGarbage heap1 → ∀ v ∈ kv.2.data,
      v.type = ValueType.memory_handle → v.data ∉ sweepGarbage heap1 := by
    intro kv hkv hkG v hv ht
    have hlk : lookupA heap1 kv.1 = some kv.2 := by
      apply lookupA_of_mem_nodup _ hn1
      rcases kv with ⟨k0, mh0⟩
      exact hkv
    have hb1 : bit0 kv.2.flags = 1 := by
      rcases hflags1 kv hkv with h01 | h01
      · exfalso
        apply hkG
        exact mem_sweepGarbage.mpr ⟨kv, hkv, by rw [h01]; rfl, hA1 kv hkv⟩
      · rw [h01]
        rfl
    apply hmarked_not_g
    exact spec.closure kv.1 kv.2 hlk hb1 v hv ht
  exact releaseGarbage_WF hWM hvarsG hcellsG hrel

/-- Every operation of the `Op` alphabet preserves well-formedness when it
returns normally. -/
theorem WF_applyOp {ctx : Context} {op : Op} {c : Context}
    (hW : WF ctx) (h : applyOp ctx op = .ok c) : WF c := by
  cases op with
  | alloc n =>
      simp only [applyOp] at h
      split at h
      next v c0 hm =>
        injection h with h
        subst h
        exact WF_alloc hW hm
      next e c0 hm => exact absurd h (by simp)
  | read a i =>
      simp only [applyOp] at h
      split at h
      next r c0 hm =>
        injection h with h
        subst h
        exact WF_read hW hm
      next e c0 hm => exact absurd h (by simp)
  | write a i v =>
      simp only [applyOp] at h
      split at h
      next u c0 hm =>
        injection h with h
        subst h
        exact WF_write hW hm
      next e c0 hm => exact absurd h (by simp)
  | push a v =>
      simp only [applyOp] at h
      split at h
      next u c0 hm =>
        injection h with h
        subst h
        exact WF_push hW hm
      next e c0 hm => exact absurd h (by simp)
  | pop a =>
      simp only [applyOp] at h
      split at h
      next r c0 hm =>
        injection h with h
        subst h
        exact WF_pop hW hm
      next e c0 hm => exact absurd h (by simp)
  | assign x v =>
      simp only [applyOp] at h
      split at h
      next u c0 hm =>
        injection h with h
        subst h
        exact WF_assign hW hm
      next e c0 hm => exact absurd h (by simp)
  | erase x =>
      simp only [applyOp] at h
      split at h
      next u c0 hm =>
        injection h with h
        subst h
        exact WF_erase hW hm
      next e c0 hm => exact absurd h (by simp)
  | minorGC =>
      simp only [applyOp] at h
      split at h
      next u c0 hm =>
        injection h with h
        subst h
        exact WF_minorGC hW hm
      next e c0 hm => exact absurd h (by simp)
  | majorGCFull =>
      simp only [applyOp] at h
      split at h
      next u c0 hm =>
        injection h with h
        subst h
        unfold majorGC at hm
        rw [if_pos rfl] at hm
        exact WF_majorGCFull hW hm
      next e c0 hm => exact absurd h (by simp)

/-- Well-formedness is preserved along any normally-returning run. -/
theorem WF_runOps : ∀ (ops : List Op) (ctx c : Context),
    WF ctx → runOps ctx ops = .ok c → WF c
  | [], ctx, c, hW, h => by
      unfold runOps at h
      injection h with h
      subst h
      exact hW
  | op :: rest, ctx, c, hW, h => by
      unfold runOps at h
      split at h
      next e hm => exact absurd h (by simp)
      next c1 hm => exact WF_runOps rest c1 c (WF_applyOp hW hm) h

/-- The operation list and resulting context used to witness claim C1. -/
def c1WitnessOps : List Op :=
  [.alloc 2, .assign 1 (handleV 1), .push (handleV 1) (handleV 1),
   .write (handleV 1) 0 (handleV 1), .pop (handleV 1), .erase 1, .minorGC,
   .majorGCFull]

/-- The context reached by `c1WitnessOps` (the run returns normally). -/
def c1WitnessCtx : Context :=
  match runOps Context.init c1WitnessOps with
  | .ok c => c
  | .error _ => Context.init

/-- C1: every operation of the context (alloc, read, write, push, pop,
assign, erase, minor_gc, major_gc run to completion) that returns normally
reestablishes invariant I1 at return: each live cell's `ref_count` equals
the number of HANDLE-tagged Values carrying its identifier across all
variable-table entries and all data slots of all live cells.  Proved for
every operation sequence from the initial context, by showing each
operation preserves the well-formedness invariant `WF` (which contains
I1). -/
theorem C1_ops_reestablish_I1 (ops : List Op) (ctx : Context)
    (h : runOps Context.init ops = .ok ctx) : I1holds ctx :=
  (WF_runOps ops Context.init ctx WF_init h).refcounts

/-- Witness for C1: a concrete run exercising every operation kind returns
normally and its final context satisfies I1. -/
theorem C1_ops_reestablish_I1_witness : I1holds c1WitnessCtx :=
  C1_ops_reestablish_I1 c1WitnessOps c1WitnessCtx (by decide)

/-- Survivors of a successful release keep their flags and were not listed
(for present identifiers) in the garbage list. -/
theorem releaseGarbage_entries {ctx : Context} {G : List Int} {c' : Context}
    (hhv : heapValid ctx.m_mem_handles)
    (hA : ∀ kv ∈ ctx.m_mem_handles, kv.2.alloc_id = kv.1)
    (hn : (ctx.m_mem_handles.map Prod.fst).Nodup)
    (h : releaseGarbage ctx G = (.ok (), c')) :
    ∀ kv ∈ c'.m_mem_handles, ∃ b, (kv.1, b) ∈ ctx.m_mem_handles ∧
      kv.2.flags = b.flags ∧ kv.1 ∉ G := by
  unfold releaseGarbage at h
  simp only [] at h
  split at h
  case h_2 e ctx1 hdec => exact absurd (congrArg Prod.fst h) (by simp)
  case h_1 u ctx1 hdec =>
  have hsh := RcShift_decouplePass _ ctx ctx1 hhv hdec
  obtain ⟨hd1, hk1, hmd1, hmem1, hrc1, hcnt1, hst1, hlh1, hlhe1⟩ := hsh
  have hA1 : ∀ kv ∈ ctx1.m_mem_handles, kv.2.alloc_id = kv.1 := by
    intro kv hkv
    obtain ⟨b, hb, hi, -, -⟩ := hmem1 kv hkv
    rw [hi]
    exact hA _ hb
  have hn1 : (ctx1.m_mem_handles.map Prod.fst).Nodup := by
    rw [hk1]
    exact hn
  obtain ⟨hsub, hlk, -, -, -, -, -, -, -⟩ := destroyPass_ok _ ctx1 c' hA1 hn1 h
  have hn' : (c'.m_mem_handles.map Prod.fst).Nodup :=
    List.Nodup.sublist (hsub.map Prod.fst) hn1
  intro kv hkv
  obtain ⟨b, hb, -, hf, -⟩ := hmem1 kv (hsub.subset hkv)
  have hklk : lookupA c'.m_mem_handles kv.1 = some kv.2 := by
    apply lookupA_of_mem_nodup _ hn'
    rcases kv with ⟨k0, mh0⟩
    exact hkv
  have hnotvalid : kv.1 ∉ G.filter fun ga => containsA ctx.m_mem_handles ga := by
    intro hm
    rw [hlk kv.1, if_pos hm] at hklk
    exact absurd hklk (by simp)
  refine ⟨b, hb, hf, ?_⟩
  intro hmG
  apply hnotvalid
  exact List.mem_filter.mpr
    ⟨hmG, containsA_iff_mem.mpr (List.mem_map.mpr ⟨(kv.1, b), hb, rfl⟩)⟩

/-- The C4 amended-claim witness scenario: one rooted cell, before its
sentinel major GC. -/
def c4aOps : List Op := [.alloc 0, .assign 1 (handleV 1)]

/-- The context after `c4aOps`. -/
def c4aCtx : Context :=
  match runOps Context.init c4aOps with
  | .ok c => c
  | .error _ => Context.init

/-- C4, amended: after `major_gc()` invoked with `max_steps = -1` returns on
a context reached by any operation sequence, every cell remaining in the
heap store has bit 0 of its flags field SET (equal to 1): survivors are
exactly the marked cells, and the mark bit is only cleared by the next
cycle's Reset phase, so I4 as stated (bit 0 clear after a completed major
GC) does not hold; the boundary state instead has every survivor marked. -/
theorem C4_amended_survivors_marked (ops : List Op) (ctx c' : Context)
    (hr : runOps Context.init ops = .ok ctx)
    (h : majorGC ctx (-1) = (.ok (), c')) :
    ∀ kv ∈ c'.m_mem_handles, kv.2.flags = 1 := by
  have hW := WF_runOps ops Context.init ctx WF_init hr
  unfold majorGC at h
  rw [if_pos rfl] at h
  unfold majorGCFull at h
  simp only [] at h
  split at h
  next e hml => exact absurd (congrArg Prod.fst h) (by simp)
  next heap1 visited1 hml =>
  split at h
  case h_2 e ctx2 hrel => exact absurd (congrArg Prod.fst h) (by simp)
  case h_1 u ctx2 hrel =>
  have hc' : c' = ctx2 := (congrArg Prod.snd h).symm
  subst hc'
  set heap0 := clearMarkFlags ctx.m_mem_handles with hh0
  have hn0 : (heap0.map Prod.fst).Nodup := by
    rw [hh0, keys_clearMarkFlags]
    exact hW.heapNodup
  have hkeys0 : heap0.map Prod.fst = ctx.m_mem_handles.map Prod.fst := by
    rw [hh0, keys_clearMarkFlags]
  have hpres0 : ∀ t ∈ seedFrontier ctx.m_data [], containsA heap0 t = true := by
    intro t ht
    rcases (mem_seedFrontier ctx.m_data [] t).mp ht with h1 | ⟨kv, hkv, hht, hhd⟩
    · simp at h1
    · rw [containsA_eq_of_keys_eq hkeys0, ← hhd]
      exact hW.varsValid kv hkv hht
  have hlk0 : ∀ q, lookupA heap0 q =
      (lookupA ctx.m_mem_handles q).map
        fun mh => { mh with flags := clearBit0 mh.flags } := by
    intro q
    rw [hh0]
    exact lookupA_clearMarkFlags _ q
  have hhv0 : heapValid heap0 := by
    intro kv hkv v hv ht
    have hlk : lookupA heap0 kv.1 = some kv.2 := by
      apply lookupA_of_mem_nodup _ hn0
      rcases kv with ⟨k0, mh0⟩
      exact hkv
    rw [hlk0 kv.1] at hlk
    cases ho : lookupA ctx.m_mem_handles kv.1 with
    | none =>
        rw [ho] at hlk
        exact absurd hlk (by simp)
    | some mh =>
        rw [ho] at hlk
        simp only [Option.map_some'] at hlk
        injection hlk with hlk
        have hd : kv.2.data = mh.data := by rw [← hlk]
        rw [hd] at hv
        rw [containsA_eq_of_keys_eq hkeys0]
        exact hW.cellsValid (kv.1, mh) (lookupA_mem ho) v hv ht
  have hnomark : ∀ t, ¬ markedIn heap0 t := by
    intro t hm
    obtain ⟨mh', hm', hb⟩ := hm
    rw [hlk0 t] at hm'
    cases ho : lookupA ctx.m_mem_handles t with
    | none =>
        rw [ho] at hm'
        exact absurd hm' (by simp)
    | some mh =>
        rw [ho] at hm'
        simp only [Option.map_some'] at hm'
        injection hm' with hm'
        rw [← hm'] at hb
        simp only at hb
        rw [bit0_clearBit0] at hb
        exact absurd hb (by norm_num)
  have spec := markLoop_spec (heap0.length + 1) heap0 [] (seedFrontier ctx.m_data [])
    heap1 visited1 hml hn0 hpres0 hhv0
    (fun t hm => absurd hm (hnomark t))
    (fun t ht => absurd ht (by simp))
    (fun t mh hlk hb v hv hvt => absurd ⟨mh, hlk, hb⟩ (hnomark t))
  have hchain : ∀ q mh', lookupA heap1 q = some mh' →
      ∃ mh, lookupA ctx.m_mem_handles q = some mh ∧
        mh'.data = mh.data ∧
        (mh'.flags = clearBit0 mh.flags ∨ mh'.flags = setBit0 (clearBit0 mh.flags)) := by
    intro q mh' hq
    obtain ⟨mhc, hmhc, hd1, -, -, hf1⟩ := spec.entries q mh' hq
    rw [hlk0 q] at hmhc
    cases ho : lookupA ctx.m_mem_handles q with
    | none =>
        rw [ho] at hmhc
        exact absurd hmhc (by simp)
    | some mh =>
        rw [ho] at hmhc
        simp only [Option.map_some'] at hmhc
        injection hmhc with hmhc
        refine ⟨mh, rfl, by rw [hd1, ← hmhc], ?_⟩
        rcases hf1 with hf1 | hf1
        · exact Or.inl (by rw [hf1, ← hmhc])
        · exact Or.inr (by rw [hf1, ← hmhc])
  have hkeys1 : heap1.map Prod.fst = ctx.m_mem_handles.map Prod.fst :=
    spec.keys.trans hkeys0
  have hn1 : (heap1.map Prod.fst).Nodup := by
    rw [hkeys1]
    exact hW.heapNodup
  have hA1 : ∀ kv ∈ heap1, kv.2.alloc_id = kv.1 := by
    intro kv hkv
    have hlk : lookupA heap1 kv.1 = some kv.2 := by
      apply lookupA_of_mem_nodup _ hn1
      rcases kv with ⟨k0, mh0⟩
      exact hkv
    obtain ⟨mh, hmh, -, -⟩ := hchain kv.1 kv.2 hlk
    have := spec.entries kv.1 kv.2 hlk
    obtain ⟨mhc, hmhc, -, -, hid, -⟩ := this
    rw [hid]
    rw [hlk0 kv.1, hmh] at hmhc
    simp only [Option.map_some'] at hmhc
    injection hmhc with hmhc
    rw [← hmhc]
    simp only
    exact hW.allocId (kv.1, mh) (lookupA_mem hmh)
  have hflags1 : ∀ kv ∈ heap1, kv.2.flags = 0 ∨ kv.2.flags = 1 := by
    intro kv hkv
    have hlk : lookupA heap1 kv.1 = some kv.2 := by
      apply lookupA_of_mem_nodup _ hn1
      rcases kv with ⟨k0, mh0⟩
      exact hkv
    obtain ⟨mh, hmh, -, hf⟩ := hchain kv.1 kv.2 hlk
    have h01 := hW.flagsOK (kv.1, mh) (lookupA_mem hmh)
    simp only at h01
    unfold clearBit0 setBit0 at hf
    rcases h01 with h01 | h01 <;> rw [h01] at hf <;> rcases hf with hf | hf <;>
      rw [hf] <;> norm_num
  have hhv1 : heapValid heap1 := by
    intro kv hkv v hv ht
    have hlk : lookupA heap1 kv.1 = some kv.2 := by
      apply lookupA_of_mem_nodup _ hn1
      rcases kv with ⟨k0, mh0⟩
      exact hkv
    obtain ⟨mh, hmh, hd, -⟩ := hchain kv.1 kv.2 hlk
    rw [hd] at hv
    rw [containsA_eq_of_keys_eq hkeys1]
    exact hW.cellsValid (kv.1, mh) (lookupA_mem hmh) v hv ht
  intro kv hkv
  obtain ⟨b, hb, hf, hG⟩ := releaseGarbage_entries hhv1 hA1 hn1 hrel kv hkv
  have hb01 := hflags1 (kv.1, b) hb
  simp only at hb01
  rcases hb01 with h0 | h1
  · exfalso
    apply hG
    refine mem_sweepGarbage.mpr ⟨(kv.1, b), hb, ?_, hA1 (kv.1, b) hb⟩
    simp only
    rw [h0]
    rfl
  · rw [hf, h1]

/-- Witness for the amended C4: on the concrete scenario
`h=alloc(0); assign(1,h)`, the sentinel major GC returns normally and the
surviving cell 1 carries flags = 1. -/
theorem C4_amended_survivors_marked_witness :
    (lookupA (majorGC c4aCtx (-1)).2.m_mem_handles 1).map MemoryHandle.flags =
      some 1 := by
  have h := C4_amended_survivors_marked c4aOps c4aCtx (majorGC c4aCtx (-1)).2
    (by decide) (by decide)
  cases hl : lookupA (majorGC c4aCtx (-1)).2.m_mem_handles 1 with
  | none => exact absurd hl (by decide)
  | some mh =>
      have hflag := h (1, mh) (lookupA_mem hl)
      simp only [Option.map_some']
      rw [hflag]

/-- The C8 amended-claim witness scenario: one allocated cell. -/
def c8aOps : List Op := [.alloc 1]

/-- The context after `c8aOps`. -/
def c8aCtx : Context :=
  match runOps Context.init c8aOps with
  | .ok c => c
  | .error _ => Context.init

/-- C8, amended: `assign(var, v)` does have an error kind — it raises
InvalidHandle exactly when `v` is HANDLE-tagged with an identifier absent
from the heap store (the incref's validation).  In every other case it
returns normally, storing `v` in the variable slot, incrementing `v`'s
ref_count if it is a handle and decrementing the old slot's if it held one
(the decrement is skipped when the variable was undefined, via the
value-initialized `INT(0)` slot). -/
theorem C8_amended_assign_spec (ops : List Op) (ctx : Context)
    (hr : runOps Context.init ops = .ok ctx) (id : Int) (v : Value) :
    (v.type = ValueType.memory_handle →
      containsA ctx.m_mem_handles v.data = false →
      (assign ctx id v).1 = .error .invalidMemHandle) ∧
    ((v.type = ValueType.memory_handle →
        containsA ctx.m_mem_handles v.data = true) →
      ∃ c', assign ctx id v = (.ok (), c') ∧
        lookupA c'.m_data id = some v ∧
        ∀ t mh', lookupA c'.m_mem_handles t = some mh' →
          ∃ mh, lookupA ctx.m_mem_handles t = some mh ∧
            mh'.ref_count = mh.ref_count +
              (if v.type = ValueType.memory_handle ∧ v.data = t then 1 else 0) +
              (if ((lookupA ctx.m_data id).getD
                      (⟨0, ValueType.integer⟩ : Value)).type =
                    ValueType.memory_handle ∧
                  ((lookupA ctx.m_data id).getD
                      (⟨0, ValueType.integer⟩ : Value)).data = t
               then -1 else 0)) := by
  have hW := WF_runOps ops Context.init ctx WF_init hr
  set old := (lookupA ctx.m_data id).getD (⟨0, ValueType.integer⟩ : Value) with holddef
  have hcur : (lookupA (emplaceA ctx.m_data id
      (⟨0, ValueType.integer⟩ : Value)) id).getD
      (⟨0, ValueType.integer⟩ : Value) = old := by
    rw [lookupA_emplaceA_self, Option.getD_some, holddef]
  have hold_valid : old.type = ValueType.memory_handle →
      containsA ctx.m_mem_handles old.data = true := by
    intro hot
    cases ho : lookupA ctx.m_data id with
    | none =>
        rw [ho] at holddef
        rw [holddef] at hot
        simp at hot
    | some w =>
        rw [ho, Option.getD_some] at holddef
        rw [holddef] at hot ⊢
        exact hW.varsValid (id, w) (lookupA_mem ho) hot
  have hm1 : (if old.type = ValueType.memory_handle
      then decref { ctx with
          m_data := emplaceA ctx.m_data id ⟨0, ValueType.integer⟩ } old
      else .ok { ctx with
          m_data := emplaceA ctx.m_data id ⟨0, ValueType.integer⟩ }) =
      .ok (if old.type = ValueType.memory_handle
           then decrefPresent { ctx with
               m_data := emplaceA ctx.m_data id ⟨0, ValueType.integer⟩ } old.data
           else { ctx with
               m_data := emplaceA ctx.m_data id ⟨0, ValueType.integer⟩ }) := by
    by_cases hot : old.type = ValueType.memory_handle
    · rw [if_pos hot, if_pos hot]
      unfold decref
      rw [if_pos (show validMemHandle { ctx with
          m_data := emplaceA ctx.m_data id ⟨0, ValueType.integer⟩ } old = true from
        validMemHandle_iff.mpr ⟨hot, hold_valid hot⟩)]
    · rw [if_neg hot, if_neg hot]
  set ctx1 := (if old.type = ValueType.memory_handle
      then decrefPresent { ctx with
          m_data := emplaceA ctx.m_data id ⟨0, ValueType.integer⟩ } old.data
      else { ctx with
          m_data := emplaceA ctx.m_data id ⟨0, ValueType.integer⟩ }) with hctx1
  obtain ⟨hd1, hk1, hmd1, hmem1, hrc1, hcnt1, hst1, hlh1, hlhe1⟩ := decref_if_step hm1
  have hcont1 : ∀ t, containsA ctx1.m_mem_handles t =
      containsA ctx.m_mem_handles t := fun t => containsA_eq_of_keys_eq hk1 t
  constructor
  · intro hvt hvc
    have hnv : ¬ (validMemHandle ctx1 v = true) := by
      rw [validMemHandle_iff]
      rintro ⟨-, hc⟩
      rw [hcont1] at hc
      rw [hvc] at hc
      exact absurd hc (by simp)
    unfold assign
    simp only []
    rw [hcur, hm1]
    simp only []
    rw [if_pos hvt]
    unfold incref
    rw [if_neg hnv]
  · intro hv
    have hvalid2 : v.type = ValueType.memory_handle →
        validMemHandle ctx1 v = true := by
      intro hvt
      rw [validMemHandle_iff]
      exact ⟨hvt, by rw [hcont1]; exact hv hvt⟩
    have hm2 : (if v.type = ValueType.memory_handle then incref ctx1 v
        else .ok ctx1) =
        .ok (if v.type = ValueType.memory_handle
             then { ctx1 with m_mem_handles := (modifyA ctx1.m_mem_handles v.data
                      fun mh => { mh with ref_count := mh.ref_count + 1 }) }
             else ctx1) := by
      by_cases hvt : v.type = ValueType.memory_handle
      · rw [if_pos hvt, if_pos hvt]
        unfold incref
        rw [if_pos (hvalid2 hvt)]
      · rw [if_neg hvt, if_neg hvt]
    set ctx2 := (if v.type = ValueType.memory_handle
        then { ctx1 with m_mem_handles := (modifyA ctx1.m_mem_handles v.data
                 fun mh => { mh with ref_count := mh.ref_count + 1 }) }
        else ctx1) with hctx2
    obtain ⟨hd2, hk2, hmd2, hmem2, hrc2, hcnt2, hst2, hlh2, hlhe2, -⟩ :=
      incref_if_step hm2
    have hassign : assign ctx id v =
        (.ok (), { ctx2 with m_data := upsertA ctx2.m_data id v }) := by
      unfold assign
      simp only []
      rw [hcur, hm1]
      simp only []
      rw [hm2]
    refine ⟨{ ctx2 with m_data := upsertA ctx2.m_data id v }, hassign, ?_, ?_⟩
    · rw [show ({ ctx2 with m_data := upsertA ctx2.m_data id v } :
          Context).m_data = upsertA ctx2.m_data id v from rfl,
        lookupA_upsertA, if_pos rfl]
    · intro t mh' hmh'
      replace hmh' : lookupA ctx2.m_mem_handles t = some mh' := hmh'
      obtain ⟨mhb, hmhb, hrcb, -⟩ := hrc2 t mh' hmh'
      obtain ⟨mh0, hmh0, hrc0, -⟩ := hrc1 t mhb hmhb
      refine ⟨mh0, hmh0, ?_⟩
      rw [hrcb, hrc0]
      ring

/-- Witness for the amended C8: on the context with one allocated cell,
assigning its handle to a variable exercises both branches of the amended
specification. -/
theorem C8_amended_assign_spec_witness :
    ((handleV 1).type = ValueType.memory_handle →
      containsA c8aCtx.m_mem_handles (handleV 1).data = false →
      (assign c8aCtx 1 (handleV 1)).1 = .error .invalidMemHandle) ∧
    (((handleV 1).type = ValueType.memory_handle →
        containsA c8aCtx.m_mem_handles (handleV 1).data = true) →
      ∃ c', assign c8aCtx 1 (handleV 1) = (.ok (), c') ∧
        lookupA c'.m_data 1 = some (handleV 1) ∧
        ∀ t mh', lookupA c'.m_mem_handles t = some mh' →
          ∃ mh, lookupA c8aCtx.m_mem_handles t = some mh ∧
            mh'.ref_count = mh.ref_count +
              (if (handleV 1).type = ValueType.memory_handle ∧
                  (handleV 1).data = t then 1 else 0) +
              (if ((lookupA c8aCtx.m_data 1).getD
                      (⟨0, ValueType.integer⟩ : Value)).type =
                    ValueType.memory_handle ∧
                  ((lookupA c8aCtx.m_data 1).getD
                      (⟨0, ValueType.integer⟩ : Value)).data = t
               then -1 else 0)) :=
  C8_amended_assign_spec c8aOps c8aCtx (by decide) 1 (handleV 1)

theorem decouple_fold_counter : ∀ (d : List Value) (c : Context),
    (d.foldl (fun c v =>
      if v.type = ValueType.memory_handle ∧ containsA c.m_mem_handles v.data = true
      then decrefPresent c v.data
      else c) c).m_alloc_counter = c.m_alloc_counter
  | [], c => rfl
  | v :: rest, c => by
      rw [List.foldl_cons, decouple_fold_counter rest _]
      by_cases h : v.type = ValueType.memory_handle ∧
          containsA c.m_mem_handles v.data = true
      · rw [if_pos h]
        exact (decrefPresent_frame c v.data).1
      · rw [if_neg h]

theorem decoupleMemHandle_counter (c : Context) (mh : MemoryHandle) :
    (decoupleMemHandle c mh).m_alloc_counter = c.m_alloc_counter :=
  decouple_fold_counter mh.data c

theorem decouplePass_counter : ∀ (l : List Int) (c : Context) (r : Except RtError Unit)
      (c1 : Context), decouplePass c l = (r, c1) →
    c1.m_alloc_counter = c.m_alloc_counter
  | [], c, r, c1, h => by
      unfold decouplePass at h
      injection h with hfst hsnd
      rw [← hsnd]
  | g :: rest, c, r, c1, h => by
      unfold decouplePass at h
      split at h
      next hnone =>
        injection h with hfst hsnd
        rw [← hsnd]
      next mh hmh =>
        rw [decouplePass_counter rest _ r c1 h, decoupleMemHandle_counter]

theorem destroyPass_counter : ∀ (l : List Int) (c : Context) (r : Except RtError Unit)
      (c1 : Context), destroyPass c l = (r, c1) →
    c1.m_alloc_counter = c.m_alloc_counter
  | [], c, r, c1, h => by
      unfold destroyPass at h
      injection h with hfst hsnd
      rw [← hsnd]
  | g :: rest, c, r, c1, h => by
      unfold destroyPass at h
      split at h
      next hnone =>
        injection h with hfst hsnd
        rw [← hsnd]
      next mh hmh =>
        rw [destroyPass_counter rest _ r c1 h]
        rfl

theorem releaseGarbage_counter {c : Context} {G : List Int} {r : Except RtError Unit}
    {c1 : Context} (h : releaseGarbage c G = (r, c1)) :
    c1.m_alloc_counter = c.m_alloc_counter := by
  unfold releaseGarbage at h
  simp only [] at h
  split at h
  case h_1 u ctx1 hdec =>
    rw [destroyPass_counter _ ctx1 r c1 h, decouplePass_counter _ c _ ctx1 hdec]
  case h_2 e ctx1 hdec =>
    injection h with hfst hsnd
    rw [← hsnd]
    exact decouplePass_counter _ c _ ctx1 hdec

/-- No operation ever decreases the allocation counter. -/
theorem counter_applyOp {ctx : Context} {op : Op} {c : Context}
    (h : applyOp ctx op = .ok c) :
    ctx.m_alloc_counter ≤ c.m_alloc_counter := by
  cases op with
  | alloc n =>
      simp only [applyOp] at h
      split at h
      next v c0 hm =>
        injection h with h
        subst h
        unfold alloc at hm
        split at hm
        next => exact absurd (congrArg Prod.fst hm) (by simp)
        next =>
          simp only [] at hm
          injection hm with hfst hsnd
          rw [← hsnd]
          simp only []
          omega
      next e c0 hm => exact absurd h (by simp)
  | read a i =>
      simp only [applyOp] at h
      split at h
      next r c0 hm =>
        injection h with h
        subst h
        unfold read at hm
        split at hm
        case isFalse => exact absurd (congrArg Prod.fst hm) (by simp)
        case isTrue =>
          split at hm
          next => exact absurd (congrArg Prod.fst hm) (by simp)
          next mh hlk =>
            split at hm
            next => exact absurd (congrArg Prod.fst hm) (by simp)
            next =>
              injection hm with hfst hsnd
              rw [← hsnd]
      next e c0 hm => exact absurd h (by simp)
  | write a i v =>
      simp only [applyOp] at h
      split at h
      next u c0 hm =>
        injection h with h
        subst h
        unfold write at hm
        split at hm
        case isFalse => exact absurd (congrArg Prod.fst hm) (by simp)
        case isTrue =>
          split at hm
          next => exact absurd (congrArg Prod.fst hm) (by simp)
          next mh hlk =>
            split at hm
            next => exact absurd (congrArg Prod.fst hm) (by simp)
            next =>
              simp only [] at hm
              split at hm
              next => exact absurd (congrArg Prod.fst hm) (by simp)
              next ctx1 hm1 =>
                split at hm
                next => exact absurd (congrArg Prod.fst hm) (by simp)
                next ctx2 hm2 =>
                  obtain ⟨-, -, -, -, -, hcnt1, -⟩ := decref_if_step hm1
                  obtain ⟨-, -, -, -, -, hcnt2, -⟩ := incref_if_step hm2
                  injection hm with hfst hsnd
                  rw [← hsnd]
                  exact le_of_eq (hcnt2.trans hcnt1).symm
      next e c0 hm => exact absurd h (by simp)
  | push a v =>
      simp only [applyOp] at h
      split at h
      next u c0 hm =>
        injection h with h
        subst h
        unfold push at hm
        split at hm
        case isFalse => exact absurd (congrArg Prod.fst hm) (by simp)
        case isTrue =>
          split at hm
          next => exact absurd (congrArg Prod.fst hm) (by simp)
          next ctx1 hm1 =>
            obtain ⟨-, -, -, -, -, hcnt1, -⟩ := incref_if_step hm1
            injection hm with hfst hsnd
            rw [← hsnd]
            exact le_of_eq hcnt1.symm
      next e c0 hm => exact absurd h (by simp)
  | pop a =>
      simp only [applyOp] at h
      split at h
      next r c0 hm =>
        injection h with h
        subst h
        unfold pop at hm
        split at hm
        case isFalse => exact absurd (congrArg Prod.fst hm) (by simp)
        case isTrue =>
          split at hm
          next => exact absurd (congrArg Prod.fst hm) (by simp)
          next mh hlk =>
            split at hm
            next => exact absurd (congrArg Prod.fst hm) (by simp)
            next =>
              simp only [] at hm
              split at hm
              next => exact absurd (congrArg Prod.fst hm) (by simp)
              next ctx1 hm1 =>
                obtain ⟨-, -, -, -, -, hcnt1, -⟩ := decref_if_step hm1
                injection hm with hfst hsnd
                rw [← hsnd]
                exact le_of_eq hcnt1.symm
      next e c0 hm => exact absurd h (by simp)
  | assign x v =>
      simp only [applyOp] at h
      split at h
      next u c0 hm =>
        injection h with h
        subst h
        unfold assign at hm
        simp only [] at hm
        split at hm
        next => exact absurd (congrArg Prod.fst hm) (by simp)
        next ctx1 hm1 =>
          split at hm
          next => exact absurd (congrArg Prod.fst hm) (by simp)
          next ctx2 hm2 =>
            obtain ⟨-, -, -, -, -, hcnt1, -⟩ := decref_if_step hm1
            obtain ⟨-, -, -, -, -, hcnt2, -⟩ := incref_if_step hm2
            injection hm with hfst hsnd
            rw [← hsnd]
            exact le_of_eq (hcnt2.trans hcnt1).symm
      next e c0 hm => exact absurd h (by simp)
  | erase x =>
      simp only [applyOp] at h
      split at h
      next u c0 hm =>
        injection h with h
        subst h
        unfold erase at hm
        split at hm
        case isFalse => exact absurd (congrArg Prod.fst hm) (by simp)
        case isTrue =>
          simp only [] at hm
          split at hm
          next => exact absurd (congrArg Prod.fst hm) (by simp)
          next ctx1 hm1 =>
            obtain ⟨-, -, -, -, -, hcnt1, -⟩ := decref_if_step hm1
            injection hm with hfst hsnd
            rw [← hsnd]
            exact le_of_eq hcnt1.symm
      next e c0 hm => exact absurd h (by simp)
  | minorGC =>
      simp only [applyOp] at h
      split at h
      next u c0 hm =>
        injection h with h
        subst h
        unfold minorGC at hm
        simp only [] at hm
        split at hm
        case h_1 u1 ctx1 hrel =>
          injection hm with hfst hsnd
          rw [← hsnd]
          exact le_of_eq (releaseGarbage_counter hrel).symm
        case h_2 e ctx1 hrel => exact absurd (congrArg Prod.fst hm) (by simp)
      next e c0 hm => exact absurd h (by simp)
  | majorGCFull =>
      simp only [applyOp] at h
      split at h
      next u c0 hm =>
        injection h with h
        subst h
        unfold majorGC at hm
        rw [if_pos rfl] at hm
        unfold majorGCFull at hm
        simp only [] at hm
        split at hm
        next e hml => exact absurd (congrArg Prod.fst hm) (by simp)
        next heap1 visited1 hml =>
          split at hm
          case h_1 u1 ctx2 hrel =>
            injection hm with hfst hsnd
            rw [← hsnd]
            have e := releaseGarbage_counter hrel
            exact le_of_eq e.symm
          case h_2 e ctx2 hrel => exact absurd (congrArg Prod.fst hm) (by simp)
      next e c0 hm => exact absurd h (by simp)

/-- The allocation counter is monotone along any normally-returning run. -/
theorem counter_runOps : ∀ (ops : List Op) (ctx c : Context),
    runOps ctx ops = .ok c → ctx.m_alloc_counter ≤ c.m_alloc_counter
  | [], ctx, c, h => by
      unfold runOps at h
      injection h with h
      subst h
      exact le_refl _
  | op :: rest, ctx, c, h => by
      unfold runOps at h
      split at h
      next e hm => exact absurd h (by simp)
      next c1 hm =>
        exact le_trans (counter_applyOp hm) (counter_runOps rest c1 c h)

/-- The C9 witness scenario: one allocated cell. -/
def c9Ops : List Op := [.alloc 0]

/-- The context after `c9Ops`. -/
def c9Ctx : Context :=
  match runOps Context.init c9Ops with
  | .ok c => c
  | .error _ => Context.init

/-- C9: on any reachable context, `alloc(n)` with `n < 0` fails with BadSize
leaving the context unchanged; with `n ≥ 0` it returns a HANDLE carrying the
current allocation counter, installs a cell of exactly `n` `INT(0)` Values
with `ref_count = 0` (and that cell is found under the returned identifier),
and bumps the counter by one.  The counter starts at 1 in the initial
context and never decreases across operations, so identifiers returned by
successive successful allocs are strictly increasing, starting at 1. -/
theorem C9_alloc_spec (ops : List Op) (ctx : Context)
    (hr : runOps Context.init ops = .ok ctx) (n : Int) :
    (n < 0 → alloc ctx n = (.error .badAllocSize, ctx)) ∧
    (0 ≤ n →
      alloc ctx n = (.ok (handleV ctx.m_alloc_counter),
        { ctx with
            m_alloc_counter := ctx.m_alloc_counter + 1,
            m_mem_handles := emplaceA ctx.m_mem_handles ctx.m_alloc_counter
              ⟨List.replicate n.toNat ⟨0, ValueType.integer⟩,
               ctx.m_alloc_counter, 0, 0⟩ }) ∧
      lookupA (alloc ctx n).2.m_mem_handles ctx.m_alloc_counter =
        some ⟨List.replicate n.toNat ⟨0, ValueType.integer⟩,
              ctx.m_alloc_counter, 0, 0⟩ ∧
      (alloc ctx n).2.m_alloc_counter = ctx.m_alloc_counter + 1) ∧
    Context.init.m_alloc_counter = 1 ∧
    1 ≤ ctx.m_alloc_counter ∧
    (∀ ops2 ctx2, runOps ctx ops2 = .ok ctx2 →
      ctx.m_alloc_counter ≤ ctx2.m_alloc_counter) := by
  have hW := WF_runOps ops Context.init ctx WF_init hr
  have hcontains : containsA ctx.m_mem_handles ctx.m_alloc_counter = false := by
    cases hc : containsA ctx.m_mem_handles ctx.m_alloc_counter with
    | false => rfl
    | true =>
        obtain ⟨b, hb⟩ := containsA_iff.mp hc
        have := hW.counterBound (ctx.m_alloc_counter, b) (lookupA_mem hb)
        simp only at this
        omega
  refine ⟨?_, ?_, rfl, ?_, ?_⟩
  · intro hn
    unfold alloc
    rw [if_pos hn]
  · intro hn
    have hok : alloc ctx n = (.ok (handleV ctx.m_alloc_counter),
        { ctx with
            m_alloc_counter := ctx.m_alloc_counter + 1,
            m_mem_handles := emplaceA ctx.m_mem_handles ctx.m_alloc_counter
              ⟨List.replicate n.toNat ⟨0, ValueType.integer⟩,
               ctx.m_alloc_counter, 0, 0⟩ }) := by
      unfold alloc
      rw [if_neg (not_lt.mpr hn)]
      rfl
    refine ⟨hok, ?_, ?_⟩
    · rw [hok]
      simp only []
      rw [lookupA_emplaceA_self]
      rw [show lookupA ctx.m_mem_handles ctx.m_alloc_counter = none from by
        cases ho : lookupA ctx.m_mem_handles ctx.m_alloc_counter with
        | none => rfl
        | some b =>
            rw [containsA_iff.mpr ⟨b, ho⟩] at hcontains
            exact absurd hcontains (by simp)]
      rfl
    · rw [hok]
  · have := counter_runOps ops Context.init ctx hr
    have hinit : Context.init.m_alloc_counter = 1 := rfl
    omega
  · intro ops2 ctx2 h2
    exact counter_runOps ops2 ctx ctx2 h2

/-- Witness for C9: the allocation specification instantiated on the
context with one prior alloc, at size 2. -/
theorem C9_alloc_spec_witness :
    ((2 : Int) < 0 → alloc c9Ctx 2 = (.error .badAllocSize, c9Ctx)) ∧
    ((0 : Int) ≤ 2 →
      alloc c9Ctx 2 = (.ok (handleV c9Ctx.m_alloc_counter),
        { c9Ctx with
            m_alloc_counter := c9Ctx.m_alloc_counter + 1,
            m_mem_handles := emplaceA c9Ctx.m_mem_handles c9Ctx.m_alloc_counter
              ⟨List.replicate (2 : Int).toNat ⟨0, ValueType.integer⟩,
               c9Ctx.m_alloc_counter, 0, 0⟩ }) ∧
      lookupA (alloc c9Ctx 2).2.m_mem_handles c9Ctx.m_alloc_counter =
        some ⟨List.replicate (2 : Int).toNat ⟨0, ValueType.integer⟩,
              c9Ctx.m_alloc_counter, 0, 0⟩ ∧
      (alloc c9Ctx 2).2.m_alloc_counter = c9Ctx.m_alloc_counter + 1) ∧
    Context.init.m_alloc_counter = 1 ∧
    1 ≤ c9Ctx.m_alloc_counter ∧
    (∀ ops2 ctx2, runOps c9Ctx ops2 = .ok ctx2 →
      c9Ctx.m_alloc_counter ≤ ctx2.m_alloc_counter) :=
  C9_alloc_spec c9Ops c9Ctx (by decide) 2

/-- The C10 witness scenario: two cells, the first holding one slot. -/
def c10Ops : List Op := [.alloc 1, .alloc 0]

/-- The context after `c10Ops`. -/
def c10Ctx : Context :=
  match runOps Context.init c10Ops with
  | .ok c => c
  | .error _ => Context.init

/-- C10: for every valid array handle `a` and every Value `v` that is either
INT-tagged or a valid handle, `push(a, v); pop(a)` returns `v`, restores
`a`'s data sequence to its prior contents, and restores `v`'s ref_count (if
`v` is a handle) to its prior value. -/
theorem C10_push_pop_roundtrip (ops : List Op) (ctx : Context)
    (hr : runOps Context.init ops = .ok ctx) (a v : Value)
    (hav : validMemHandle ctx a = true)
    (hv : v.type = ValueType.integer ∨ validMemHandle ctx v = true) :
    (push ctx a v).1 = .ok () ∧
    (pop (push ctx a v).2 a).1 = .ok v ∧
    dataAt (pop (push ctx a v).2 a).2 a.data = dataAt ctx a.data ∧
    rcAt (pop (push ctx a v).2 a).2 v.data = rcAt ctx v.data := by
  obtain ⟨hat, hac⟩ := validMemHandle_iff.mp hav
  have hvv : v.type = ValueType.memory_handle → validMemHandle ctx v = true := by
    intro hvt
    rcases hv with h | h
    · rw [hvt] at h
      exact absurd h (by simp)
    · exact h
  have hm1 : (if v.type = ValueType.memory_handle then incref ctx v else .ok ctx) =
      .ok (if v.type = ValueType.memory_handle
           then { ctx with m_mem_handles := (modifyA ctx.m_mem_handles v.data
                    fun mh => { mh with ref_count := mh.ref_count + 1 }) }
           else ctx) := by
    by_cases hvt : v.type = ValueType.memory_handle
    · rw [if_pos hvt, if_pos hvt]
      unfold incref
      rw [if_pos (hvv hvt)]
    · rw [if_neg hvt, if_neg hvt]
  set ctxI := (if v.type = ValueType.memory_handle
      then { ctx with m_mem_handles := (modifyA ctx.m_mem_handles v.data
               fun mh => { mh with ref_count := mh.ref_count + 1 }) }
      else ctx) with hctxI
  obtain ⟨hdI, hkI, hmdI, hmemI, hrcI, hcntI, hstI, hlhI, hlheI, -⟩ :=
    incref_if_step hm1
  have hpush : push ctx a v = (.ok (), { ctxI with
      m_mem_handles := (modifyA ctxI.m_mem_handles a.data
        fun mh => { mh with data := mh.data ++ [v] }) }) := by
    unfold push
    rw [if_pos hav, hm1]
  set cP := ({ ctxI with m_mem_handles := (modifyA ctxI.m_mem_handles a.data
      fun mh => { mh with data := mh.data ++ [v] }) } : Context) with hcP
  obtain ⟨mh0, hmh0⟩ := containsA_iff.mp hac
  obtain ⟨mhI, hmhI⟩ := containsA_iff.mp
    (by rw [containsA_eq_of_keys_eq hkI]; exact hac)
  obtain ⟨mh0', hmh0', hrc0', hd0'⟩ := hrcI a.data mhI hmhI
  have hmh0e : mh0' = mh0 := by
    rw [hmh0] at hmh0'
    exact (Option.some.inj hmh0').symm
  rw [hmh0e] at hrc0' hd0'
  have hlkP : lookupA cP.m_mem_handles a.data =
      some { mhI with data := mhI.data ++ [v] } := by
    show lookupA (modifyA ctxI.m_mem_handles a.data
      fun mh => { mh with data := mh.data ++ [v] }) a.data = _
    rw [lookupA_modifyA, if_pos rfl, hmhI]
    rfl
  have hkP : cP.m_mem_handles.map Prod.fst = ctx.m_mem_handles.map Prod.fst := by
    show (modifyA ctxI.m_mem_handles a.data
      fun mh => { mh with data := mh.data ++ [v] }).map Prod.fst = _
    rw [keys_modifyA, hkI]
  have hvalP : validMemHandle cP a = true :=
    validMemHandle_iff.mpr ⟨hat, by rw [containsA_eq_of_keys_eq hkP]; exact hac⟩
  have hvvP : v.type = ValueType.memory_handle → validMemHandle cP v = true := by
    intro hvt
    refine validMemHandle_iff.mpr ⟨hvt, ?_⟩
    rw [containsA_eq_of_keys_eq hkP]
    exact (validMemHandle_iff.mp (hvv hvt)).2
  have hm2 : (if v.type = ValueType.memory_handle then decref cP v else .ok cP) =
      .ok (if v.type = ValueType.memory_handle then decrefPresent cP v.data
           else cP) := by
    by_cases hvt : v.type = ValueType.memory_handle
    · rw [if_pos hvt, if_pos hvt]
      unfold decref
      rw [if_pos (hvvP hvt)]
    · rw [if_neg hvt, if_neg hvt]
  set ctxD := (if v.type = ValueType.memory_handle then decrefPresent cP v.data
      else cP) with hctxD
  obtain ⟨hdD, hkD, hmdD, hmemD, hrcD, hcntD, hstD, hlhD, hlheD⟩ :=
    decref_if_step hm2
  have hne : ¬ (mhI.data ++ [v] = []) := by simp
  have hpop : pop cP a = (.ok v, { ctxD with
      m_mem_handles := (modifyA ctxD.m_mem_handles a.data
        fun mh => { mh with data := mh.data.dropLast }) }) := by
    unfold pop
    rw [if_pos hvalP, hlkP]
    simp only []
    rw [if_neg hne, List.getLastD_concat, hm2]
  obtain ⟨mhD, hmhD⟩ := containsA_iff.mp
    (by rw [containsA_eq_of_keys_eq hkD]
        exact (validMemHandle_iff.mp hvalP).2)
  obtain ⟨mhP', hmhP', hrcP', hdP'⟩ := hrcD a.data mhD hmhD
  have hmhPe : mhP' = { mhI with data := mhI.data ++ [v] } := by
    rw [hlkP] at hmhP'
    exact (Option.some.inj hmhP').symm
  rw [hmhPe] at hrcP' hdP'
  have hmhD_data : mhD.data = mhI.data ++ [v] := hdP'
  refine ⟨by rw [hpush], ?_, ?_, ?_⟩
  · rw [hpush]
    simp only []
    rw [hpop]
  · rw [hpush]
    simp only []
    rw [hpop]
    simp only []
    unfold dataAt
    rw [show ({ ctxD with m_mem_handles := (modifyA ctxD.m_mem_handles a.data
          fun mh => { mh with data := mh.data.dropLast }) } : Context).m_mem_handles =
        (modifyA ctxD.m_mem_handles a.data
          fun mh => { mh with data := mh.data.dropLast }) from rfl]
    rw [lookupA_modifyA, if_pos rfl, hmhD, hmh0]
    simp only [Option.map_some']
    rw [hmhD_data, List.dropLast_concat, hd0']
  · rw [hpush]
    simp only []
    rw [hpop]
    simp only []
    unfold rcAt
    have hkeysF : (modifyA ctxD.m_mem_handles a.data
        (fun mh => { mh with data := mh.data.dropLast })).map Prod.fst =
        ctx.m_mem_handles.map Prod.fst := by
      rw [keys_modifyA, hkD, hkP]
    cases hv0 : lookupA ctx.m_mem_handles v.data with
    | none =>
        have hnf : lookupA (modifyA ctxD.m_mem_handles a.data
            (fun mh => { mh with data := mh.data.dropLast })) v.data = none := by
          rw [lookupA_none_iff, hkeysF]
          exact lookupA_none_iff.mp hv0
        rw [show ({ ctxD with m_mem_handles := (modifyA ctxD.m_mem_handles a.data
            fun mh => { mh with data := mh.data.dropLast }) } :
            Context).m_mem_handles = (modifyA ctxD.m_mem_handles a.data
            fun mh => { mh with data := mh.data.dropLast }) from rfl]
        rw [hnf]
    | some mhv =>
        have hcf : containsA (modifyA ctxD.m_mem_handles a.data
            (fun mh => { mh with data := mh.data.dropLast })) v.data = true := by
          rw [containsA_eq_of_keys_eq hkeysF]
          exact containsA_iff.mpr ⟨mhv, hv0⟩
        obtain ⟨mhF, hmhF⟩ := containsA_iff.mp hcf
        obtain ⟨mhD2, hmhD2, hrcF⟩ := rc_delta_modify
          (f := fun mh => { mh with data := mh.data.dropLast }) (d := 0)
          (fun b => by simp) v.data mhF hmhF
        obtain ⟨mhP2, hmhP2, hrcD2, -⟩ := hrcD v.data mhD2 hmhD2
        have hmhP2e : lookupA ctxI.m_mem_handles v.data = some { mhP2 with
            data := mhP2.data } ∨ True := Or.inr trivial
        obtain ⟨mhI2, hmhI2, hrcP2⟩ := rc_delta_modify
          (f := fun mh => { mh with data := mh.data ++ [v] }) (d := 0)
          (fun b => by simp) v.data mhP2 hmhP2
        obtain ⟨mhv', hmhv', hrcI2, -⟩ := hrcI v.data mhI2 hmhI2
        have hmhve : mhv' = mhv := by
          rw [hv0] at hmhv'
          exact (Option.some.inj hmhv').symm
        rw [hmhve] at hrcI2
        rw [show ({ ctxD with m_mem_handles := (modifyA ctxD.m_mem_handles a.data
            fun mh => { mh with data := mh.data.dropLast }) } :
            Context).m_mem_handles = (modifyA ctxD.m_mem_handles a.data
            fun mh => { mh with data := mh.data.dropLast }) from rfl]
        rw [hmhF]
        simp only [Option.map_some']
        have : mhF.ref_count = mhv.ref_count := by
          rw [hrcF, hrcD2, hrcP2, hrcI2]
          by_cases hvt : v.type = ValueType.memory_handle
          · simp [hvt]
          · simp [hvt]
        rw [this]

/-- Witness for C10: pushing and popping the second cell's handle on the
first cell of a two-cell context. -/
theorem C10_push_pop_roundtrip_witness :
    (push c10Ctx (handleV 1) (handleV 2)).1 = .ok () ∧
    (pop (push c10Ctx (handleV 1) (handleV 2)).2 (handleV 1)).1 = .ok (handleV 2) ∧
    dataAt (pop (push c10Ctx (handleV 1) (handleV 2)).2 (handleV 1)).2
        (handleV 1).data =
      dataAt c10Ctx (handleV 1).data ∧
    rcAt (pop (push c10Ctx (handleV 1) (handleV 2)).2 (handleV 1)).2
        (handleV 2).data =
      rcAt c10Ctx (handleV 2).data :=
  C10_push_pop_roundtrip c10Ops c10Ctx (by decide) (handleV 1) (handleV 2)
    (by decide) (Or.inr (by decide))

theorem collectInner_append (visited nf : List Int) (d1 d2 : List Value) :
    collectInner visited nf (d1 ++ d2) =
      collectInner visited (collectInner visited nf d1) d2 := by
  unfold collectInner
  rw [List.foldl_append]

theorem collectInner_cons (visited nf : List Int) (v : Value) (d : List Value) :
    collectInner visited nf (v :: d) =
      collectInner visited
        (if v.type = ValueType.memory_handle ∧ v.data ∉ visited
         then insertS nf v.data else nf) d := rfl

theorem markInner_cons (visited nf : List Int) (v : Value) (rest : List Value)
    (i lhe sc : Int) (ms : Option Int) :
    markInner visited nf (v :: rest) i lhe sc ms =
      if i < lhe then markInner visited nf rest (i + 1) lhe sc ms
      else if msExhausted ms sc then (nf, lhe, sc, true)
      else
        markInner visited
          (if v.type = ValueType.memory_handle ∧ v.data ∉ visited
           then insertS nf v.data else nf)
          rest (i + 1) (lhe + 1) (sc + 1) ms := rfl

/-- The inner loop's cursor skip: with `lhe = ihe + j`, the first `j` slots
are passed over without effect. -/
theorem markInner_drop : ∀ (j : Nat) (d : List Value) (visited nf : List Int)
      (i sc : Int) (ms : Option Int),
    markInner visited nf d i (i + j) sc ms =
      markInner visited nf (d.drop j) (i + j) (i + j) sc ms
  | 0, d, visited, nf, i, sc, ms => by simp
  | j + 1, [], visited, nf, i, sc, ms => by simp [markInner]
  | j + 1, v :: rest, visited, nf, i, sc, ms => by
      rw [markInner_cons, if_pos (show i < i + ((j + 1 : Nat) : Int) by push_cast; omega)]
      have e : i + ((j + 1 : Nat) : Int) = (i + 1) + ((j : Nat) : Int) := by
        push_cast; ring
      rw [List.drop_succ_cons, e, markInner_drop j rest visited nf (i + 1) sc ms]

/-- The inner loop from aligned cursors, when the budget covers the whole
slot list: every slot is scanned. -/
theorem markInner_scan_done : ∀ (d : List Value) (visited nf : List Int)
      (i sc k : Int), (d.length : Int) ≤ k - sc →
    markInner visited nf d i i sc (some k) =
      (collectInner visited nf d, i + d.length, sc + d.length, false)
  | [], visited, nf, i, sc, k, _ => by simp [markInner, collectInner]
  | v :: rest, visited, nf, i, sc, k, h => by
      rw [markInner_cons, if_neg (lt_irrefl i)]
      have hms : msExhausted (some k) sc = false := by
        simp only [msExhausted, decide_eq_false_iff_not]
        intro hc
        simp only [List.length_cons] at h
        push_cast at h
        omega
      rw [hms]
      simp only [Bool.false_eq_true, if_false]
      rw [markInner_scan_done rest visited _ (i + 1) (sc + 1) k
        (by simp only [List.length_cons] at h; push_cast at h ⊢; omega)]
      rw [collectInner_cons]
      simp only [List.length_cons, Prod.mk.injEq, and_true, true_and]
      push_cast
      constructor <;> ring

/-- The inner loop from aligned cursors, when the budget runs out before the
slot list ends: exactly `k - sc` slots are scanned and the loop returns
early with the cursor parked on the next slot. -/
theorem markInner_scan_early : ∀ (d : List Value) (visited nf : List Int)
      (i sc k : Int), 0 ≤ k - sc → k - sc < (d.length : Int) →
    markInner visited nf d i i sc (some k) =
      (collectInner visited nf (d.take (k - sc).toNat), i + (k - sc), k, true)
  | [], visited, nf, i, sc, k, h0, h1 => by
      simp at h1
      omega
  | v :: rest, visited, nf, i, sc, k, h0, h1 => by
      rw [markInner_cons, if_neg (lt_irrefl i)]
      by_cases hks : k ≤ sc
      · have hms : msExhausted (some k) sc = true := by
          simp [msExhausted, hks]
        rw [hms]
        simp only [if_true]
        have hz : k - sc = 0 := by omega
        rw [hz]
        simp only [Int.toNat_zero, List.take_zero, collectInner, List.foldl_nil,
          add_zero, Prod.mk.injEq, and_true, true_and]
        omega
      · have hms : msExhausted (some k) sc = false := by
          simp [msExhausted, hks]
        rw [hms]
        simp only [Bool.false_eq_true, if_false]
        rw [markInner_scan_early rest visited _ (i + 1) (sc + 1) k (by omega)
          (by simp only [List.length_cons] at h1; push_cast at h1 ⊢; omega)]
        have ht : (k - sc).toNat = (k - (sc + 1)).toNat + 1 := by omega
        rw [ht]
        simp only [List.take_succ_cons]
        rw [collectInner_cons]
        simp only [Prod.mk.injEq, and_true, true_and]
        omega

theorem markOuter_cons (heap : List (Int × MemoryHandle)) (visited : List Int)
    (p : Int) (rest : List Int) (nf : List Int) (ih lh lhe sc : Int)
    (ms : Option Int) :
    markOuter heap visited (p :: rest) nf ih lh lhe sc ms =
      if ih < lh then markOuter heap visited rest nf (ih + 1) lh lhe sc ms
      else
        match lookupA heap p with
        | none => .error .atOutOfRange
        | some mh =>
            match markInner visited nf mh.data 0 lhe sc ms with
            | (newf', lhe', sc', true) =>
                .ok ⟨setFlagBit heap p, newf', lh, lhe', sc', true⟩
            | (newf', _, sc', false) =>
                markOuter (setFlagBit heap p) visited rest newf' (ih + 1) (lh + 1) 0
                  sc' ms := rfl

/-- The outer loop's cursor skip: with `lh = ih + j`, the first `j` frontier
cells are passed over without effect. -/
theorem markOuter_drop : ∀ (j : Nat) (next : List Int)
      (heap : List (Int × MemoryHandle)) (visited nf : List Int)
      (i lhe sc : Int) (ms : Option Int),
    markOuter heap visited next nf i (i + j) lhe sc ms =
      markOuter heap visited (next.drop j) nf (i + j) (i + j) lhe sc ms
  | 0, next, heap, visited, nf, i, lhe, sc, ms => by
      simp only [Nat.cast_zero, add_zero, List.drop_zero]
  | j + 1, [], heap, visited, nf, i, lhe, sc, ms => by
      simp only [markOuter, List.drop_nil]
  | j + 1, p :: rest, heap, visited, nf, i, lhe, sc, ms => by
      rw [markOuter_cons,
        if_pos (show i < i + ((j + 1 : Nat) : Int) by push_cast; omega)]
      have e : i + ((j + 1 : Nat) : Int) = (i + 1) + ((j : Nat) : Int) := by
        push_cast; ring
      rw [List.drop_succ_cons, e, markOuter_drop j rest heap visited nf (i + 1) lhe sc ms]

/-- Shape preservation of any outer mark pass: the heap keys are unchanged
and every cell keeps its data, refcount and identifier, with the flags at
most gaining the mark bit. -/
theorem markOuter_entries : ∀ (next : List Int) (heap : List (Int × MemoryHandle))
      (visited nf : List Int) (ih lh lhe sc : Int) (ms : Option Int)
      (r : MarkOuterRes),
    markOuter heap visited next nf ih lh lhe sc ms = .ok r →
    r.heap.map Prod.fst = heap.map Prod.fst ∧
    ∀ q mh', lookupA r.heap q = some mh' → ∃ mh, lookupA heap q = some mh ∧
      mh'.data = mh.data ∧ mh'.ref_count = mh.ref_count ∧
      mh'.alloc_id = mh.alloc_id ∧
      (mh'.flags = mh.flags ∨ mh'.flags = setBit0 mh.flags)
  | [], heap, visited, nf, ih, lh, lhe, sc, ms, r, h => by
      unfold markOuter at h
      injection h with h
      subst h
      exact ⟨rfl, fun q mh' hq => ⟨mh', hq, rfl, rfl, rfl, Or.inl rfl⟩⟩
  | p :: rest, heap, visited, nf, ih, lh, lhe, sc, ms, r, h => by
      rw [markOuter_cons] at h
      by_cases hskip : ih < lh
      · rw [if_pos hskip] at h
        exact markOuter_entries rest heap visited nf (ih + 1) lh lhe sc ms r h
      · rw [if_neg hskip] at h
        cases hlk : lookupA heap p with
        | none =>
            rw [hlk] at h
            exact absurd h (by simp)
        | some mh0 =>
            rw [hlk] at h
            simp only [] at h
            have hstep : ∀ q mh',
                lookupA (setFlagBit heap p) q = some mh' →
                ∃ mh, lookupA heap q = some mh ∧ mh'.data = mh.data ∧
                  mh'.ref_count = mh.ref_count ∧ mh'.alloc_id = mh.alloc_id ∧
                  (mh'.flags = mh.flags ∨ mh'.flags = setBit0 mh.flags) := by
              intro q mh' hq
              rw [lookupA_setFlagBit] at hq
              by_cases hpq : p = q
              · rw [if_pos hpq] at hq
                cases ho : lookupA heap q with
                | none => rw [ho] at hq; exact absurd hq (by simp)
                | some mh =>
                    rw [ho] at hq
                    injection hq with hq
                    exact ⟨mh, rfl, by rw [← hq]; exact rfl, by rw [← hq]; exact rfl,
                      by rw [← hq]; exact rfl, Or.inr (by rw [← hq]; exact rfl)⟩
              · rw [if_neg hpq] at hq
                exact ⟨mh', hq, rfl, rfl, rfl, Or.inl rfl⟩
            rcases hmi : markInner visited nf mh0.data 0 lhe sc ms with
              ⟨newf', lhe', sc', early⟩
            rw [hmi] at h
            cases early with
            | true =>
                simp only [] at h
                injection h with h
                subst h
                exact ⟨keys_setFlagBit heap p, hstep⟩
            | false =>
                simp only [] at h
                obtain ⟨hkeys, hent⟩ := markOuter_entries rest (setFlagBit heap p)
                  visited newf' (ih + 1) (lh + 1) 0 sc' ms r h
                refine ⟨by rw [hkeys, keys_setFlagBit], fun q mh' hq => ?_⟩
                obtain ⟨mh1, hq1, hd1, hr1, ha1, hf1⟩ := hent q mh' hq
                obtain ⟨mh2, hq2, hd2, hr2, ha2, hf2⟩ := hstep q mh1 hq1
                refine ⟨mh2, hq2, hd1.trans hd2, hr1.trans hr2, ha1.trans ha2, ?_⟩
                rcases hf1 with hf1 | hf1 <;> rcases hf2 with hf2 | hf2
                · exact Or.inl (hf1.trans hf2)
                · exact Or.inr (hf1.trans hf2)
                · exact Or.inr (by rw [hf1, hf2])
                · exact Or.inr (by rw [hf1, hf2, setBit0_setBit0])

theorem modifyA_modifyA {α : Type} (l : List (Int × α)) (k : Int) (f g : α → α) :
    modifyA (modifyA l k f) k g = modifyA l k (fun a => g (f a)) := by
  unfold modifyA
  rw [List.map_map]
  refine List.map_congr_left (fun kv _ => ?_)
  by_cases hk : kv.1 = k
  · simp [hk]
  · simp [hk]

theorem setFlagBit_idem (heap : List (Int × MemoryHandle)) (p : Int) :
    setFlagBit (setFlagBit heap p) p = setFlagBit heap p := by
  rw [setFlagBit_eq, setFlagBit_eq, modifyA_modifyA]
  simp only [markF_idem]

/-- The new frontier produced by completing (without budget) the scan of the
remaining frontier cells `rem`, where the first cell's slots before `lhe`
were already handled. -/
def completeNew (heap : List (Int × MemoryHandle)) (visited : List Int)
    (rem : List Int) (nf : List Int) (lhe : Int) : List Int :=
  match rem with
  | [] => nf
  | p :: rest =>
      match lookupA heap p with
      | some mh =>
          collectNew heap visited rest
            (collectInner visited nf (mh.data.drop lhe.toNat))
      | none => collectNew heap visited rest nf

theorem completeNew_cons (heap : List (Int × MemoryHandle)) (visited : List Int)
    (p : Int) (rest nf : List Int) (lhe : Int) :
    completeNew heap visited (p :: rest) nf lhe =
      match lookupA heap p with
      | some mh =>
          collectNew heap visited rest
            (collectInner visited nf (mh.data.drop lhe.toNat))
      | none => collectNew heap visited rest nf := rfl

theorem completeNew_zero (heap : List (Int × MemoryHandle)) (visited : List Int)
    (rem nf : List Int) :
    completeNew heap visited rem nf 0 = collectNew heap visited rem nf := by
  cases rem with
  | nil => rfl
  | cons p rest =>
      rw [completeNew_cons, collectNew_cons]
      cases hlk : lookupA heap p with
      | none => rfl
      | some mh => simp

theorem collectInner_nodup (visited : List Int) :
    ∀ (data : List Value) (nf : List Int), nf.Nodup →
      (collectInner visited nf data).Nodup
  | [], nf, hn => hn
  | v :: rest, nf, hn => by
      rw [collectInner_cons]
      refine collectInner_nodup visited rest _ ?_
      by_cases hc : v.type = ValueType.memory_handle ∧ v.data ∉ visited
      · rw [if_pos hc]; exact nodup_insertS hn
      · rw [if_neg hc]; exact hn

theorem collectNew_nodup : ∀ (rem : List Int) (heap : List (Int × MemoryHandle))
      (visited nf : List Int), nf.Nodup → (collectNew heap visited rem nf).Nodup
  | [], _, _, _, hn => hn
  | p :: rest, heap, visited, nf, hn => by
      rw [collectNew_cons]
      cases hlk : lookupA heap p with
      | none => exact collectNew_nodup rest heap visited nf hn
      | some mh =>
          exact collectNew_nodup rest heap visited _ (collectInner_nodup visited _ _ hn)

theorem completeNew_nodup (heap : List (Int × MemoryHandle)) (visited : List Int)
    (rem nf : List Int) (lhe : Int) (hn : nf.Nodup) :
    (completeNew heap visited rem nf lhe).Nodup := by
  cases rem with
  | nil => exact hn
  | cons p rest =>
      rw [completeNew_cons]
      cases hlk : lookupA heap p with
      | none => exact collectNew_nodup rest heap visited nf hn
      | some mh =>
          exact collectNew_nodup rest heap visited _ (collectInner_nodup visited _ _ hn)

theorem collectInner_pres (heap : List (Int × MemoryHandle)) (visited nf : List Int)
    (data : List Value) (hnf : ∀ t ∈ nf, containsA heap t = true)
    (hd : ∀ v ∈ data, v.type = ValueType.memory_handle →
      containsA heap v.data = true) :
    ∀ t ∈ collectInner visited nf data, containsA heap t = true := by
  intro t ht
  rcases (mem_collectInner data visited nf t).mp ht with h | ⟨v, hv, hty, hdt, _⟩
  · exact hnf t h
  · rw [← hdt]
    exact hd v hv hty

theorem collectNew_pres (heap : List (Int × MemoryHandle)) (visited : List Int)
    (rem nf : List Int) (hnf : ∀ t ∈ nf, containsA heap t = true)
    (hval : heapValid heap) :
    ∀ t ∈ collectNew heap visited rem nf, containsA heap t = true := by
  intro t ht
  rcases (mem_collectNew rem heap visited nf t).mp ht with
    h | ⟨p, _, mh, hmh, v, hv, hty, hdt, _⟩
  · exact hnf t h
  · rw [← hdt]
    exact hval (p, mh) (lookupA_mem hmh) v hv hty

theorem completeNew_pres (heap : List (Int × MemoryHandle)) (visited : List Int)
    (rem nf : List Int) (lhe : Int) (hnf : ∀ t ∈ nf, containsA heap t = true)
    (hval : heapValid heap) :
    ∀ t ∈ completeNew heap visited rem nf lhe, containsA heap t = true := by
  cases rem with
  | nil => exact hnf
  | cons p rest =>
      rw [completeNew_cons]
      cases hlk : lookupA heap p with
      | none => exact collectNew_pres heap visited rest nf hnf hval
      | some mh =>
          refine collectNew_pres heap visited rest _ ?_ hval
          refine collectInner_pres heap visited nf _ hnf ?_
          intro v hv hty
          exact hval (p, mh) (lookupA_mem hlk) v (List.drop_subset _ _ hv) hty

/-- Total slot count of the cells named by `l` (absent identifiers count 0). -/
def slotSumI (heap : List (Int × MemoryHandle)) (l : List Int) : Int :=
  (l.map fun p =>
    match lookupA heap p with
    | some mh => (mh.data.length : Int)
    | none => 0).sum

theorem slotSumI_nil (heap : List (Int × MemoryHandle)) : slotSumI heap [] = 0 := rfl

theorem slotSumI_cons (heap : List (Int × MemoryHandle)) (p : Int) (rest : List Int) :
    slotSumI heap (p :: rest) =
      (match lookupA heap p with
       | some mh => (mh.data.length : Int)
       | none => 0) + slotSumI heap rest := by
  unfold slotSumI
  rw [List.map_cons, List.sum_cons]

theorem slotSumI_congr {heap' heap : List (Int × MemoryHandle)}
    (hk : heap'.map Prod.fst = heap.map Prod.fst)
    (he : ∀ q mh', lookupA heap' q = some mh' →
      ∃ mh, lookupA heap q = some mh ∧ mh'.data = mh.data) :
    ∀ l, slotSumI heap' l = slotSumI heap l := by
  intro l
  unfold slotSumI
  congr 1
  refine List.map_congr_left (fun p _ => ?_)
  cases ho : lookupA heap' p with
  | some mh' =>
      obtain ⟨mh, hm, hd⟩ := he p mh' ho
      rw [hm]
      simp only []
      rw [hd]
  | none =>
      have hc : containsA heap p = false := by
        rw [← containsA_eq_of_keys_eq hk p]
        unfold containsA
        rw [ho]
        rfl
      have : lookupA heap p = none := by
        unfold containsA at hc
        cases hl : lookupA heap p with
        | none => rfl
        | some mh => rw [hl] at hc; exact absurd hc (by simp)
      rw [this]

/-- Total slot count of the whole heap store. -/
def totalSlots (heap : List (Int × MemoryHandle)) : Int :=
  (heap.map fun kv => (kv.2.data.length : Int)).sum

theorem totalSlots_nonneg (heap : List (Int × MemoryHandle)) :
    0 ≤ totalSlots heap := by
  unfold totalSlots
  refine List.sum_nonneg (fun x hx => ?_)
  obtain ⟨kv, _, hkv⟩ := List.mem_map.mp hx
  rw [← hkv]
  positivity

theorem slotSumI_le_totalSlots : ∀ (l : List Int) (heap : List (Int × MemoryHandle)),
    l.Nodup → (heap.map Prod.fst).Nodup → slotSumI heap l ≤ totalSlots heap
  | [], heap, _, _ => by
      rw [slotSumI_nil]
      exact totalSlots_nonneg heap
  | p :: rest, heap, hl, hk => by
      rw [slotSumI_cons]
      simp only [List.nodup_cons] at hl
      cases hlk : lookupA heap p with
      | none =>
          simp only []
          have := slotSumI_le_totalSlots rest heap hl.2 hk
          omega
      | some mh =>
          simp only []
          have herased : slotSumI heap rest = slotSumI (eraseA heap p) rest := by
            unfold slotSumI
            congr 1
            refine List.map_congr_left (fun q hq => ?_)
            rw [lookupA_eraseA p q hk, if_neg (by intro h; exact hl.1 (by rwa [h] at hq))]
          have hsub : ((eraseA heap p).map Prod.fst).Nodup :=
            (keys_eraseA_sublist heap p).nodup hk
          have hIH := slotSumI_le_totalSlots rest (eraseA heap p) hl.2 hsub
          have hts : totalSlots (eraseA heap p) = totalSlots heap - (mh.data.length : Int) :=
            sum_map_eraseA heap p (fun b => (b.data.length : Int)) hk hlk
          rw [herased]
          omega

/-- Heap-store slot validity transfers along keys- and data-preserving maps. -/
theorem heapValid_congr {heap' heap : List (Int × MemoryHandle)}
    (hk : heap'.map Prod.fst = heap.map Prod.fst)
    (hn : (heap'.map Prod.fst).Nodup)
    (he : ∀ q mh', lookupA heap' q = some mh' →
      ∃ mh, lookupA heap q = some mh ∧ mh'.data = mh.data)
    (hv : heapValid heap) : heapValid heap' := by
  intro kv hkv v hvd hty
  have hlk : lookupA heap' kv.1 = some kv.2 := by
    have hkv2 : (kv.1, kv.2) ∈ heap' := by
      cases kv
      exact hkv
    exact lookupA_of_mem_nodup hkv2 hn
  obtain ⟨mh, hm, hd⟩ := he kv.1 kv.2 hlk
  rw [containsA_eq_of_keys_eq hk]
  exact hv (kv.1, mh) (lookupA_mem hm) v (hd ▸ hvd) hty

theorem slotSumI_setFlagBit (heap : List (Int × MemoryHandle)) (p : Int)
    (l : List Int) : slotSumI (setFlagBit heap p) l = slotSumI heap l := by
  refine slotSumI_congr (keys_setFlagBit heap p) ?_ l
  intro q mh' hq
  rw [lookupA_setFlagBit] at hq
  by_cases hpq : p = q
  · rw [if_pos hpq] at hq
    cases ho : lookupA heap q with
    | none => rw [ho] at hq; exact absurd hq (by simp)
    | some mh =>
        rw [ho] at hq
        injection hq with hq
        exact ⟨mh, rfl, by rw [← hq]; rfl⟩
  · rw [if_neg hpq] at hq
    exact ⟨mh', hq, rfl⟩

/-- One budgeted pass of the outer mark loop from aligned cursors over a
fully present frontier remainder: it never fails, the step counter stays
within the budget, a completing pass realises exactly the unbudgeted
completion (`markAll` / `completeNew`), and an early return leaves cursors
from which the completion of the unscanned suffix agrees with the completion
of the whole remainder, having consumed exactly the remaining budget. -/
theorem markOuter_budget : ∀ (rem : List Int) (heap : List (Int × MemoryHandle))
      (visited nf : List Int) (i lhe sc k : Int),
    (∀ t ∈ rem, containsA heap t = true) →
    0 ≤ lhe → 0 ≤ sc → sc ≤ k →
    (∀ p rest', rem = p :: rest' → ∀ mh, lookupA heap p = some mh →
        lhe ≤ (mh.data.length : Int)) →
    ∃ r, markOuter heap visited rem nf i i lhe sc (some k) = .ok r ∧
      0 ≤ r.sc ∧ r.sc ≤ k ∧
      (r.early = false →
        r.heap = markAll heap rem ∧
        r.newf = completeNew heap visited rem nf lhe) ∧
      (r.early = true →
        i ≤ r.lh ∧ 0 ≤ r.lhe ∧ r.sc = k ∧
        (r.lh - i).toNat < rem.length ∧
        (∀ p rest', rem.drop (r.lh - i).toNat = p :: rest' →
            ∀ mh, lookupA r.heap p = some mh → r.lhe ≤ (mh.data.length : Int)) ∧
        markAll r.heap (rem.drop (r.lh - i).toNat) = markAll heap rem ∧
        completeNew r.heap visited (rem.drop (r.lh - i).toNat) r.newf r.lhe =
          completeNew heap visited rem nf lhe ∧
        slotSumI heap (rem.drop (r.lh - i).toNat) - r.lhe ≤
          slotSumI heap rem - lhe - (k - sc))
  | [], heap, visited, nf, i, lhe, sc, k, _, _, hsc0, hsck, _ => by
      refine ⟨⟨heap, nf, i, lhe, sc, false⟩, rfl, hsc0, hsck, ?_, ?_⟩
      · intro _
        exact ⟨rfl, rfl⟩
      · intro h
        exact absurd h (by simp)
  | p :: rest, heap, visited, nf, i, lhe, sc, k, hpres, hlhe0, hsc0, hsck, hfirst => by
      obtain ⟨mh, hmh⟩ := containsA_iff.mp (hpres p (List.mem_cons_self _ _))
      have hlheb : lhe ≤ (mh.data.length : Int) := hfirst p rest rfl mh hmh
      have hinner0 : markInner visited nf mh.data 0 lhe sc (some k) =
          markInner visited nf (mh.data.drop lhe.toNat) lhe lhe sc (some k) := by
        have hmd := markInner_drop lhe.toNat mh.data visited nf 0 sc (some k)
        have e0 : (0 : Int) + (lhe.toNat : Int) = lhe := by omega
        rw [e0] at hmd
        exact hmd
      have hlend : (mh.data.drop lhe.toNat).length = mh.data.length - lhe.toNat :=
        List.length_drop _ _
      have hpres' : ∀ t ∈ rest, containsA (setFlagBit heap p) t = true := by
        intro t ht
        rw [containsA_eq_of_keys_eq (keys_setFlagBit heap p)]
        exact hpres t (List.mem_cons_of_mem _ ht)
      by_cases hbud : ((mh.data.drop lhe.toNat).length : Int) ≤ k - sc
      · -- the cell completes within the budget
        have hmiD := markInner_scan_done (mh.data.drop lhe.toNat) visited nf lhe sc k hbud
        obtain ⟨r, hr, hrsc0, hrsck, hdone, hearly⟩ :=
          markOuter_budget rest (setFlagBit heap p) visited
            (collectInner visited nf (mh.data.drop lhe.toNat)) (i + 1) 0
            (sc + ((mh.data.drop lhe.toNat).length : Int)) k hpres'
            (le_refl 0) (by omega) (by omega)
            (fun p' rest'' _ mh' _ => by positivity)
        refine ⟨r, ?_, hrsc0, hrsck, ?_, ?_⟩
        · rw [markOuter_cons, if_neg (lt_irrefl i), hmh]
          simp only []
          rw [hinner0, hmiD]
          simp only []
          exact hr
        · intro hfalse
          obtain ⟨hh, hn⟩ := hdone hfalse
          constructor
          · rw [hh, markAll_cons]
          · rw [hn, completeNew_zero, collectNew_setFlagBit, completeNew_cons, hmh]
        · intro htrue
          obtain ⟨hile, hrlhe0, hrsck', hlt, hfb, hmA, hcN, hslot⟩ := hearly htrue
          have hdel : (r.lh - i).toNat = (r.lh - (i + 1)).toNat + 1 := by omega
          refine ⟨by omega, hrlhe0, hrsck', ?_, ?_, ?_, ?_, ?_⟩
          · rw [hdel]
            simp only [List.length_cons]
            omega
          · rw [hdel, List.drop_succ_cons]
            exact hfb
          · rw [hdel, List.drop_succ_cons, hmA, markAll_cons]
          · rw [hdel, List.drop_succ_cons, hcN, completeNew_zero,
              collectNew_setFlagBit, completeNew_cons, hmh]
          · rw [hdel, List.drop_succ_cons]
            rw [slotSumI_setFlagBit, slotSumI_setFlagBit] at hslot
            rw [slotSumI_cons, hmh]
            simp only []
            omega
      · -- the budget runs out inside this cell
        push_neg at hbud
        have hmiE := markInner_scan_early (mh.data.drop lhe.toNat) visited nf lhe sc k
          (by omega) hbud
        refine ⟨⟨setFlagBit heap p,
          collectInner visited nf ((mh.data.drop lhe.toNat).take (k - sc).toNat),
          i, lhe + (k - sc), k, true⟩, ?_, show (0 : Int) ≤ k by omega,
          le_refl k, ?_, ?_⟩
        · rw [markOuter_cons, if_neg (lt_irrefl i), hmh]
          simp only []
          rw [hinner0, hmiE]
        · intro hfalse
          exact absurd hfalse (by simp)
        · intro _
          simp only []
          have hz : (i - i).toNat = 0 := by omega
          rw [hz, List.drop_zero]
          have hlkP : lookupA (setFlagBit heap p) p = some (markF mh) := by
            rw [lookupA_setFlagBit, if_pos rfl, hmh]
            rfl
          refine ⟨le_refl i, by omega, trivial, by simp only [List.length_cons]; omega,
            ?_, ?_, ?_, ?_⟩
          · intro p' rest'' hpr mh' hm'
            injection hpr with hp1 hp2
            subst hp1
            rw [hlkP] at hm'
            injection hm' with hm'
            rw [← hm']
            have : (markF mh).data = mh.data := rfl
            rw [this]
            omega
          · rw [markAll_cons, markAll_cons, setFlagBit_idem]
          · rw [completeNew_cons, hlkP]
            simp only []
            have hdd : (markF mh).data.drop (lhe + (k - sc)).toNat =
                (mh.data.drop lhe.toNat).drop (k - sc).toNat := by
              have : (markF mh).data = mh.data := rfl
              rw [this, List.drop_drop]
              congr 1
              omega
            rw [hdd, ← collectInner_append, List.take_append_drop,
              collectNew_setFlagBit, completeNew_cons, hmh]
          · omega

theorem context_fields_eq {c c' : Context}
    (h1 : c.m_alloc_counter = c'.m_alloc_counter) (h2 : c.m_data = c'.m_data)
    (h3 : c.m_mem_handles = c'.m_mem_handles)
    (h4 : c.m_gc_candidates = c'.m_gc_candidates)
    (h5 : c.m_magc_visited_mem_handles = c'.m_magc_visited_mem_handles)
    (h6 : c.m_magc_next_mem_handles = c'.m_magc_next_mem_handles)
    (h7 : c.m_magc_new_mem_handles = c'.m_magc_new_mem_handles)
    (h8 : c.m_magc_last_handle = c'.m_magc_last_handle)
    (h9 : c.m_magc_last_handle_entry = c'.m_magc_last_handle_entry)
    (h10 : c.m_magc_state = c'.m_magc_state) : c = c' := by
  cases c
  cases c'
  simp_all

/-- The context at the exit of the budgeted while loop, just before the
sweep: marked heap, final visited set, empty frontiers, reset cursors. -/
def mkDone (c : Context) (heapF : List (Int × MemoryHandle))
    (visitedF : List Int) : Context :=
  { c with
      m_mem_handles := heapF,
      m_magc_visited_mem_handles := visitedF,
      m_magc_next_mem_handles := [],
      m_magc_new_mem_handles := [],
      m_magc_last_handle := 0,
      m_magc_last_handle_entry := 0,
      m_magc_state := 3 }

/-- The resumable-state invariant of the budgeted major GC between loop
iterations (states 3 and 4): completing the mark phase from the stored
cursors yields the fixed marked heap `heapF` and visited set `visitedF`
of the corresponding one-shot mark loop (`g` bounds the remaining frontier
generations). -/
structure IncInv (c : Context) (g : Nat) (heapF : List (Int × MemoryHandle))
    (visitedF : List Int) : Prop where
  keysN : (c.m_mem_handles.map Prod.fst).Nodup
  pres : ∀ t ∈ c.m_magc_next_mem_handles, containsA c.m_mem_handles t = true
  hval : heapValid c.m_mem_handles
  nnd : c.m_magc_next_mem_handles.Nodup
  aid : ∀ kv ∈ c.m_mem_handles, kv.2.alloc_id = kv.1
  stOk : c.m_magc_state = 3 ∨ c.m_magc_state = 4
  s3 : c.m_magc_state = 3 →
    c.m_magc_last_handle = 0 ∧ c.m_magc_last_handle_entry = 0 ∧
    c.m_magc_new_mem_handles = [] ∧ g ≤ c.m_mem_handles.length + 1 ∧
    markLoop g c.m_mem_handles c.m_magc_visited_mem_handles
      c.m_magc_next_mem_handles = .ok (heapF, visitedF)
  s4 : c.m_magc_state = 4 →
    0 ≤ c.m_magc_last_handle ∧ 0 ≤ c.m_magc_last_handle_entry ∧
    c.m_magc_last_handle.toNat < c.m_magc_next_mem_handles.length ∧
    g ≤ c.m_mem_handles.length ∧
    (∀ p rest', c.m_magc_next_mem_handles.drop c.m_magc_last_handle.toNat
        = p :: rest' →
      ∀ mh, lookupA c.m_mem_handles p = some mh →
        c.m_magc_last_handle_entry ≤ (mh.data.length : Int)) ∧
    (∀ t ∈ completeNew c.m_mem_handles c.m_magc_visited_mem_handles
        (c.m_magc_next_mem_handles.drop c.m_magc_last_handle.toNat)
        c.m_magc_new_mem_handles c.m_magc_last_handle_entry,
      containsA c.m_mem_handles t = true) ∧
    (completeNew c.m_mem_handles c.m_magc_visited_mem_handles
        (c.m_magc_next_mem_handles.drop c.m_magc_last_handle.toNat)
        c.m_magc_new_mem_handles c.m_magc_last_handle_entry).Nodup ∧
    markLoop g
      (markAll c.m_mem_handles
        (c.m_magc_next_mem_handles.drop c.m_magc_last_handle.toNat))
      c.m_magc_visited_mem_handles
      (completeNew c.m_mem_handles c.m_magc_visited_mem_handles
        (c.m_magc_next_mem_handles.drop c.m_magc_last_handle.toNat)
        c.m_magc_new_mem_handles c.m_magc_last_handle_entry)
      = .ok (heapF, visitedF)

theorem incLoop_nil (fuel : Nat) (c : Context) (sc k : Int)
    (hnx : c.m_magc_next_mem_handles = []) :
    incLoop fuel c sc k = (.ok false, c) := by
  obtain ⟨a1, a2, a3, a4, a5, a6, a7, a8, a9, a10⟩ := c
  simp only [] at hnx
  subst hnx
  cases fuel <;> rfl

theorem incLoop_sim_nil {c : Context} {g : Nat}
    {heapF : List (Int × MemoryHandle)} {visitedF : List Int}
    (inv : IncInv c g heapF visitedF)
    (hnx : c.m_magc_next_mem_handles = []) (fuel : Nat) (sc k : Int) :
    incLoop fuel c sc k = (.ok false, mkDone c heapF visitedF) := by
  rw [incLoop_nil fuel c sc k hnx]
  rcases inv.stOk with hst | hst
  · obtain ⟨hlh, hlhe, hnew, _, hml⟩ := inv.s3 hst
    rw [hnx] at hml
    unfold markLoop at hml
    injection hml with hml
    injection hml with hmlh hmlv
    have : mkDone c heapF visitedF = c := by
      refine context_fields_eq rfl rfl ?_ rfl ?_ ?_ ?_ ?_ ?_ ?_ <;>
        simp only [mkDone]
      · rw [hmlh]
      · rw [hmlv]
      · rw [hnx]
      · rw [hnew]
      · rw [hlh]
      · rw [hlhe]
      · rw [hst]
    rw [this]
  · obtain ⟨_, _, hlt, _⟩ := inv.s4 hst
    rw [hnx] at hlt
    simp at hlt

/-- A flags-only evolution of the heap store: keys unchanged, every cell
keeps its data, refcount and identifier, flags at most gain the mark bit. -/
def HeapStep (heap heap' : List (Int × MemoryHandle)) : Prop :=
  heap'.map Prod.fst = heap.map Prod.fst ∧
  ∀ q mh', lookupA heap' q = some mh' → ∃ mh, lookupA heap q = some mh ∧
    mh'.data = mh.data ∧ mh'.ref_count = mh.ref_count ∧
    mh'.alloc_id = mh.alloc_id ∧
    (mh'.flags = mh.flags ∨ mh'.flags = setBit0 mh.flags)

theorem heapStep_refl (heap : List (Int × MemoryHandle)) : HeapStep heap heap :=
  ⟨rfl, fun _ mh' hq => ⟨mh', hq, rfl, rfl, rfl, Or.inl rfl⟩⟩

theorem heapStep_trans {h1 h2 h3 : List (Int × MemoryHandle)}
    (a : HeapStep h1 h2) (b : HeapStep h2 h3) : HeapStep h1 h3 := by
  refine ⟨b.1.trans a.1, fun q mh' hq => ?_⟩
  obtain ⟨mhm, hm, hd1, hr1, ha1, hf1⟩ := b.2 q mh' hq
  obtain ⟨mh, hm2, hd2, hr2, ha2, hf2⟩ := a.2 q mhm hm
  refine ⟨mh, hm2, hd1.trans hd2, hr1.trans hr2, ha1.trans ha2, ?_⟩
  rcases hf1 with hf1 | hf1 <;> rcases hf2 with hf2 | hf2
  · exact Or.inl (hf1.trans hf2)
  · exact Or.inr (hf1.trans hf2)
  · exact Or.inr (by rw [hf1, hf2])
  · exact Or.inr (by rw [hf1, hf2, setBit0_setBit0])

theorem heapStep_markOuter {next : List Int} {heap : List (Int × MemoryHandle)}
    {visited nf : List Int} {ih lh lhe sc : Int} {ms : Option Int}
    {r : MarkOuterRes}
    (h : markOuter heap visited next nf ih lh lhe sc ms = .ok r) :
    HeapStep heap r.heap :=
  ⟨(markOuter_entries next heap visited nf ih lh lhe sc ms r h).1,
   (markOuter_entries next heap visited nf ih lh lhe sc ms r h).2⟩

theorem heapStep_markAll (heap : List (Int × MemoryHandle)) (next : List Int) :
    HeapStep heap (markAll heap next) :=
  ⟨keys_markAll next heap, fun _ mh' hq => lookupA_markAll_entry hq⟩

theorem heapStep_contains {h h' : List (Int × MemoryHandle)} (hs : HeapStep h h')
    (t : Int) : containsA h' t = containsA h t :=
  containsA_eq_of_keys_eq hs.1 t

theorem heapStep_keysN {h h' : List (Int × MemoryHandle)} (hs : HeapStep h h')
    (hn : (h.map Prod.fst).Nodup) : (h'.map Prod.fst).Nodup := by
  rw [hs.1]
  exact hn

theorem heapStep_len {h h' : List (Int × MemoryHandle)} (hs : HeapStep h h') :
    h'.length = h.length := by
  have := congrArg List.length hs.1
  simpa using this

theorem heapStep_aid {h h' : List (Int × MemoryHandle)} (hs : HeapStep h h')
    (hn : (h.map Prod.fst).Nodup) (ha : ∀ kv ∈ h, kv.2.alloc_id = kv.1) :
    ∀ kv ∈ h', kv.2.alloc_id = kv.1 := by
  intro kv hkv
  have hlk : lookupA h' kv.1 = some kv.2 := by
    have h2 : (kv.1, kv.2) ∈ h' := by cases kv; exact hkv
    exact lookupA_of_mem_nodup h2 (heapStep_keysN hs hn)
  obtain ⟨mh, hm, _, _, hid, _⟩ := hs.2 kv.1 kv.2 hlk
  rw [hid]
  exact ha (kv.1, mh) (lookupA_mem hm)

theorem heapStep_hval {h h' : List (Int × MemoryHandle)} (hs : HeapStep h h')
    (hn : (h.map Prod.fst).Nodup) (hv : heapValid h) : heapValid h' :=
  heapValid_congr hs.1 (heapStep_keysN hs hn)
    (fun q mh' hq => by
      obtain ⟨mh, hm, hd, _⟩ := hs.2 q mh' hq
      exact ⟨mh, hm, hd⟩) hv

theorem heapStep_slot {h h' : List (Int × MemoryHandle)} (hs : HeapStep h h')
    (l : List Int) : slotSumI h' l = slotSumI h l :=
  slotSumI_congr hs.1
    (fun q mh' hq => by
      obtain ⟨mh, hm, hd, _⟩ := hs.2 q mh' hq
      exact ⟨mh, hm, hd⟩) l

theorem markOuter_lh_norm (heap : List (Int × MemoryHandle)) (visited : List Int)
    (next : List Int) (nf : List Int) (lh lhe sc : Int) (ms : Option Int)
    (h0 : 0 ≤ lh) :
    markOuter heap visited next nf 0 lh lhe sc ms =
      markOuter heap visited (next.drop lh.toNat) nf lh lh lhe sc ms := by
  have hd := markOuter_drop lh.toNat next heap visited nf 0 lhe sc ms
  rw [show (0 : Int) + (lh.toNat : Int) = lh by omega] at hd
  exact hd

theorem incLoop_cons (fuel' : Nat) (c : Context) (sc k : Int) (p : Int)
    (rest : List Int) (hnx : c.m_magc_next_mem_handles = p :: rest) :
    incLoop (fuel' + 1) c sc k =
      (let ctx1 :=
        if c.m_magc_state = 3 then
          { c with
              m_magc_visited_mem_handles :=
                c.m_magc_next_mem_handles.foldl insertS
                  c.m_magc_visited_mem_handles,
              m_magc_state := 4 }
        else c
       match (if ctx1.m_magc_state = 4 then
                markOuter ctx1.m_mem_handles ctx1.m_magc_visited_mem_handles
                  ctx1.m_magc_next_mem_handles ctx1.m_magc_new_mem_handles
                  0 ctx1.m_magc_last_handle ctx1.m_magc_last_handle_entry
                  sc (some k)
              else
                .ok ⟨ctx1.m_mem_handles, ctx1.m_magc_new_mem_handles,
                     ctx1.m_magc_last_handle, ctx1.m_magc_last_handle_entry,
                     sc, false⟩) with
       | .error e => (.error e, ctx1)
       | .ok r =>
           let ctx2 :=
             if ctx1.m_magc_state = 4 then
               { ctx1 with
                   m_mem_handles := r.heap,
                   m_magc_new_mem_handles := r.newf,
                   m_magc_last_handle := r.lh,
                   m_magc_last_handle_entry := r.lhe,
                   m_magc_state := if r.early then 4 else 5 }
             else ctx1
           if r.early then (.ok true, ctx2)
           else
             let ctx3 :=
               if ctx2.m_magc_state = 5 then
                 { ctx2 with
                     m_magc_last_handle := 0,
                     m_magc_last_handle_entry := 0,
                     m_magc_next_mem_handles := ctx2.m_magc_new_mem_handles,
                     m_magc_new_mem_handles := [],
                     m_magc_state := 3 }
               else ctx2
             incLoop fuel' ctx3 r.sc k) := by
  obtain ⟨a1, a2, a3, a4, a5, a6, a7, a8, a9, a10⟩ := c
  simp only [] at hnx
  subst hnx
  rfl

/-- One budgeted call of the incremental while loop, driven by its virtual
completion: with the invariant in force and enough fuel, it either finishes
the mark phase, returning exactly the mark loop's fixed point, or returns
early (budget exhausted) with the invariant re-established and the remaining
work strictly smaller (fewer generations, or the same generation with at
least the spent budget fewer pending slots). -/
theorem incLoop_sim : ∀ (fuel : Nat) (c : Context) (sc k : Int) (g : Nat)
      (heapF : List (Int × MemoryHandle)) (visitedF : List Int),
    IncInv c g heapF visitedF →
    0 ≤ sc → sc ≤ k → 1 ≤ k →
    (c.m_magc_state = 3 → g + 1 ≤ fuel) →
    (c.m_magc_state = 4 → g + 2 ≤ fuel) →
    (incLoop fuel c sc k = (.ok false, mkDone c heapF visitedF)) ∨
    (∃ cmid g', incLoop fuel c sc k = (.ok true, cmid) ∧
      IncInv cmid g' heapF visitedF ∧
      cmid.m_magc_state = 4 ∧
      cmid.m_data = c.m_data ∧
      cmid.m_gc_candidates = c.m_gc_candidates ∧
      cmid.m_alloc_counter = c.m_alloc_counter ∧
      HeapStep c.m_mem_handles cmid.m_mem_handles ∧
      (g' < g ∨ (g' = g ∧ c.m_magc_state = 4 ∧
        cmid.m_magc_next_mem_handles = c.m_magc_next_mem_handles ∧
        slotSumI c.m_mem_handles
            (cmid.m_magc_next_mem_handles.drop cmid.m_magc_last_handle.toNat) -
          cmid.m_magc_last_handle_entry ≤
        slotSumI c.m_mem_handles
            (c.m_magc_next_mem_handles.drop c.m_magc_last_handle.toNat) -
          c.m_magc_last_handle_entry - (k - sc))))
  | 0, c, sc, k, g, heapF, visitedF => by
      intro inv hsc0 hsck hk hf3 hf4
      cases hnx : c.m_magc_next_mem_handles with
      | nil => exact Or.inl (incLoop_sim_nil inv hnx 0 sc k)
      | cons p rest =>
          rcases inv.stOk with hst | hst
          · exact absurd (hf3 hst) (by omega)
          · exact absurd (hf4 hst) (by omega)
  | fuel' + 1, c, sc, k, g, heapF, visitedF => by
      intro inv hsc0 hsck hk hf3 hf4
      cases hnx : c.m_magc_next_mem_handles with
      | nil => exact Or.inl (incLoop_sim_nil inv hnx (fuel' + 1) sc k)
      | cons p rest =>
          rw [incLoop_cons fuel' c sc k p rest hnx, hnx]
          have hpres' : ∀ t ∈ p :: rest, containsA c.m_mem_handles t = true := by
            intro t ht
            exact inv.pres t (by rw [hnx]; exact ht)
          have hnnd : (p :: rest).Nodup := by
            rw [← hnx]
            exact inv.nnd
          rcases inv.stOk with hst | hst
          · -- entry at state 3: absorb the frontier, then scan it
            obtain ⟨hlh0, hlhe0, hnew0, hgb, hml⟩ := inv.s3 hst
            rw [hnx] at hml
            cases g with
            | zero =>
                rw [show markLoop 0 c.m_mem_handles c.m_magc_visited_mem_handles
                    (p :: rest) = .error .outOfFuel from rfl] at hml
                exact absurd hml (by simp)
            | succ g'' =>
                have hml1 : markLoop (g'' + 1) c.m_mem_handles
                    c.m_magc_visited_mem_handles (p :: rest) =
                  (match markOuter c.m_mem_handles
                      ((p :: rest).foldl insertS c.m_magc_visited_mem_handles)
                      (p :: rest) [] 0 0 0 0 none with
                   | .error e => .error e
                   | .ok r0 => markLoop g'' r0.heap
                       ((p :: rest).foldl insertS c.m_magc_visited_mem_handles)
                       r0.newf) := rfl
                rw [hml1] at hml
                obtain ⟨lh0, sc0, hmo⟩ := markOuter_none (p :: rest)
                  c.m_mem_handles
                  ((p :: rest).foldl insertS c.m_magc_visited_mem_handles)
                  [] 0 0 hpres'
                rw [hmo] at hml
                simp only [] at hml
                obtain ⟨rr, hr, hrsc0, hrsck, hdone, hearly⟩ :=
                  markOuter_budget (p :: rest) c.m_mem_handles
                    ((p :: rest).foldl insertS c.m_magc_visited_mem_handles)
                    [] 0 0 sc k hpres' (le_refl 0) hsc0 hsck
                    (fun p' rest'' _ mh' _ => by positivity)
                rw [if_pos hst]
                simp only []
                rw [hnew0, hlh0, hlhe0, hr]
                simp only [if_true]
                have hstepO : HeapStep c.m_mem_handles rr.heap :=
                  heapStep_markOuter hr
                cases hre : rr.early with
                | true =>
                    simp only [if_pos (rfl : true = true)]
                    obtain ⟨hile, hrlhe0, hrscE, hlt, hfb, hmA, hcN, hslot⟩ :=
                      hearly hre
                    rw [sub_zero] at hlt hfb hmA hcN hslot
                    refine Or.inr ⟨_, g'', rfl, ?_, rfl, rfl, rfl, rfl, hstepO,
                      Or.inl (Nat.lt_succ_self g'')⟩
                    refine ⟨?_, ?_, ?_, ?_, ?_, Or.inr rfl, ?_, ?_⟩
                    · exact heapStep_keysN hstepO inv.keysN
                    · intro t ht
                      rw [heapStep_contains hstepO]
                      exact hpres' t ht
                    · exact heapStep_hval hstepO inv.keysN inv.hval
                    · exact hnnd
                    · exact heapStep_aid hstepO inv.keysN inv.aid
                    · intro h3
                      exact absurd h3 (by norm_num)
                    · intro _
                      simp only []
                      rw [completeNew_zero] at hcN
                      refine ⟨by omega, hrlhe0, hlt, ?_, hfb, ?_, ?_, ?_⟩
                      · have hlen := heapStep_len hstepO
                        omega
                      · intro t ht
                        rw [hcN] at ht
                        rw [heapStep_contains hstepO]
                        exact collectNew_pres c.m_mem_handles _ _ _
                          (fun t' ht' => absurd ht' (List.not_mem_nil t'))
                          inv.hval t ht
                      · rw [hcN]
                        exact collectNew_nodup _ _ _ _ List.nodup_nil
                      · rw [hcN, hmA]
                        exact hml
                | false =>
                    simp only [if_neg (show ¬(false = true) by simp)]
                    obtain ⟨hrh, hrn⟩ := hdone hre
                    rw [completeNew_zero] at hrn
                    simp only [if_true]
                    have hinv3 : IncInv
                        { c with
                            m_mem_handles := rr.heap,
                            m_magc_visited_mem_handles :=
                              (p :: rest).foldl insertS
                                c.m_magc_visited_mem_handles,
                            m_magc_new_mem_handles := [],
                            m_magc_next_mem_handles := rr.newf,
                            m_magc_last_handle := 0,
                            m_magc_last_handle_entry := 0,
                            m_magc_state := 3 } g'' heapF visitedF := by
                      refine ⟨?_, ?_, ?_, ?_, ?_, Or.inl rfl, ?_, ?_⟩
                      · exact heapStep_keysN hstepO inv.keysN
                      · intro t ht
                        simp only [] at ht
                        rw [hrn] at ht
                        simp only []
                        rw [heapStep_contains hstepO]
                        exact collectNew_pres c.m_mem_handles _ _ _
                          (fun t' ht' => absurd ht' (List.not_mem_nil t'))
                          inv.hval t ht
                      · exact heapStep_hval hstepO inv.keysN inv.hval
                      · simp only []
                        rw [hrn]
                        exact collectNew_nodup _ _ _ _ List.nodup_nil
                      · exact heapStep_aid hstepO inv.keysN inv.aid
                      · intro _
                        refine ⟨rfl, rfl, rfl, ?_, ?_⟩
                        · simp only []
                          have hlen := heapStep_len hstepO
                          omega
                        · simp only []
                          rw [hrh, hrn]
                          exact hml
                      · intro h4
                        exact absurd h4 (by norm_num)
                    have hIH := incLoop_sim fuel' _ rr.sc k g'' heapF visitedF
                      hinv3 hrsc0 hrsck hk
                      (fun _ => by omega)
                      (fun h4 => absurd h4 (by norm_num))
                    rcases hIH with hIH | ⟨cmid, g3, heq, inv', hst4', hdata,
                        hcand, hcount, hstep', hdec⟩
                    · refine Or.inl ?_
                      rw [hIH]
                      rfl
                    · refine Or.inr ⟨cmid, g3, heq, inv', hst4', hdata, hcand,
                        hcount, heapStep_trans hstepO hstep', Or.inl ?_⟩
                      rcases hdec with hlt3 | ⟨_, habs, _⟩
                      · omega
                      · exact absurd habs (by norm_num)
          · -- entry at state 4: resume the scan at the stored cursors
            obtain ⟨hlh0, hlhe0, hltn, hgb4, hfb, hcnP, hcnN, hml4⟩ := inv.s4 hst
            rw [hnx] at hltn hfb hcnP hcnN hml4
            have hne3 : ¬(c.m_magc_state = 3) := by
              rw [hst]
              norm_num
            rw [if_neg hne3]
            simp only [if_pos hst]
            rw [hnx]
            rw [markOuter_lh_norm c.m_mem_handles c.m_magc_visited_mem_handles
              (p :: rest) c.m_magc_new_mem_handles c.m_magc_last_handle
              c.m_magc_last_handle_entry sc (some k) hlh0]
            have hpresd : ∀ t ∈ (p :: rest).drop c.m_magc_last_handle.toNat,
                containsA c.m_mem_handles t = true := by
              intro t ht
              exact hpres' t (List.drop_subset _ _ ht)
            obtain ⟨rr, hr, hrsc0, hrsck, hdone, hearly⟩ :=
              markOuter_budget ((p :: rest).drop c.m_magc_last_handle.toNat)
                c.m_mem_handles c.m_magc_visited_mem_handles
                c.m_magc_new_mem_handles c.m_magc_last_handle
                c.m_magc_last_handle_entry sc k hpresd hlhe0 hsc0 hsck hfb
            rw [hr]
            simp only []
            have hstepO : HeapStep c.m_mem_handles rr.heap :=
              heapStep_markOuter hr
            cases hre : rr.early with
            | true =>
                simp only [if_pos (rfl : true = true)]
                obtain ⟨hile, hrlhe0, hrscE, hlt, hfbE, hmA, hcN, hslot⟩ :=
                  hearly hre
                have hdd : ∀ (l : List Int),
                    (l.drop c.m_magc_last_handle.toNat).drop
                      (rr.lh - c.m_magc_last_handle).toNat = l.drop rr.lh.toNat := by
                  intro l
                  rw [List.drop_drop]
                  congr 1
                  omega
                rw [hdd] at hfbE hmA hcN hslot
                rw [show ((p :: rest).drop c.m_magc_last_handle.toNat).length =
                    (p :: rest).length - c.m_magc_last_handle.toNat from
                  List.length_drop _ _] at hlt
                refine Or.inr ⟨_, g, rfl, ?_, rfl, rfl, rfl, rfl, hstepO,
                  Or.inr ⟨rfl, hst, rfl, ?_⟩⟩
                · refine ⟨?_, ?_, ?_, ?_, ?_, Or.inr rfl, ?_, ?_⟩
                  · exact heapStep_keysN hstepO inv.keysN
                  · intro t ht
                    rw [heapStep_contains hstepO]
                    exact hpres' t ht
                  · exact heapStep_hval hstepO inv.keysN inv.hval
                  · exact hnnd
                  · exact heapStep_aid hstepO inv.keysN inv.aid
                  · intro h3
                    exact absurd h3 (by norm_num)
                  · intro _
                    simp only [hnx]
                    have hlenD : ((p :: rest).drop
                        c.m_magc_last_handle.toNat).length =
                        (p :: rest).length - c.m_magc_last_handle.toNat :=
                      List.length_drop _ _
                    refine ⟨by omega, hrlhe0, by omega, ?_, hfbE, ?_, ?_, ?_⟩
                    · have hlen := heapStep_len hstepO
                      omega
                    · intro t ht
                      rw [hcN] at ht
                      rw [heapStep_contains hstepO]
                      exact hcnP t ht
                    · rw [hcN]
                      exact hcnN
                    · rw [hcN, hmA]
                      exact hml4
                · simp only [hnx]
                  exact hslot
            | false =>
                simp only [if_neg (show ¬(false = true) by simp)]
                obtain ⟨hrh, hrn⟩ := hdone hre
                simp only [if_true]
                have hinv3 : IncInv
                    { c with
                        m_mem_handles := rr.heap,
                        m_magc_new_mem_handles := [],
                        m_magc_next_mem_handles := rr.newf,
                        m_magc_last_handle := 0,
                        m_magc_last_handle_entry := 0,
                        m_magc_state := 3 } g heapF visitedF := by
                  refine ⟨?_, ?_, ?_, ?_, ?_, Or.inl rfl, ?_, ?_⟩
                  · exact heapStep_keysN hstepO inv.keysN
                  · intro t ht
                    simp only [] at ht
                    rw [hrn] at ht
                    simp only []
                    rw [heapStep_contains hstepO]
                    exact hcnP t ht
                  · exact heapStep_hval hstepO inv.keysN inv.hval
                  · simp only []
                    rw [hrn]
                    exact hcnN
                  · exact heapStep_aid hstepO inv.keysN inv.aid
                  · intro _
                    refine ⟨rfl, rfl, rfl, ?_, ?_⟩
                    · simp only []
                      have hlen := heapStep_len hstepO
                      omega
                    · simp only []
                      rw [hrh, hrn]
                      exact hml4
                  · intro h4
                    exact absurd h4 (by norm_num)
                have hIH := incLoop_sim fuel' _ rr.sc k g heapF visitedF
                  hinv3 hrsc0 hrsck hk
                  (fun _ => by omega)
                  (fun h4 => absurd h4 (by norm_num))
                rcases hIH with hIH | ⟨cmid, g3, heq, inv', hst4', hdata,
                    hcand, hcount, hstep', hdec⟩
                · refine Or.inl ?_
                  rw [hIH]
                  rfl
                · refine Or.inr ⟨cmid, g3, heq, inv', hst4', hdata, hcand,
                    hcount, heapStep_trans hstepO hstep', ?_⟩
                  rcases hdec with hlt3 | ⟨_, habs, _⟩
                  · exact Or.inl hlt3
                  · exact absurd habs (by norm_num)

theorem decrefCheck_eq (c : Context) (id : Int) :
    decrefCheck c id =
      match lookupA c.m_mem_handles id with
      | some mh =>
          if mh.ref_count ≤ 0 then
            { c with m_gc_candidates := c.m_gc_candidates ++ [id] }
          else c
      | none => c := rfl

theorem decrefCheck_state (c : Context) (s : Int) (id : Int) :
    decrefCheck { c with m_magc_state := s } id =
      { decrefCheck c id with m_magc_state := s } := by
  rw [decrefCheck_eq, decrefCheck_eq]
  simp only []
  cases hlk : lookupA c.m_mem_handles id with
  | none => rfl
  | some mh =>
      simp only []
      by_cases hrc : mh.ref_count ≤ 0
      · rw [if_pos hrc, if_pos hrc]
      · rw [if_neg hrc, if_neg hrc]

theorem decrefPresent_state (c : Context) (s : Int) (id : Int) :
    decrefPresent { c with m_magc_state := s } id =
      { decrefPresent c id with m_magc_state := s } := by
  unfold decrefPresent
  exact decrefCheck_state { c with
    m_mem_handles := modifyA c.m_mem_handles id
      fun mh => { mh with ref_count := mh.ref_count - 1 } } s id

theorem decoupleFold_state : ∀ (data : List Value) (c : Context) (s : Int),
    data.foldl
      (fun c0 v =>
        if v.type = ValueType.memory_handle ∧
            containsA c0.m_mem_handles v.data = true then
          decrefPresent c0 v.data
        else c0)
      { c with m_magc_state := s } =
    { data.foldl
        (fun c0 v =>
          if v.type = ValueType.memory_handle ∧
              containsA c0.m_mem_handles v.data = true then
            decrefPresent c0 v.data
          else c0)
        c with m_magc_state := s }
  | [], c, s => rfl
  | v :: rest, c, s => by
      rw [List.foldl_cons, List.foldl_cons]
      simp only []
      by_cases hc : v.type = ValueType.memory_handle ∧
          containsA c.m_mem_handles v.data = true
      · rw [if_pos hc, if_pos hc, decrefPresent_state]
        exact decoupleFold_state rest (decrefPresent c v.data) s
      · rw [if_neg hc, if_neg hc]
        exact decoupleFold_state rest c s

theorem decoupleMemHandle_state (c : Context) (s : Int) (mh : MemoryHandle) :
    decoupleMemHandle { c with m_magc_state := s } mh =
      { decoupleMemHandle c mh with m_magc_state := s } := by
  unfold decoupleMemHandle
  exact decoupleFold_state mh.data c s

theorem decouplePass_nil (c : Context) : decouplePass c [] = (.ok (), c) := rfl

theorem decouplePass_cons (c : Context) (ga : Int) (rest : List Int) :
    decouplePass c (ga :: rest) =
      match lookupA c.m_mem_handles ga with
      | none => (.error .atOutOfRange, c)
      | some mh => decouplePass (decoupleMemHandle c mh) rest := rfl

theorem decouplePass_state : ∀ (l : List Int) (c : Context) (s : Int),
    decouplePass { c with m_magc_state := s } l =
      ((decouplePass c l).1, { (decouplePass c l).2 with m_magc_state := s })
  | [], c, s => rfl
  | ga :: rest, c, s => by
      rw [decouplePass_cons, decouplePass_cons]
      simp only []
      cases hlk : lookupA c.m_mem_handles ga with
      | none => rfl
      | some mh =>
          simp only []
          rw [decoupleMemHandle_state c s mh]
          exact decouplePass_state rest (decoupleMemHandle c mh) s

theorem destroyMemHandle_state (c : Context) (s : Int) (mh : MemoryHandle) :
    destroyMemHandle { c with m_magc_state := s } mh =
      { destroyMemHandle c mh with m_magc_state := s } := rfl

theorem destroyPass_nil (c : Context) : destroyPass c [] = (.ok (), c) := rfl

theorem destroyPass_cons (c : Context) (ga : Int) (rest : List Int) :
    destroyPass c (ga :: rest) =
      match lookupA c.m_mem_handles ga with
      | none => (.error .atOutOfRange, c)
      | some mh => destroyPass (destroyMemHandle c mh) rest := rfl

theorem destroyPass_state : ∀ (l : List Int) (c : Context) (s : Int),
    destroyPass { c with m_magc_state := s } l =
      ((destroyPass c l).1, { (destroyPass c l).2 with m_magc_state := s })
  | [], c, s => rfl
  | ga :: rest, c, s => by
      rw [destroyPass_cons, destroyPass_cons]
      simp only []
      cases hlk : lookupA c.m_mem_handles ga with
      | none => rfl
      | some mh =>
          simp only []
          rw [destroyMemHandle_state c s mh]
          exact destroyPass_state rest (destroyMemHandle c mh) s

theorem releaseGarbage_eq (c : Context) (G : List Int) :
    releaseGarbage c G =
      match decouplePass c (G.filter fun ga => containsA c.m_mem_handles ga) with
      | (.ok _, ctx1) =>
          destroyPass ctx1 (G.filter fun ga => containsA c.m_mem_handles ga)
      | (.error e, ctx1) => (.error e, ctx1) := rfl

/-- `releaseGarbage` neither reads nor changes the incremental state field:
it commutes with overwriting it. -/
theorem releaseGarbage_state (c : Context) (s : Int) (G : List Int) :
    releaseGarbage { c with m_magc_state := s } G =
      ((releaseGarbage c G).1,
       { (releaseGarbage c G).2 with m_magc_state := s }) := by
  rw [releaseGarbage_eq, releaseGarbage_eq]
  simp only []
  rw [decouplePass_state (G.filter fun ga => containsA c.m_mem_handles ga) c s]
  rcases hdp : decouplePass c (G.filter fun ga => containsA c.m_mem_handles ga)
    with ⟨e1, c1⟩
  cases e1 with
  | error e => simp only []
  | ok u =>
      simp only []
      rw [destroyPass_state (G.filter fun ga => containsA c.m_mem_handles ga) c1 s]

theorem heapStep_totalSlots {h h' : List (Int × MemoryHandle)}
    (hs : HeapStep h h') (hn : (h.map Prod.fst).Nodup) :
    totalSlots h' = totalSlots h := by
  refine sum_f_eq_of_lookup_eq h' h (fun mh => (mh.data.length : Int)) hs.1 hn ?_
  intro q mh' hq
  obtain ⟨mh, hm, hd, _⟩ := hs.2 q mh' hq
  exact ⟨mh, hm, by simp only []; rw [hd]⟩

theorem slotSumI_nonneg (heap : List (Int × MemoryHandle)) (l : List Int) :
    0 ≤ slotSumI heap l := by
  unfold slotSumI
  refine List.sum_nonneg (fun x hx => ?_)
  obtain ⟨p, _, hp⟩ := List.mem_map.mp hx
  rw [← hp]
  cases lookupA heap p with
  | none => exact le_refl 0
  | some mh => positivity

/-- The termination measure for the iterated budgeted calls: remaining
frontier generations, weighted by the total slot count, plus the pending
slots of the current generation. -/
def incMeasure (c : Context) (g : Nat) : Nat :=
  g * ((totalSlots c.m_mem_handles).toNat + 1) +
    (if c.m_magc_state = 4 then
      (slotSumI c.m_mem_handles
          (c.m_magc_next_mem_handles.drop c.m_magc_last_handle.toNat) -
        c.m_magc_last_handle_entry).toNat
     else 0)

theorem incinv_rs_nonneg {c : Context} {g : Nat}
    {heapF : List (Int × MemoryHandle)} {visitedF : List Int}
    (inv : IncInv c g heapF visitedF) (h4 : c.m_magc_state = 4) :
    0 ≤ slotSumI c.m_mem_handles
        (c.m_magc_next_mem_handles.drop c.m_magc_last_handle.toNat) -
      c.m_magc_last_handle_entry := by
  obtain ⟨hlh0, hlhe0, hltn, _, hfb, _⟩ := inv.s4 h4
  cases hdp : c.m_magc_next_mem_handles.drop c.m_magc_last_handle.toNat with
  | nil =>
      have hlen : (c.m_magc_next_mem_handles.drop
          c.m_magc_last_handle.toNat).length =
          c.m_magc_next_mem_handles.length - c.m_magc_last_handle.toNat :=
        List.length_drop _ _
      rw [hdp] at hlen
      simp at hlen
      omega
  | cons p rest' =>
      rw [slotSumI_cons]
      have hpn : p ∈ c.m_magc_next_mem_handles := by
        refine List.drop_subset c.m_magc_last_handle.toNat _ ?_
        rw [hdp]
        exact List.mem_cons_self _ _
      obtain ⟨mh, hmh⟩ := containsA_iff.mp (inv.pres p hpn)
      rw [hmh]
      have hle := hfb p rest' hdp mh hmh
      have hnn := slotSumI_nonneg c.m_mem_handles rest'
      simp only []
      omega

theorem majorGCInc_eq (ctx : Context) (max_steps : Int) :
    majorGCInc ctx max_steps =
      (let c0 :=
        if ctx.m_magc_state = 0 then
          { ctx with
              m_magc_next_mem_handles := [],
              m_magc_visited_mem_handles := [],
              m_magc_new_mem_handles := [],
              m_magc_state := 1 }
        else ctx
       let c1 :=
        if c0.m_magc_state = 1 then
          { c0 with
              m_mem_handles := clearMarkFlags c0.m_mem_handles,
              m_magc_state := 2 }
        else c0
       let c2 :=
        if c1.m_magc_state = 2 then
          { c1 with
              m_magc_next_mem_handles :=
                seedFrontier c1.m_data c1.m_magc_next_mem_handles,
              m_magc_state := 3 }
        else c1
       match incLoop (c2.m_mem_handles.length + 2) c2 0 max_steps with
       | (.error e, c3) => (.error e, c3)
       | (.ok true, c3) => (.ok (), c3)
       | (.ok false, c3) =>
           match releaseGarbage c3 (sweepGarbage c3.m_mem_handles) with
           | (.ok _, c4) => (.ok (), { c4 with m_magc_state := 0 })
           | (.error e, c4) => (.error e, c4)) := rfl

theorem iterUntilDone_succ (n' : Nat) (c : Context) (k : Int) :
    iterUntilDone (n' + 1) c k =
      match majorGCInc c k with
      | (.error e, c1) => (.error e, c1)
      | (.ok _, c1) =>
          if c1.m_magc_state = 0 then (.ok (), c1) else iterUntilDone n' c1 k := rfl

/-- Iterating `majorGC(k)` from any resumable state until the incremental
state returns to 0 terminates and produces exactly the swept-and-released
fixed point of the virtual completion. -/
theorem iter_sim (M : Nat) : ∀ (c : Context) (k : Int) (g : Nat)
      (heapF : List (Int × MemoryHandle)) (visitedF : List Int) (cRel : Context),
    incMeasure c g ≤ M →
    IncInv c g heapF visitedF → 1 ≤ k →
    releaseGarbage (mkDone c heapF visitedF) (sweepGarbage heapF) =
      (.ok (), cRel) →
    ∃ n, iterUntilDone n c k = (.ok (), { cRel with m_magc_state := 0 }) := by
  induction M using Nat.strong_induction_on with
  | _ M ih =>
      intro c k g heapF visitedF cRel hM inv hk hrel
      have hs0 : ¬(c.m_magc_state = 0) := by rcases inv.stOk with h | h <;> omega
      have hs1 : ¬(c.m_magc_state = 1) := by rcases inv.stOk with h | h <;> omega
      have hs2 : ¬(c.m_magc_state = 2) := by rcases inv.stOk with h | h <;> omega
      have hmg : majorGCInc c k =
          (match incLoop (c.m_mem_handles.length + 2) c 0 k with
           | (.error e, c3) => (.error e, c3)
           | (.ok true, c3) => (.ok (), c3)
           | (.ok false, c3) =>
               match releaseGarbage c3 (sweepGarbage c3.m_mem_handles) with
               | (.ok _, c4) => (.ok (), { c4 with m_magc_state := 0 })
               | (.error e, c4) => (.error e, c4)) := by
        rw [majorGCInc_eq]
        simp only []
        rw [if_neg hs0, if_neg hs1, if_neg hs2]
      have hloop := incLoop_sim (c.m_mem_handles.length + 2) c 0 k g heapF
        visitedF inv (le_refl 0) (by omega) hk
        (fun h3 => by have := (inv.s3 h3).2.2.2.1; omega)
        (fun h4 => by have := (inv.s4 h4).2.2.2.1; omega)
      rcases hloop with hdone | ⟨cmid, g', heq, inv', hst4', hdata, hcand,
          hcount, hstep', hdec⟩
      · refine ⟨1, ?_⟩
        rw [iterUntilDone_succ 0 c k, hmg, hdone]
        simp only []
        rw [show (mkDone c heapF visitedF).m_mem_handles = heapF from rfl,
          hrel]
        simp only [if_true]
      · have hrel' : releaseGarbage (mkDone cmid heapF visitedF)
            (sweepGarbage heapF) = (.ok (), cRel) := by
          rw [show mkDone cmid heapF visitedF = mkDone c heapF visitedF from
            context_fields_eq hcount hdata rfl hcand rfl rfl rfl rfl rfl rfl]
          exact hrel
        have hts : totalSlots cmid.m_mem_handles = totalSlots c.m_mem_handles :=
          heapStep_totalSlots hstep' inv.keysN
        have hrs'nn := incinv_rs_nonneg inv' hst4'
        have hrs'le : slotSumI cmid.m_mem_handles
            (cmid.m_magc_next_mem_handles.drop cmid.m_magc_last_handle.toNat) ≤
            totalSlots cmid.m_mem_handles := by
          refine slotSumI_le_totalSlots _ _ ?_ (heapStep_keysN hstep' inv.keysN)
          exact (List.drop_sublist _ _).nodup inv'.nnd
        have hdecM : incMeasure cmid g' < incMeasure c g := by
          unfold incMeasure
          rw [if_pos hst4', hts]
          have hlhe0'' : 0 ≤ cmid.m_magc_last_handle_entry :=
            (inv'.s4 hst4').2.1
          have hb : (slotSumI cmid.m_mem_handles
              (cmid.m_magc_next_mem_handles.drop
                cmid.m_magc_last_handle.toNat) -
              cmid.m_magc_last_handle_entry).toNat ≤
              (totalSlots c.m_mem_handles).toNat := by omega
          rcases hdec with hg | ⟨hgeq, hst4c, hnexteq, hslot⟩
          · have hmul : g' * ((totalSlots c.m_mem_handles).toNat + 1) +
                ((totalSlots c.m_mem_handles).toNat + 1) ≤
                g * ((totalSlots c.m_mem_handles).toNat + 1) := by
              have h1 : g' + 1 ≤ g := hg
              calc g' * ((totalSlots c.m_mem_handles).toNat + 1) +
                  ((totalSlots c.m_mem_handles).toNat + 1) =
                  (g' + 1) * ((totalSlots c.m_mem_handles).toNat + 1) := by
                    ring
                _ ≤ g * ((totalSlots c.m_mem_handles).toNat + 1) :=
                  Nat.mul_le_mul_right _ h1
            rcases inv.stOk with h3 | h4
            · rw [if_neg (by omega)]
              omega
            · rw [if_pos h4]
              have hrsc := incinv_rs_nonneg inv h4
              omega
          · rw [if_pos hst4c]
            subst hgeq
            have hslotT := heapStep_slot hstep'
              (cmid.m_magc_next_mem_handles.drop cmid.m_magc_last_handle.toNat)
            have hrsc := incinv_rs_nonneg inv hst4c
            have hk0 : (1 : Int) ≤ k := hk
            omega
        obtain ⟨n1, hn1⟩ := ih (incMeasure cmid g') (by omega) cmid k g'
          heapF visitedF cRel (le_refl _) inv' hk hrel'
        refine ⟨n1 + 1, ?_⟩
        rw [iterUntilDone_succ n1 c k, hmg, heq]
        simp only []
        rw [if_neg (show ¬(cmid.m_magc_state = 0) by omega)]
        exact hn1

theorem seedFrontier_nodup : ∀ (vars : List (Int × Value)) (next : List Int),
    next.Nodup → (seedFrontier vars next).Nodup
  | [], next, hn => hn
  | kv :: rest, next, hn => by
      unfold seedFrontier
      rw [List.foldl_cons]
      refine seedFrontier_nodup rest _ ?_
      by_cases hc : kv.2.type = ValueType.memory_handle
      · rw [if_pos hc]
        exact nodup_insertS hn
      · rw [if_neg hc]
        exact hn

theorem incLoop_zero_cons (c : Context) (sc k : Int) (p : Int)
    (rest : List Int) (hnx : c.m_magc_next_mem_handles = p :: rest) :
    incLoop 0 c sc k = (.error .outOfFuel, c) := by
  obtain ⟨a1, a2, a3, a4, a5, a6, a7, a8, a9, a10⟩ := c
  simp only [] at hnx
  subst hnx
  rfl

/-- The incremental while loop never adds or removes heap cells, whatever
state it is entered in and however it exits. -/
theorem incLoop_keys : ∀ (fuel : Nat) (c : Context) (sc k : Int),
    ((incLoop fuel c sc k).2).m_mem_handles.map Prod.fst =
      c.m_mem_handles.map Prod.fst
  | 0, c, sc, k => by
      cases hnx : c.m_magc_next_mem_handles with
      | nil => rw [incLoop_nil 0 c sc k hnx]
      | cons p rest => rw [incLoop_zero_cons c sc k p rest hnx]
  | fuel' + 1, c, sc, k => by
      cases hnx : c.m_magc_next_mem_handles with
      | nil => rw [incLoop_nil (fuel' + 1) c sc k hnx]
      | cons p rest =>
          rw [incLoop_cons fuel' c sc k p rest hnx]
          simp only []
          by_cases hst3 : c.m_magc_state = 3
          · rw [if_pos hst3]
            simp only []
            cases hmo : markOuter c.m_mem_handles
                (c.m_magc_next_mem_handles.foldl insertS
                  c.m_magc_visited_mem_handles)
                c.m_magc_next_mem_handles c.m_magc_new_mem_handles
                0 c.m_magc_last_handle c.m_magc_last_handle_entry sc (some k) with
            | error e =>
                simp only [if_true]
            | ok r =>
                simp only [if_true]
                have hkr : r.heap.map Prod.fst = c.m_mem_handles.map Prod.fst :=
                  (markOuter_entries _ _ _ _ _ _ _ _ _ _ hmo).1
                cases hre : r.early with
                | true =>
                    simp only [if_pos (rfl : true = true), if_true]
                    exact hkr
                | false =>
                    simp only [if_neg (show ¬(false = true) by simp), if_true]
                    rw [incLoop_keys fuel' _ r.sc k]
                    exact hkr
          · rw [if_neg hst3]
            by_cases hst4 : c.m_magc_state = 4
            · simp only [if_pos hst4]
              cases hmo : markOuter c.m_mem_handles
                  c.m_magc_visited_mem_handles
                  c.m_magc_next_mem_handles c.m_magc_new_mem_handles
                  0 c.m_magc_last_handle c.m_magc_last_handle_entry sc
                  (some k) with
              | error e =>
                  simp only [if_true]
              | ok r =>
                  simp only [if_true]
                  have hkr : r.heap.map Prod.fst =
                      c.m_mem_handles.map Prod.fst :=
                    (markOuter_entries _ _ _ _ _ _ _ _ _ _ hmo).1
                  cases hre : r.early with
                  | true =>
                      simp only [if_pos (rfl : true = true), if_true]
                      exact hkr
                  | false =>
                      simp only [if_neg (show ¬(false = true) by simp), if_true]
                      rw [incLoop_keys fuel' _ r.sc k]
                      exact hkr
            · simp only [if_neg hst4, if_neg (show ¬(false = true) by simp),
                if_true]
              by_cases hst5 : c.m_magc_state = 5
              · simp only [if_pos hst5]
                rw [incLoop_keys fuel' _ sc k]
              · simp only [if_neg hst5]
                rw [incLoop_keys fuel' _ sc k]

theorem releaseGarbage_state_pres (c : Context) (G : List Int) :
    (releaseGarbage c G).2.m_magc_state = c.m_magc_state := by
  have h := releaseGarbage_state c c.m_magc_state G
  rw [show { c with m_magc_state := c.m_magc_state } = c from
    context_fields_eq rfl rfl rfl rfl rfl rfl rfl rfl rfl rfl] at h
  have h2 := congrArg (fun x => (Prod.snd x).m_magc_state) h
  simp only [] at h2
  exact h2

/-- Part (b) of the incremental-equivalence spec sentence: a budgeted
`major_gc(k)` call that returns with the incremental state still nonzero
(the budget did not carry the collection through its sweep) removes no cell
whatsoever from the heap store. -/
theorem majorGCInc_unfinished_no_sweep (c : Context) (k : Int) (cmid : Context)
    (h : majorGCInc c k = (.ok (), cmid)) (hst : cmid.m_magc_state ≠ 0) :
    cmid.m_mem_handles.map Prod.fst = c.m_mem_handles.map Prod.fst := by
  rw [majorGCInc_eq] at h
  simp only [] at h
  set c0x :=
    if c.m_magc_state = 0 then
      { c with
          m_magc_next_mem_handles := [],
          m_magc_visited_mem_handles := [],
          m_magc_new_mem_handles := [],
          m_magc_state := 1 }
    else c with hc0
  set c1x :=
    if c0x.m_magc_state = 1 then
      { c0x with
          m_mem_handles := clearMarkFlags c0x.m_mem_handles,
          m_magc_state := 2 }
    else c0x with hc1
  set c2x :=
    if c1x.m_magc_state = 2 then
      { c1x with
          m_magc_next_mem_handles :=
            seedFrontier c1x.m_data c1x.m_magc_next_mem_handles,
          m_magc_state := 3 }
    else c1x with hc2
  have hkc2 : c2x.m_mem_handles.map Prod.fst =
      c.m_mem_handles.map Prod.fst := by
    have k2 : c2x.m_mem_handles = c1x.m_mem_handles := by
      rw [hc2]
      by_cases h2 : c1x.m_magc_state = 2
      · rw [if_pos h2]
      · rw [if_neg h2]
    have k1 : c1x.m_mem_handles.map Prod.fst =
        c0x.m_mem_handles.map Prod.fst := by
      rw [hc1]
      by_cases h1 : c0x.m_magc_state = 1
      · rw [if_pos h1]
        simp only []
        exact keys_clearMarkFlags c0x.m_mem_handles
      · rw [if_neg h1]
    have k0 : c0x.m_mem_handles = c.m_mem_handles := by
      rw [hc0]
      by_cases h0 : c.m_magc_state = 0
      · rw [if_pos h0]
      · rw [if_neg h0]
    rw [k2, k1, k0]
  rcases hloop : incLoop (c2x.m_mem_handles.length + 2) c2x 0 k with ⟨res, c3⟩
  rw [hloop] at h
  cases res with
  | error e =>
      simp only [] at h
      exact absurd h (by simp)
  | ok b =>
      cases b with
      | true =>
          simp only [] at h
          injection h with h1 h2
          subst h2
          have hkl := incLoop_keys (c2x.m_mem_handles.length + 2) c2x 0 k
          rw [hloop] at hkl
          simp only [] at hkl
          rw [hkl]
          exact hkc2
      | false =>
          simp only [] at h
          rcases hrel : releaseGarbage c3 (sweepGarbage c3.m_mem_handles)
            with ⟨e4, c4⟩
          rw [hrel] at h
          cases e4 with
          | error e =>
              simp only [] at h
              exact absurd h (by simp)
          | ok u =>
              simp only [] at h
              injection h with h1 h2
              subst h2
              exact absurd rfl hst

theorem majorGCFull_eq (ctx : Context) :
    majorGCFull ctx =
      (match markLoop ((clearMarkFlags ctx.m_mem_handles).length + 1)
          (clearMarkFlags ctx.m_mem_handles) []
          (seedFrontier ctx.m_data []) with
       | .error e => (.error e,
           { ctx with
               m_magc_next_mem_handles := seedFrontier ctx.m_data [],
               m_magc_visited_mem_handles := [],
               m_magc_new_mem_handles := [],
               m_mem_handles := clearMarkFlags ctx.m_mem_handles })
       | .ok (heap1, visited1) =>
           match releaseGarbage
               { ctx with
                   m_magc_next_mem_handles := [],
                   m_magc_visited_mem_handles := visited1,
                   m_magc_new_mem_handles := [],
                   m_mem_handles := heap1 }
               (sweepGarbage heap1) with
           | (.ok _, ctx2) => (.ok (), ctx2)
           | (.error e, ctx2) => (.error e, ctx2)) := rfl

/-- C2: on any context produced by a scripted run, the one-shot
`major_gc()` (sentinel budget −1) and the iteration of budgeted
`major_gc(k)` calls (any fixed `k ≥ 1`) until the incremental state returns
to 0 produce exactly the same final context — in particular the same
surviving set — and, fully generally, any budgeted call that returns with
the mark phase unfinished (state ≠ 0) sweeps no cell at all. -/
theorem C2_budgeted_equals_full (ops : List Op) (ctx : Context) (k : Int)
    (hr : runOps Context.init ops = .ok ctx) (hk : 1 ≤ k) (c' : Context)
    (hfull : majorGC ctx (-1) = (.ok (), c')) :
    (∃ n c'', iterUntilDone n ctx k = (.ok (), c'') ∧ c'' = c') ∧
    (∀ (c cmid : Context), majorGCInc c k = (.ok (), cmid) →
      cmid.m_magc_state ≠ 0 → heapKeys cmid = heapKeys c) := by
  have hW : WF ctx := WF_runOps ops Context.init ctx WF_init hr
  refine ⟨?_, fun c cmid h hst => majorGCInc_unfinished_no_sweep c k cmid h hst⟩
  rw [show majorGC ctx (-1) = majorGCFull ctx from by
    unfold majorGC; rw [if_pos rfl]] at hfull
  rw [majorGCFull_eq] at hfull
  cases hml : markLoop ((clearMarkFlags ctx.m_mem_handles).length + 1)
      (clearMarkFlags ctx.m_mem_handles) [] (seedFrontier ctx.m_data []) with
  | error e =>
      rw [hml] at hfull
      simp only [] at hfull
      exact absurd hfull (by simp)
  | ok pr =>
      obtain ⟨heap1, visited1⟩ := pr
      rw [hml] at hfull
      simp only [] at hfull
      rcases hrg : releaseGarbage
          { ctx with
              m_magc_next_mem_handles := [],
              m_magc_visited_mem_handles := visited1,
              m_magc_new_mem_handles := [],
              m_mem_handles := heap1 }
          (sweepGarbage heap1) with ⟨e1, ctx2⟩
      rw [hrg] at hfull
      cases e1 with
      | error e =>
          simp only [] at hfull
          exact absurd hfull (by simp)
      | ok u =>
          cases u
          simp only [] at hfull
          injection hfull with hfull1 hfull2
          -- the state 2 context of the first budgeted call's phases
          have hstate2 : ctx2.m_magc_state = 0 := by
            have hp := releaseGarbage_state_pres
              { ctx with
                  m_magc_next_mem_handles := [],
                  m_magc_visited_mem_handles := visited1,
                  m_magc_new_mem_handles := [],
                  m_mem_handles := heap1 }
              (sweepGarbage heap1)
            rw [hrg] at hp
            simp only [] at hp
            rw [hp]
            exact hW.stateZero
          have hinv0 : IncInv
              { ctx with
                  m_magc_next_mem_handles := seedFrontier ctx.m_data [],
                  m_magc_visited_mem_handles := [],
                  m_magc_new_mem_handles := [],
                  m_mem_handles := clearMarkFlags ctx.m_mem_handles,
                  m_magc_state := 3 }
              ((clearMarkFlags ctx.m_mem_handles).length + 1)
              heap1 visited1 := by
            refine ⟨?_, ?_, ?_, ?_, ?_, Or.inl rfl, ?_, ?_⟩
            · simp only []
              rw [keys_clearMarkFlags]
              exact hW.heapNodup
            · intro t ht
              simp only [] at ht ⊢
              rcases (mem_seedFrontier ctx.m_data [] t).mp ht with
                h0 | ⟨kv, hkv, hty, hdt⟩
              · exact absurd h0 (List.not_mem_nil t)
              · rw [containsA_eq_of_keys_eq
                  (keys_clearMarkFlags ctx.m_mem_handles), ← hdt]
                exact hW.varsValid kv hkv hty
            · simp only []
              refine heapValid_congr (keys_clearMarkFlags _) ?_ ?_ ?_
              · rw [keys_clearMarkFlags]
                exact hW.heapNodup
              · intro q mh' hq
                rw [lookupA_clearMarkFlags] at hq
                cases ho : lookupA ctx.m_mem_handles q with
                | none => rw [ho] at hq; exact absurd hq (by simp)
                | some mh =>
                    rw [ho] at hq
                    simp only [Option.map_some'] at hq
                    injection hq with hq
                    exact ⟨mh, rfl, by rw [← hq]⟩
              · intro kv hkv v hv hty
                exact hW.cellsValid kv hkv v hv hty
            · simp only []
              exact seedFrontier_nodup ctx.m_data [] List.nodup_nil
            · intro kv hkv
              simp only [] at hkv
              unfold clearMarkFlags at hkv
              obtain ⟨kv0, h0, hmap⟩ := List.mem_map.mp hkv
              rw [← hmap]
              simp only []
              exact hW.allocId kv0 h0
            · intro _
              refine ⟨hW.lhZero, hW.lheZero, rfl, ?_, ?_⟩
              · simp only []
                exact le_refl _
              · exact hml
            · intro h4
              exact absurd h4 (by norm_num)
          have hrel2 : releaseGarbage
              (mkDone
                { ctx with
                    m_magc_next_mem_handles := seedFrontier ctx.m_data [],
                    m_magc_visited_mem_handles := [],
                    m_magc_new_mem_handles := [],
                    m_mem_handles := clearMarkFlags ctx.m_mem_handles,
                    m_magc_state := 3 }
                heap1 visited1)
              (sweepGarbage heap1) =
              (.ok (), { ctx2 with m_magc_state := 3 }) := by
            have hmk : mkDone
                { ctx with
                    m_magc_next_mem_handles := seedFrontier ctx.m_data [],
                    m_magc_visited_mem_handles := [],
                    m_magc_new_mem_handles := [],
                    m_mem_handles := clearMarkFlags ctx.m_mem_handles,
                    m_magc_state := 3 }
                heap1 visited1 =
                { { ctx with
                      m_magc_next_mem_handles := [],
                      m_magc_visited_mem_handles := visited1,
                      m_magc_new_mem_handles := [],
                      m_mem_handles := heap1 } with m_magc_state := 3 } := by
              refine context_fields_eq rfl rfl rfl rfl rfl rfl rfl ?_ ?_ rfl
              · exact hW.lhZero.symm
              · exact hW.lheZero.symm
            rw [hmk]
            rw [releaseGarbage_state
              { ctx with
                  m_magc_next_mem_handles := [],
                  m_magc_visited_mem_handles := visited1,
                  m_magc_new_mem_handles := [],
                  m_mem_handles := heap1 }
              3 (sweepGarbage heap1), hrg]
          obtain ⟨n, hn⟩ := iter_sim
            (incMeasure
              { ctx with
                  m_magc_next_mem_handles := seedFrontier ctx.m_data [],
                  m_magc_visited_mem_handles := [],
                  m_magc_new_mem_handles := [],
                  m_mem_handles := clearMarkFlags ctx.m_mem_handles,
                  m_magc_state := 3 }
              ((clearMarkFlags ctx.m_mem_handles).length + 1))
            { ctx with
                m_magc_next_mem_handles := seedFrontier ctx.m_data [],
                m_magc_visited_mem_handles := [],
                m_magc_new_mem_handles := [],
                m_mem_handles := clearMarkFlags ctx.m_mem_handles,
                m_magc_state := 3 }
            k ((clearMarkFlags ctx.m_mem_handles).length + 1)
            heap1 visited1 { ctx2 with m_magc_state := 3 }
            (le_refl _) hinv0 hk hrel2
          have hback : ({ { ctx2 with m_magc_state := 3 } with
              m_magc_state := (0 : Int) } : Context) = ctx2 :=
            context_fields_eq rfl rfl rfl rfl rfl rfl rfl rfl rfl hstate2.symm
          rw [hback] at hn
          have hfirst : majorGCInc ctx k =
              majorGCInc
                { ctx with
                    m_magc_next_mem_handles := seedFrontier ctx.m_data [],
                    m_magc_visited_mem_handles := [],
                    m_magc_new_mem_handles := [],
                    m_mem_handles := clearMarkFlags ctx.m_mem_handles,
                    m_magc_state := 3 }
                k := by
            rw [majorGCInc_eq, majorGCInc_eq]
            simp only []
            rw [if_pos hW.stateZero]
            simp only [if_true, if_false,
              show ((1 : Int) = 1) = True from by simp,
              show ((2 : Int) = 2) = True from by simp,
              show ((3 : Int) = 0) = False from by simp,
              show ((3 : Int) = 1) = False from by simp,
              show ((3 : Int) = 2) = False from by simp]
          cases n with
          | zero =>
              rw [show iterUntilDone 0
                  { ctx with
                      m_magc_next_mem_handles := seedFrontier ctx.m_data [],
                      m_magc_visited_mem_handles := [],
                      m_magc_new_mem_handles := [],
                      m_mem_handles := clearMarkFlags ctx.m_mem_handles,
                      m_magc_state := 3 } k =
                (.error .outOfFuel,
                  { ctx with
                      m_magc_next_mem_handles := seedFrontier ctx.m_data [],
                      m_magc_visited_mem_handles := [],
                      m_magc_new_mem_handles := [],
                      m_mem_handles := clearMarkFlags ctx.m_mem_handles,
                      m_magc_state := 3 }) from rfl] at hn
              exact absurd hn (by simp)
          | succ m =>
              refine ⟨m + 1, ctx2, ?_, hfull2⟩
              rw [iterUntilDone_succ m ctx k, hfirst,
                ← iterUntilDone_succ m _ k]
              exact hn

theorem C2_budgeted_equals_full_witness :
    (∃ n c'', iterUntilDone n gcCycleCtx 1 = (.ok (), c'') ∧
      c'' = (majorGC gcCycleCtx (-1)).2) ∧
    (∀ (c cmid : Context), majorGCInc c 1 = (.ok (), cmid) →
      cmid.m_magc_state ≠ 0 → heapKeys cmid = heapKeys c) :=
  C2_budgeted_equals_full gcCycleOps gcCycleCtx 1 (by decide) (by decide)
    (majorGC gcCycleCtx (-1)).2 (by decide)

end TlcRt
